import Mathlib

/-!
# watchdog: glob matcher, rule engine and debouncer

A shallow embedding of `internal/matcher/matcher.go`, `internal/rule/engine.go` and
`internal/watcher/debounce.go`, together with the parts of the Go standard library
(`strings`, `unicode/utf8`, `path/filepath`) those files call.

Go strings are byte sequences, so a string is a list of bytes here. The library model is
the one of a build whose path separator is `/` (every GOOS but windows).
-/

namespace Watchdog

/-- A Go string: an immutable sequence of bytes. -/
abbrev GoString := List UInt8

/-- The bytes of a string literal: its UTF-8 encoding, as the Go compiler stores it. -/
def bytes (s : String) : GoString := s.toList.flatMap String.utf8EncodeChar

/-! ## Package strings (calls with a one-byte separator or substring) -/

namespace strings

/-- Go: strings.Contains(s, substr), every call site passing a one-byte substr. -/
def Contains : GoString → UInt8 → Bool
  | [], _ => false
  | c :: cs, b => if c = b then true else Contains cs b

/-- Go: strings.Index(s, substr) for a one-byte substr; none stands for the result -1. -/
def Index : GoString → UInt8 → Option Nat
  | [], _ => none
  | c :: cs, b => if c = b then some 0 else (Index cs b).map (· + 1)

/-- Go: strings.Split(s, sep) for a one-byte sep: the pieces between the separators,
always at least one piece. strings.SplitSeq yields the same pieces in the same order. -/
def Split : GoString → UInt8 → List GoString
  | [], _ => [[]]
  | c :: cs, sep =>
    if c = sep then [] :: Split cs sep
    else match Split cs sep with
      | [] => [[c]]
      | seg :: segs => (c :: seg) :: segs

end strings

/-! ## Package unicode/utf8 -/

namespace utf8

/-- Go: utf8.RuneError, U+FFFD. -/
def RuneError : Nat := 0xFFFD

/-- Go: the table utf8.first, one entry per leading byte: 0xF0 for ASCII, 0xF1 for an
invalid leading byte, otherwise the size in the low bits and the index of the accept range
of the second byte in the high bits. -/
def first (b : UInt8) : Nat :=
  let n := b.toNat
  if n < 0x80 then 0xF0
  else if n < 0xC2 then 0xF1
  else if n < 0xE0 then 0x02
  else if n = 0xE0 then 0x13
  else if n < 0xED then 0x03
  else if n = 0xED then 0x23
  else if n < 0xF0 then 0x03
  else if n = 0xF0 then 0x34
  else if n < 0xF4 then 0x04
  else if n = 0xF4 then 0x44
  else 0xF1

/-- Go: the table utf8.acceptRanges, the bounds (lo, hi) of the second byte. -/
def acceptRanges (i : Nat) : Nat × Nat :=
  match i with
  | 0 => (0x80, 0xBF)
  | 1 => (0xA0, 0xBF)
  | 2 => (0x80, 0x9F)
  | 3 => (0x90, 0xBF)
  | 4 => (0x80, 0x8F)
  | _ => (0, 0)

/-- Go: utf8.DecodeRuneInString(s), the first rune of s and its width in bytes;
(RuneError, 0) for the empty string and (RuneError, 1) for an invalid encoding. -/
def DecodeRuneInString (s : GoString) : Nat × Nat :=
  match s with
  | [] => (RuneError, 0)
  | s0 :: t =>
    let x := first s0
    if x ≥ 0xF0 then
      (if x = 0xF0 then (s0.toNat, 1) else (RuneError, 1))
    else
      let sz := x % 8
      let accept := acceptRanges (x / 16)
      if s.length < sz then (RuneError, 1)
      else match t with
        | [] => (RuneError, 1)
        | s1 :: t1 =>
          if s1.toNat < accept.1 ∨ accept.2 < s1.toNat then (RuneError, 1)
          else if sz ≤ 2 then ((s0.toNat % 32) * 64 + s1.toNat % 64, 2)
          else match t1 with
            | [] => (RuneError, 1)
            | s2 :: t2 =>
              if s2.toNat < 0x80 ∨ 0xBF < s2.toNat then (RuneError, 1)
              else if sz ≤ 3 then
                ((s0.toNat % 16) * 4096 + (s1.toNat % 64) * 64 + s2.toNat % 64, 3)
              else match t2 with
                | [] => (RuneError, 1)
                | s3 :: _ =>
                  if s3.toNat < 0x80 ∨ 0xBF < s3.toNat then (RuneError, 1)
                  else ((s0.toNat % 8) * 262144 + (s1.toNat % 64) * 4096
                          + (s2.toNat % 64) * 64 + s3.toNat % 64, 4)

end utf8

/-! ## Package path/filepath -/

namespace filepath

/-- Go: filepath.Separator, the byte `/`. -/
def Separator : UInt8 := 47

/-- Go: filepath.ToSlash(path): the identity where the separator is `/`, otherwise every
separator replaced by `/`. -/
def ToSlash (path : GoString) : GoString :=
  if Separator = 47 then path else path.map (fun c => if c = Separator then 47 else c)

/-- Go: the three results (rest, ok, err) of matchChunk, and of the search for a chunk
under a star: a malformed pattern, no match, or a match leaving rest. -/
inductive ChunkResult
  | bad
  | fail
  | ok (rest : GoString)
  deriving DecidableEq, Repr

/-- Go: the second loop of scanChunk, the length of the chunk: the index of the first
star outside a character class, a backslash taking the next byte with it. -/
def scanLen : GoString → Bool → Nat
  | [], _ => 0
  | c :: rest, inrange =>
    if c = 92 then
      match rest with
      | [] => 1
      | _ :: rest2 => 2 + scanLen rest2 inrange
    else if c = 91 then 1 + scanLen rest true
    else if c = 93 then 1 + scanLen rest false
    else if c = 42 then (if inrange then 1 + scanLen rest inrange else 0)
    else 1 + scanLen rest inrange

/-- Go: scanChunk(pattern) = (star, chunk, rest): the leading stars are dropped, the chunk
runs to the next star outside a character class. -/
def scanChunk (pattern : GoString) : Bool × GoString × GoString :=
  let star := (pattern.head? == some 42)
  let pattern := pattern.dropWhile (· == 42)
  let i := scanLen pattern false
  (star, pattern.take i, pattern.drop i)

/-- Go: getEsc(chunk), a possibly escaped rune of a character class and the rest of the
chunk; none stands for ErrBadPattern. -/
def getEsc (chunk : GoString) : Option (Nat × GoString) :=
  match chunk with
  | [] => none
  | c :: t =>
    if c = 45 ∨ c = 93 then none
    else
      let chunk := if c = 92 then t else chunk
      if chunk.isEmpty then none
      else
        let (r, n) := utf8.DecodeRuneInString chunk
        let nchunk := chunk.drop n
        if r = utf8.RuneError ∧ n = 1 then none
        else if nchunk.isEmpty then none
        else some (r, nchunk)

/-- Go: the loop of matchChunk that reads the ranges of a character class up to the
closing bracket; the result is (match, rest of chunk), none for ErrBadPattern. The first
argument bounds the number of iterations; each one consumes a byte of the chunk. -/
def rangeLoop : Nat → GoString → Nat → Bool → Nat → Option (Bool × GoString)
  | 0, _, _, _, _ => none
  | fuel + 1, chunk, r, matched, nrange =>
    if chunk.head? = some 93 ∧ nrange > 0 then some (matched, chunk.tail)
    else
      match getEsc chunk with
      | none => none
      | some (lo, chunk1) =>
        match (if chunk1.head? = some 45 then getEsc chunk1.tail else some (lo, chunk1)) with
        | none => none
        | some (hi, chunk2) =>
          rangeLoop fuel chunk2 r (matched || (decide (lo ≤ r) && decide (r ≤ hi))) (nrange + 1)

/-- Go: the loop of matchChunk(chunk, s), carrying the flag failed. The first argument
bounds the number of iterations; each one consumes a byte of the chunk. -/
def matchChunkLoop : Nat → GoString → GoString → Bool → ChunkResult
  | _, [], s, failed => if failed then .fail else .ok s
  | 0, _ :: _, _, _ => .bad
  | fuel + 1, c :: chunk, s, failed0 =>
    let failed := failed0 || s.isEmpty
    if c = 91 then
      let r := if failed then 0 else (utf8.DecodeRuneInString s).1
      let s1 := if failed then s else s.drop (utf8.DecodeRuneInString s).2
      let negated := (chunk.head? == some 94)
      let chunk1 := if negated then chunk.tail else chunk
      match rangeLoop (chunk1.length + 1) chunk1 r false 0 with
      | none => .bad
      | some (matched, chunk2) =>
        matchChunkLoop fuel chunk2 s1 (failed || (matched == negated))
    else if c = 63 then
      let failed1 := failed || (s.head? == some Separator)
      let s1 := if failed then s else s.drop (utf8.DecodeRuneInString s).2
      matchChunkLoop fuel chunk s1 failed1
    else if c = 92 then
      match chunk with
      | [] => .bad
      | c1 :: chunk1 =>
        matchChunkLoop fuel chunk1 (if failed then s else s.tail)
          (failed || (s.head? != some c1))
    else
      matchChunkLoop fuel chunk (if failed then s else s.tail) (failed || (s.head? != some c))

/-- Go: matchChunk(chunk, s): whether chunk matches the beginning of s, and the remainder
of s after the match. -/
def matchChunk (chunk s : GoString) : ChunkResult :=
  matchChunkLoop chunk.length chunk s false

/-- Go: the loop of Match under a star, `for i := 0; i < len(name) && name[i] !=
Separator; i++`, trying the chunk after skipping i+1 bytes; last says that the pattern is
exhausted, when a match must also exhaust the name. -/
def starLoop (chunk : GoString) (last : Bool) : GoString → ChunkResult
  | [] => .fail
  | c :: rest =>
    if c = Separator then .fail
    else
      match matchChunk chunk rest with
      | .ok t => if last && !t.isEmpty then starLoop chunk last rest else .ok t
      | .bad => .bad
      | .fail => starLoop chunk last rest

/-- Go: the loop Pattern of Match, one chunk per iteration; none stands for
ErrBadPattern. The first argument bounds the number of iterations; each one consumes a
byte of the pattern. -/
def matchLoop : Nat → GoString → GoString → Option Bool
  | _, [], name => some name.isEmpty
  | 0, _ :: _, _ => none
  | fuel + 1, p :: ps, name =>
    match scanChunk (p :: ps) with
    | (star, chunk, pattern) =>
      if star && chunk.isEmpty then some (!strings.Contains name Separator)
      else
        let search : ChunkResult :=
          match matchChunk chunk name with
          | .ok t =>
            if t.isEmpty || !pattern.isEmpty then .ok t
            else if star then starLoop chunk pattern.isEmpty name else .fail
          | .bad => .bad
          | .fail => if star then starLoop chunk pattern.isEmpty name else .fail
        match search with
        | .ok t => matchLoop fuel pattern t
        | .bad => none
        | .fail => some false

/-- Go: filepath.Match(pattern, name) = (matched, err); none stands for ErrBadPattern. -/
def Match (pattern name : GoString) : Option Bool :=
  matchLoop pattern.length pattern name

end filepath

/-! ## internal/matcher/matcher.go -/

/-- Go: the pattern segment that stands for any number of path segments. -/
def doubleStar : GoString := [42, 42]

/-- Go: matchSegment(pattern, name) with a bound on the depth of the recursion: the
first brace group of the pattern is replaced by each of its alternatives in turn;
a pattern without a closed brace group goes to filepath.Match, an error counting as no
match. -/
def matchSegmentFuel : Nat → GoString → GoString → Bool
  | 0, _, _ => false
  | fuel + 1, pattern, name =>
    let plain : Bool :=
      match filepath.Match pattern name with
      | none => false
      | some matched => matched
    match strings.Index pattern 123 with
    | none => plain
    | some idx =>
      match strings.Index (pattern.drop idx) 125 with
      | none => plain
      | some e =>
        let pre := pattern.take idx
        let suffix := pattern.drop (idx + e + 1)
        (strings.Split ((pattern.drop (idx + 1)).take (idx + e - (idx + 1))) 44).any
          (fun alt => matchSegmentFuel fuel (pre ++ alt ++ suffix) name)

/-- Go: matchSegment(pattern, name). Every recursive call is on a pattern at least two
bytes shorter, so a bound above the length of the pattern is never reached. -/
def matchSegment (pattern name : GoString) : Bool :=
  matchSegmentFuel (pattern.length + 1) pattern name

/-- Go: the last loop of matchSegments, `for pi < len(patParts) && patParts[pi] == "**"`,
and the test `pi == len(patParts)` after it. -/
def trailingStars : List GoString → Bool
  | [] => true
  | p :: ps => if p = doubleStar then trailingStars ps else false

/-- Go: matchSegments(patParts, nameParts). The two lists are the slices patParts[pi:]
and nameParts[ni:] of the loop; a step of the loop is the call on the two tails. -/
def matchSegments : List GoString → List GoString → Bool
  | [], nameParts => nameParts.isEmpty
  | p :: ps, [] => trailingStars (p :: ps)
  | p :: ps, n :: ns =>
    if p = doubleStar then
      (List.range ((n :: ns).length + 1)).any (fun skip => matchSegments ps ((n :: ns).drop skip))
    else if !matchSegment p n then false
    else matchSegments ps ns

/-- Go: globMatch(pattern, name). -/
def globMatch (pattern name : GoString) : Bool :=
  matchSegments (strings.Split pattern 47) (strings.Split name 47)

/-- Go: the loop of matchGlob over the segments of the path, `if seg == pattern`. -/
def bareNameLoop (pattern : GoString) : List GoString → Bool
  | [] => false
  | seg :: segs => if seg = pattern then true else bareNameLoop pattern segs

/-- Go: matchGlob(pattern, path). -/
def matchGlob (pattern path : GoString) : Bool :=
  let pattern := filepath.ToSlash pattern
  let path := filepath.ToSlash path
  if !strings.Contains pattern 47 && !strings.Contains pattern 42
      && !strings.Contains pattern 63 then
    bareNameLoop pattern (strings.Split path 47)
  else globMatch pattern path

/-- Go: MatchPattern(pattern, path). -/
def MatchPattern (pattern path : GoString) : Bool :=
  matchGlob pattern (filepath.ToSlash path)

/-- Go: type Matcher. -/
structure Matcher where
  includes : List GoString
  ignores : List GoString

/-- Go: matcher.New(includes, ignores). -/
def New (includes ignores : List GoString) : Matcher :=
  { includes := includes, ignores := ignores }

/-- Go: a loop `for _, p := range patterns { if matchGlob(p, path) { return ... } }`:
true when the loop returns from its body, false when it runs to its end. -/
def rangeMatchGlob : List GoString → GoString → Bool
  | [], _ => false
  | p :: ps, path => if matchGlob p path then true else rangeMatchGlob ps path

/-- Go: (m *Matcher) Match(path). -/
def Matcher.Match (m : Matcher) (path : GoString) : Bool :=
  let path := filepath.ToSlash path
  if rangeMatchGlob m.ignores path then false
  else if rangeMatchGlob m.includes path then true
  else false

/-! ## internal/config/config.go and internal/watcher/watcher.go: the types of the engine -/

/-- Go: config.Duration, a time.Duration in nanoseconds. -/
abbrev Duration := Int

/-- Go: config.Action. The map Headers is an association list; the field Type is
written Type_. -/
structure Action where
  Type_ : GoString
  Command : GoString
  Dir : GoString
  URL : GoString
  Method : GoString
  Headers : List (GoString × GoString)
  Timeout : Duration
  Format : GoString
  deriving DecidableEq, Repr

/-- Go: config.Rule. -/
structure Rule where
  Name : GoString
  Watch : List GoString
  Events : List GoString
  Debounce : Duration
  Action : Action
  deriving DecidableEq, Repr

/-- Go: watcher.EventType, a string type. -/
abbrev EventType := GoString

/-- Go: watcher.Create. -/
def Create : EventType := bytes "create"

/-- Go: watcher.Modify. -/
def Modify : EventType := bytes "modify"

/-- Go: watcher.Delete. -/
def Delete : EventType := bytes "delete"

/-- Go: watcher.Rename. -/
def Rename : EventType := bytes "rename"

/-- Go: watcher.Event; the field Type is written Type_. -/
structure Event where
  Path : GoString
  Type_ : EventType
  Name : GoString
  Dir : GoString
  deriving DecidableEq, Repr

/-! ## internal/rule/engine.go -/

/-- Go: rule.Match. -/
structure Match where
  RuleName : GoString
  Action : Action
  deriving DecidableEq, Repr

/-- Go: rule.Engine. -/
structure Engine where
  rules : List Rule
  globalIgnores : List GoString

/-- Go: slices.Contains(s, v) on strings. -/
def slicesContains : List GoString → GoString → Bool
  | [], _ => false
  | x :: xs, v => if x = v then true else slicesContains xs v

/-- Go: containsEvent(events, t). -/
def containsEvent (events : List GoString) (t : EventType) : Bool :=
  slicesContains events t

/-- Go: a loop `for _, p := range patterns { if matcher.MatchPattern(p, path) { return ... } }`:
true when the loop returns from its body, false when it runs to its end. -/
def rangeMatchPattern : List GoString → GoString → Bool
  | [], _ => false
  | p :: ps, path => if MatchPattern p path then true else rangeMatchPattern ps path

/-- Go: (e *Engine) matchesRule(r, ev). -/
def Engine.matchesRule (_e : Engine) (r : Rule) (ev : Event) : Bool :=
  if r.Events.length > 0 && !containsEvent r.Events ev.Type_ then false
  else rangeMatchPattern r.Watch ev.Path

/-- Go: the loop of Evaluate over the rules, appending to the slice matches. -/
def Engine.rulesLoop (e : Engine) (ev : Event) : List Rule → List Match → List Match
  | [], acc => acc
  | r :: rs, acc =>
    if !e.matchesRule r ev then Engine.rulesLoop e ev rs acc
    else Engine.rulesLoop e ev rs (acc ++ [{ RuleName := r.Name, Action := r.Action }])

/-- Go: (e *Engine) Evaluate(ev); the nil slice is the empty list. -/
def Engine.Evaluate (e : Engine) (ev : Event) : List Match :=
  if rangeMatchPattern e.globalIgnores ev.Path then []
  else Engine.rulesLoop e ev e.rules []

/-! ## internal/watcher/debounce.go

The Debouncer lives in a runtime with a clock, timers and goroutines. A state holds the
fields of the Debouncer and what the runtime knows: the time, the timers that are armed,
and the timer functions that have been started. Every step is one critical section of the
source (the code between Lock and Unlock), one statement of the source outside the lock
(close(d.done), the select of the timer function, its call of fn), or one act of the
runtime, so a run of the program is a list of steps in the order in which they take
effect. -/

/-- Go: a callback `fn func()`, known by a label; a call of it is recorded by the label. -/
abbrev Callback := Nat

/-- Go: the *time.Timer that TriggerWithDelay makes with time.AfterFunc: it expires at
deadline, and its function deletes key from the map and then calls fn. -/
structure Timer where
  id : Nat
  key : GoString
  deadline : Int
  fn : Callback
  deriving DecidableEq, Repr

/-- Go: type Debouncer (delay, timers, done) with the state of the runtime: the clock now,
the timers armed, the timer functions started that wait for the lock, those that have
released the lock and not yet reached their select, those that have taken the default
case of the select and not yet called fn, the calls of callbacks so far, and the next
fresh timer. The map timers is an association list from keys to timers. -/
structure Debouncer where
  delay : Duration
  timers : List (GoString × Nat)
  done : Bool
  now : Int
  armed : List Timer
  started : List Timer
  unlocked : List Timer
  selected : List Timer
  invoked : List Callback
  nextId : Nat
  deriving DecidableEq, Repr

/-- Go: the map read `m[key]` with its ok flag. -/
def mapGet : List (GoString × Nat) → GoString → Option Nat
  | [], _ => none
  | (k, v) :: rest, key => if k = key then some v else mapGet rest key

/-- Go: delete(m, key). -/
def mapDelete (m : List (GoString × Nat)) (key : GoString) : List (GoString × Nat) :=
  m.filter (fun e => e.1 != key)

/-- Go: the map write `m[key] = v`. -/
def mapSet (m : List (GoString × Nat)) (key : GoString) (v : Nat) : List (GoString × Nat) :=
  (key, v) :: mapDelete m key

/-- Go: (t *Timer) Stop(): an armed timer is disarmed; a timer whose function has been
started is left alone. -/
def timerStop (armed : List Timer) (id : Nat) : List Timer :=
  armed.filter (fun t => t.id != id)

/-- Go: NewDebouncer(delay), at the time now of the runtime. -/
def NewDebouncer (delay : Duration) (now : Int) : Debouncer :=
  { delay := delay, timers := [], done := false, now := now, armed := [], started := [],
    unlocked := [], selected := [], invoked := [], nextId := 0 }

/-- Go: (d *Debouncer) TriggerWithDelay(key, delay, fn), all of it under the lock: nothing
when done is closed; otherwise the timer of the key, if any, is stopped, and a new
timer that expires after delay is stored under the key. -/
def Debouncer.TriggerWithDelay (d : Debouncer) (key : GoString) (delay : Duration)
    (fn : Callback) : Debouncer :=
  if d.done then d
  else
    let armed :=
      match mapGet d.timers key with
      | some existing => timerStop d.armed existing
      | none => d.armed
    { d with
      timers := mapSet d.timers key d.nextId
      armed := armed ++ [{ id := d.nextId, key := key, deadline := d.now + delay, fn := fn }]
      nextId := d.nextId + 1 }

/-- Go: (d *Debouncer) Trigger(key, fn). -/
def Debouncer.Trigger (d : Debouncer) (key : GoString) (fn : Callback) : Debouncer :=
  d.TriggerWithDelay key d.delay fn

/-- Go: the first statement of Stop, `d.doneOne.Do(func() { close(d.done) })`. -/
def Debouncer.stopClose (d : Debouncer) : Debouncer :=
  { d with done := true }

/-- Go: the loop of Stop under the lock, over the entries of the map: `timer.Stop()` and
`delete(d.timers, key)`. -/
def Debouncer.stopSweep (d : Debouncer) : Debouncer :=
  d.timers.foldl
    (fun acc e => { acc with armed := timerStop acc.armed e.2, timers := mapDelete acc.timers e.1 })
    d

/-- The runtime lets time pass. -/
def Debouncer.advance (d : Debouncer) (dt : Nat) : Debouncer :=
  { d with now := d.now + dt }

/-- The runtime starts the function of an armed timer whose deadline has come, in its
own goroutine; a timer never expires before its deadline. -/
def Debouncer.expire (d : Debouncer) (id : Nat) : Option Debouncer :=
  match d.armed.find? (fun t => t.id == id) with
  | none => none
  | some t =>
    if t.deadline ≤ d.now then
      some { d with armed := timerStop d.armed id, started := d.started ++ [t] }
    else none

/-- Go: the first part of the timer function, `d.mu.Lock(); delete(d.timers, key);
d.mu.Unlock()`. -/
def Debouncer.timerLocked (d : Debouncer) (id : Nat) : Option Debouncer :=
  match d.started.find? (fun t => t.id == id) with
  | none => none
  | some t =>
    some { d with
      timers := mapDelete d.timers t.key
      started := d.started.filter (fun u => u.id != id)
      unlocked := d.unlocked ++ [t] }

/-- Go: the second part of the timer function, the select on done, outside the lock:
`return` when done is closed, otherwise the default case, which leads to the call of
fn. -/
def Debouncer.timerSelect (d : Debouncer) (id : Nat) : Option Debouncer :=
  match d.unlocked.find? (fun t => t.id == id) with
  | none => none
  | some t =>
    some { d with
      unlocked := d.unlocked.filter (fun u => u.id != id)
      selected := if d.done then d.selected else d.selected ++ [t] }

/-- Go: the call `fn()` in the default case of the select, a statement of its own after
the test of done. -/
def Debouncer.timerCall (d : Debouncer) (id : Nat) : Option Debouncer :=
  match d.selected.find? (fun t => t.id == id) with
  | none => none
  | some t =>
    some { d with
      selected := d.selected.filter (fun u => u.id != id)
      invoked := d.invoked ++ [t.fn] }

/-- The steps of a run: the calls of the program and the acts of the runtime. -/
inductive Step
  | Trigger (key : GoString) (fn : Callback)
  | TriggerWithDelay (key : GoString) (delay : Duration) (fn : Callback)
  | stopClose
  | stopSweep
  | advance (dt : Nat)
  | expire (id : Nat)
  | timerLocked (id : Nat)
  | timerSelect (id : Nat)
  | timerCall (id : Nat)
  deriving DecidableEq, Repr

/-- The effect of one step; none when the step cannot be taken in the state. -/
def Debouncer.step (d : Debouncer) : Step → Option Debouncer
  | .Trigger key fn => some (d.Trigger key fn)
  | .TriggerWithDelay key delay fn => some (d.TriggerWithDelay key delay fn)
  | .stopClose => some d.stopClose
  | .stopSweep => some d.stopSweep
  | .advance dt => some (d.advance dt)
  | .expire id => d.expire id
  | .timerLocked id => d.timerLocked id
  | .timerSelect id => d.timerSelect id
  | .timerCall id => d.timerCall id

/-- The effect of a list of steps, in order. -/
def Debouncer.run (d : Debouncer) : List Step → Option Debouncer
  | [] => some d
  | s :: rest =>
    match d.step s with
    | none => none
    | some d1 => Debouncer.run d1 rest

/-! ## github.com/fsnotify/fsnotify: the notifications the watcher reads -/

namespace fsnotify

/-- Go: fsnotify.Op, a set of operations held as a bit mask. -/
abbrev Op := Nat

/-- Go: fsnotify.Create, the first of `Create Op = 1 << iota`. -/
def Create : Op := 1

/-- Go: fsnotify.Write. -/
def Write : Op := 2

/-- Go: fsnotify.Remove. -/
def Remove : Op := 4

/-- Go: fsnotify.Rename. -/
def Rename : Op := 8

/-- Go: fsnotify.Chmod. -/
def Chmod : Op := 16

/-- Go: (o Op) Has(h), `o&h != 0`. -/
def Has (o h : Op) : Bool := (o &&& h) != 0

/-- Go: fsnotify.Event. -/
structure Event where
  Name : GoString
  Op : Op
  deriving DecidableEq, Repr

end fsnotify

/-! ## internal/watcher/watcher.go -/

/-- Go: translate(ev). The library functions filepath.Base and filepath.Dir are the
arguments base and dir; nil is none. -/
def translate (base dir : GoString → GoString) (ev : fsnotify.Event) : Option Event :=
  let mk (t : EventType) : Option Event :=
    some { Path := ev.Name, Type_ := t, Name := base ev.Name, Dir := dir ev.Name }
  if fsnotify.Has ev.Op fsnotify.Create then mk Create
  else if fsnotify.Has ev.Op fsnotify.Write then mk Modify
  else if fsnotify.Has ev.Op fsnotify.Remove then mk Delete
  else if fsnotify.Has ev.Op fsnotify.Rename then mk Rename
  else none

/-- One call of the function that addRecursive hands to filepath.WalkDir: the path
visited, whether the entry is a directory, and the error WalkDir met there, if any. -/
structure Visit where
  path : GoString
  isDir : Bool
  err : Option GoString
  deriving DecidableEq, Repr

/-- What the watcher sees of the world outside: filepath.Base and filepath.Dir, whether
os.Stat succeeds on a name and finds a directory, the entries filepath.WalkDir visits
from a root, in order, and the result of fsw.Add on a path (none for success). -/
structure FileSystem where
  base : GoString → GoString
  dir : GoString → GoString
  statIsDir : GoString → Bool
  walk : GoString → List Visit
  add : GoString → Option GoString

/-- Go: type Watcher. The channels Events and Errors are the lists of the values sent on
them so far, with a flag for closed; done is true once the channel done is closed;
looping says that the worker goroutine runs; watchList is the watch list of fsw. -/
structure Watcher where
  watchList : List GoString
  fswClosed : Bool
  Events : List Event
  eventsClosed : Bool
  Errors : List GoString
  errorsClosed : Bool
  done : Bool
  looping : Bool
  root : GoString
  deriving DecidableEq, Repr

/-- Go: the walk of addRecursive over the entries visited: the function returns the
error it is given, adds a directory to the watch list, and WalkDir stops at the first
error returned. The result is the watch list and the error (none for nil). -/
def addVisits (fs : FileSystem) : List Visit → List GoString → List GoString × Option GoString
  | [], watchList => (watchList, none)
  | v :: rest, watchList =>
    match v.err with
    | some e => (watchList, some e)
    | none =>
      if v.isDir then
        match fs.add v.path with
        | some e => (watchList, some e)
        | none => addVisits fs rest (watchList ++ [v.path])
      else addVisits fs rest watchList

/-- Go: (w *Watcher) addRecursive(root). -/
def Watcher.addRecursive (w : Watcher) (fs : FileSystem) (root : GoString) :
    Watcher × Option GoString :=
  let r := addVisits fs (fs.walk root) w.watchList
  ({ w with watchList := r.1 }, r.2)

/-- Go: watcher.New(root); newErr is the error of fsnotify.NewWatcher (none for nil). On
success the worker is started. -/
def Watcher.New (fs : FileSystem) (newErr : Option GoString) (root : GoString) :
    Except GoString Watcher :=
  match newErr with
  | some e => .error e
  | none =>
    let w : Watcher :=
      { watchList := [], fswClosed := false, Events := [], eventsClosed := false, Errors := [],
        errorsClosed := false, done := false, looping := false, root := root }
    match w.addRecursive fs root with
    | (_, some e) => .error e
    | (w1, none) => .ok { w1 with looping := true }

/-- Go: the return of loop with its deferred calls: Errors and Events are closed and the
wait group is released. -/
def Watcher.exitLoop (w : Watcher) : Watcher :=
  { w with errorsClosed := true, eventsClosed := true, looping := false }

/-- Go: the body of loop for a notification ev received from fsw.Events: translate, watch
a new directory, publish. The last select sends the event, or returns when done is closed
and that case is taken (doneTaken). -/
def Watcher.onEvent (w : Watcher) (fs : FileSystem) (ev : fsnotify.Event) (doneTaken : Bool) :
    Watcher :=
  match translate fs.base fs.dir ev with
  | none => w
  | some event =>
    let w1 :=
      if event.Type_ = Create then
        (if fs.statIsDir ev.Name then (w.addRecursive fs ev.Name).1 else w)
      else w
    if w1.done && doneTaken then w1.exitLoop
    else { w1 with Events := w1.Events ++ [event] }

/-- Go: the body of loop for an error received from fsw.Errors. -/
def Watcher.onError (w : Watcher) (err : GoString) (doneTaken : Bool) : Watcher :=
  if w.done && doneTaken then w.exitLoop
  else { w with Errors := w.Errors ++ [err] }

/-- Go: a run-time panic. -/
inductive Panic
  | closeOfClosedChannel
  deriving DecidableEq, Repr

/-- Go: (w *Watcher) Close(): `close(w.done)`, which panics on a closed channel, then
`w.fsw.Close()` with the error fswErr, then `w.wg.Wait()`, which returns when the worker
has seen done and left its loop. -/
def Watcher.Close (w : Watcher) (fswErr : Option GoString) :
    Except Panic (Watcher × Option GoString) :=
  if w.done then .error Panic.closeOfClosedChannel
  else
    let w1 := { w with done := true }
    let w2 := { w1 with fswClosed := true }
    .ok (w2.exitLoop, fswErr)

/-! ## internal/config/config.go: validation -/

/-- Go: config.Global. -/
structure Global where
  Debounce : Duration
  Ignore : List GoString
  deriving DecidableEq, Repr

/-- Go: config.Config. -/
structure Config where
  Global : Global
  Rules : List Rule
  deriving DecidableEq, Repr

/-- Go: isValidActionType(t). -/
def isValidActionType (t : GoString) : Bool :=
  if t = bytes "command" ∨ t = bytes "webhook" ∨ t = bytes "log" then true else false

/-- Go: the loop of itoa, which writes the digits of i from the right into a buffer of 20
bytes; the first argument bounds the number of digits. -/
def itoaLoop : Nat → Nat → GoString → GoString
  | 0, _, buf => buf
  | fuel + 1, i, buf =>
    if i > 0 then itoaLoop fuel (i / 10) ((48 + i % 10).toUInt8 :: buf) else buf

/-- Go: itoa(i), for an index i. -/
def itoa (i : Nat) : GoString :=
  if i = 0 then bytes "0" else itoaLoop 20 i []

/-- Go: validateAction(r); the error is its message, none for nil. -/
def validateAction (r : Rule) : Option GoString :=
  if r.Action.Type_ = bytes "command" then
    (if r.Action.Command = [] then
      some (bytes "config: rule " ++ r.Name ++ bytes " command action requires a command")
    else none)
  else if r.Action.Type_ = bytes "webhook" then
    (if r.Action.URL = [] then
      some (bytes "config: rule " ++ r.Name ++ bytes " webhook action requires a url")
    else none)
  else if r.Action.Type_ = bytes "log" then
    (if r.Action.Format = [] then
      some (bytes "config: rule " ++ r.Name ++ bytes " log action requires a format")
    else none)
  else none

/-- Go: the loop of validate over the rules, with the index i of the first one. -/
def validateRules : Nat → List Rule → Option GoString
  | _, [] => none
  | i, r :: rest =>
    if r.Name = [] then
      some (bytes "config: rule at index " ++ itoa i ++ bytes " is missing a name")
    else if r.Watch.length = 0 then
      some (bytes "config: rule " ++ r.Name ++ bytes " must have at least one watch pattern")
    else if !isValidActionType r.Action.Type_ then
      some (bytes "config: rule " ++ r.Name ++ bytes " has invalid action type: "
        ++ r.Action.Type_)
    else
      match validateAction r with
      | some e => some e
      | none => validateRules (i + 1) rest

/-- Go: validate(cfg); the error is its message, none for nil. -/
def validate (cfg : Config) : Option GoString :=
  if cfg.Rules.length = 0 then some (bytes "config: at least one rule is required")
  else validateRules 0 cfg.Rules

/-! ## internal/action/action.go -/

/-- Go: action.TemplateData. -/
structure TemplateData where
  Path : GoString
  Event : GoString
  Dir : GoString
  Name : GoString
  Time : GoString
  deriving DecidableEq, Repr

/-- Go: NewTemplateData(ev); now is `time.Now().Format(time.RFC3339)`. -/
def NewTemplateData (ev : Event) (now : GoString) : TemplateData :=
  { Path := ev.Path, Event := ev.Type_, Dir := ev.Dir, Name := ev.Name, Time := now }

/-- Go: package text/template as the actions use it. Parse is `template.New(name).Parse`,
with the message of its error; Execute is `t.Execute(&buf, data)`, with the bytes written
to the buffer and the error, none for nil. -/
structure TemplateEngine (T : Type) where
  Parse : GoString → Except GoString T
  Execute : T → TemplateData → GoString × Option GoString

/-! ## internal/action/command.go -/

/-- Go: renderTemplate(tmpl, data); an error is its message. -/
def renderTemplate {T : Type} (eng : TemplateEngine T) (tmpl : GoString) (data : TemplateData) :
    Except GoString GoString :=
  match eng.Parse tmpl with
  | .error e => .error e
  | .ok t =>
    match eng.Execute t data with
    | (_, some e) => .error e
    | (out, none) => .ok out

/-- Go: the *exec.Cmd made by exec.CommandContext(ctx, "sh", "-c", rendered): its context,
the script, the working directory, and Process, nil until Start succeeds. -/
structure Cmd where
  ctx : Nat
  script : GoString
  Dir : GoString
  Process : Option Nat
  deriving DecidableEq, Repr

/-- A child process of the operating system: its id, the context it was started under,
and whether it has not yet terminated. -/
structure Proc where
  pid : Nat
  ctx : Nat
  alive : Bool
  deriving DecidableEq, Repr

/-- Go: type CommandAction (CmdTemplate, Dir, DryRun, cancel, running), with what the
runtime knows: the contexts cancelled, the child processes started by the instance, in
order, what they have written to Output, and the next fresh context and process id. A
cancel function is known by its context. -/
structure CommandAction where
  CmdTemplate : GoString
  Dir : GoString
  DryRun : Bool
  cancel : Option Nat
  running : Option Cmd
  cancelled : List Nat
  procs : List Proc
  output : List GoString
  nextCtx : Nat
  nextPid : Nat
  deriving DecidableEq, Repr

/-- Go: NewCommandAction(cmdTemplate, dir). -/
def NewCommandAction (cmdTemplate dir : GoString) : CommandAction :=
  { CmdTemplate := cmdTemplate, Dir := dir, DryRun := false, cancel := none, running := none,
    cancelled := [], procs := [], output := [], nextCtx := 0, nextPid := 0 }

/-- The process pid has terminated. -/
def reap (procs : List Proc) (pid : Nat) : List Proc :=
  procs.map (fun p => if p.pid = pid then { p with alive := false } else p)

/-- Go: (c *CommandAction) killPrevious(). The call of cancel cancels the context, on
which the runtime kills the process started under it; `c.running.Wait()` returns once
that process has terminated. -/
def CommandAction.killPrevious (c : CommandAction) : CommandAction :=
  let c1 :=
    match c.cancel with
    | some ctx => { c with cancelled := c.cancelled ++ [ctx], cancel := none }
    | none => c
  match c1.running with
  | none => c1
  | some cmd =>
    match cmd.Process with
    | none => c1
    | some pid => { c1 with procs := reap c1.procs pid, running := none }

/-- Go: (c *CommandAction) Execute(ev), under the lock from killPrevious on; startErr is
the error of cmd.Start (none for nil), and a command that fails to start has no
process. The result is the instance and the error returned. -/
def CommandAction.Execute {T : Type} (c : CommandAction) (eng : TemplateEngine T)
    (ev : Event) (now : GoString) (startErr : Option GoString) :
    CommandAction × Option GoString :=
  match renderTemplate eng c.CmdTemplate (NewTemplateData ev now) with
  | .error e => (c, some e)
  | .ok rendered =>
    let c1 := c.killPrevious
    if c1.DryRun then (c1, none)
    else
      let c2 := { c1 with cancel := some c1.nextCtx, nextCtx := c1.nextCtx + 1 }
      let cmd : Cmd := { ctx := c1.nextCtx, script := rendered, Dir := c2.Dir, Process := none }
      match startErr with
      | some e => ({ c2 with running := some cmd }, some e)
      | none =>
        ({ c2 with
            running := some { cmd with Process := some c2.nextPid }
            procs := c2.procs ++ [{ pid := c2.nextPid, ctx := c1.nextCtx, alive := true }]
            nextPid := c2.nextPid + 1 }, none)

/-- Go: (c *CommandAction) Stop(). -/
def CommandAction.Stop (c : CommandAction) : CommandAction :=
  c.killPrevious

/-- A child process terminates by itself. -/
def CommandAction.exit (c : CommandAction) (pid : Nat) : CommandAction :=
  { c with procs := reap c.procs pid }

/-- A child process that has not terminated writes to Output. -/
def CommandAction.write (c : CommandAction) (pid : Nat) (text : GoString) :
    Option CommandAction :=
  if c.procs.any (fun p => p.pid == pid && p.alive) then
    some { c with output := c.output ++ [text] }
  else none

/-- The steps of a run of one CommandAction: the calls Execute and Stop, an assignment to
the field DryRun, and the acts of the child processes. -/
inductive CmdStep
  | Execute (ev : Event) (now : GoString) (startErr : Option GoString)
  | Stop
  | setDryRun (b : Bool)
  | exit (pid : Nat)
  | write (pid : Nat) (text : GoString)
  deriving DecidableEq, Repr

/-- The effect of one step; none when the step cannot be taken in the state. -/
def CommandAction.step {T : Type} (eng : TemplateEngine T) (c : CommandAction) :
    CmdStep → Option CommandAction
  | .Execute ev now startErr => some (c.Execute eng ev now startErr).1
  | .Stop => some c.Stop
  | .setDryRun b => some { c with DryRun := b }
  | .exit pid => some (c.exit pid)
  | .write pid text => c.write pid text

/-- The effect of a list of steps, in order. -/
def CommandAction.run {T : Type} (eng : TemplateEngine T) (c : CommandAction) :
    List CmdStep → Option CommandAction
  | [] => some c
  | s :: rest =>
    match c.step eng s with
    | none => none
    | some c1 => CommandAction.run eng c1 rest

/-! ## internal/action/log.go -/

/-- Go: type LogAction. The writer Output is given to Execute as the function from the
bytes written to the error of Write. -/
structure LogAction where
  Format : GoString
  DryRun : Bool
  deriving DecidableEq, Repr

/-- Go: NewLogAction(format, output). -/
def NewLogAction (format : GoString) : LogAction :=
  { Format := format, DryRun := false }

/-- Go: (l *LogAction) Execute(ev). The result is the error returned (none for nil) and
the writes made to Output, in order. -/
def LogAction.Execute {T : Type} (l : LogAction) (eng : TemplateEngine T)
    (write : GoString → Option GoString) (ev : Event) (now : GoString) :
    Option GoString × List GoString :=
  if l.DryRun then (none, [])
  else
    let data := NewTemplateData ev now
    match eng.Parse l.Format with
    | .error e => (some e, [])
    | .ok t =>
      match eng.Execute t data with
      | (_, some e) => (some e, [])
      | (out, none) =>
        let buf := out ++ bytes "\n"
        (write buf, [buf])

/-! ## internal/action/webhook.go -/

/-- Go: action.WebhookPayload. -/
structure WebhookPayload where
  Path : GoString
  Event : GoString
  Time : GoString
  deriving DecidableEq, Repr

/-- Go: an *http.Request as Execute builds it. -/
structure Request where
  Method : GoString
  URL : GoString
  Body : GoString
  Header : List (GoString × GoString)
  deriving DecidableEq, Repr

/-- Go: type WebhookAction; the client is part of the network below. -/
structure WebhookAction where
  URL : GoString
  Method : GoString
  Headers : List (GoString × GoString)
  Timeout : Duration
  DryRun : Bool
  deriving DecidableEq, Repr

/-- Go: defaultWebhookTimeout, ten seconds in nanoseconds. -/
def defaultWebhookTimeout : Duration := 10 * 1000000000

/-- Go: NewWebhookAction(url, method, headers, timeout). -/
def NewWebhookAction (url method : GoString) (headers : List (GoString × GoString))
    (timeout : Duration) : WebhookAction :=
  let method := if method = [] then bytes "POST" else method
  let timeout := if timeout = 0 then defaultWebhookTimeout else timeout
  { URL := url, Method := method, Headers := headers, Timeout := timeout, DryRun := false }

/-- The libraries behind WebhookAction.Execute: json.Marshal of the payload,
http.NewRequestWithContext (method, url, body), Header.Set on a request, and
`w.client.Do(req)`, which gives an error or a response whose `Body.Close()` returns the
error given. -/
structure Network where
  marshal : WebhookPayload → Except GoString GoString
  newRequest : GoString → GoString → GoString → Except GoString Request
  setHeader : Request → GoString → GoString → Request
  send : Request → Except GoString (Option GoString)

/-- Go: (w *WebhookAction) Execute(ev). The result is the error returned (none for nil)
and the requests handed to the client, in order. -/
def WebhookAction.Execute (w : WebhookAction) (net : Network) (ev : Event) (now : GoString) :
    Option GoString × List Request :=
  if w.DryRun then (none, [])
  else
    let payload : WebhookPayload := { Path := ev.Path, Event := ev.Type_, Time := now }
    match net.marshal payload with
    | .error e => (some e, [])
    | .ok body =>
      match net.newRequest w.Method w.URL body with
      | .error e => (some e, [])
      | .ok req =>
        let req1 := net.setHeader req (bytes "Content-Type") (bytes "application/json")
        let req2 := w.Headers.foldl (fun r kv => net.setHeader r kv.1 kv.2) req1
        match net.send req2 with
        | .error e => (some e, [req2])
        | .ok closeErr => (closeErr, [req2])

/-! ## A model of text/template on templates made of text and field actions -/

/-- A piece of a parsed template: text copied as it is, or an action `{{.Field}}`. -/
inductive TemplateNode
  | text (s : GoString)
  | field (name : GoString)
  deriving DecidableEq, Repr

/-- The bytes before the first `}}` and the bytes after it; none when there is none. -/
def splitClose : GoString → Option (GoString × GoString)
  | [] => none
  | [_] => none
  | a :: b :: rest =>
    if a = 125 ∧ b = 125 then some ([], rest)
    else
      match splitClose (b :: rest) with
      | none => none
      | some (inside, after) => some (a :: inside, after)

/-- Go: the blanks of the template lexer: space, tab, carriage return, newline. -/
def isTemplateSpace (c : UInt8) : Bool := c = 32 || c = 9 || c = 13 || c = 10

/-- An ASCII letter, digit or underscore. -/
def isFieldByte (c : UInt8) : Bool :=
  (48 ≤ c && c ≤ 57) || (65 ≤ c && c ≤ 90) || (97 ≤ c && c ≤ 122) || c = 95

/-- The name of the field of an action `.Name` between blanks, the name an ASCII letter
or underscore followed by ASCII letters, digits and underscores; none for any other
action. -/
def fieldName (inside : GoString) : Option GoString :=
  let trimmed := ((inside.dropWhile isTemplateSpace).reverse.dropWhile isTemplateSpace).reverse
  match trimmed with
  | 46 :: c :: rest =>
    if isFieldByte c && !(48 ≤ c && c ≤ 57) && rest.all isFieldByte
    then some (c :: rest) else none
  | _ => none

/-- The parser of the model: text up to `{{`, then an action up to `}}`. An action that
is not closed is the error of the library; an action that is not a field is outside the
model and reported as such. The first argument bounds the number of actions. -/
def parseNodes : Nat → GoString → GoString → Except GoString (List TemplateNode)
  | _, [], acc => .ok (if acc = [] then [] else [TemplateNode.text acc.reverse])
  | 0, _ :: _, _ => .error (bytes "template: outside the model")
  | fuel + 1, a :: rest, acc =>
    match rest with
    | b :: rest2 =>
      if a = 123 ∧ b = 123 then
        match splitClose rest2 with
        | none => .error (bytes "template: unclosed action")
        | some (inside, after) =>
          match fieldName inside with
          | none => .error (bytes "template: outside the model")
          | some name =>
            match parseNodes fuel after [] with
            | .error e => .error e
            | .ok nodes =>
              .ok ((if acc = [] then [] else [TemplateNode.text acc.reverse])
                ++ TemplateNode.field name :: nodes)
      else parseNodes fuel rest (a :: acc)
    | [] => parseNodes fuel rest (a :: acc)

/-- Go: the fields of TemplateData by name; none for a name that is not a field. -/
def TemplateData.lookup (data : TemplateData) (name : GoString) : Option GoString :=
  if name = bytes "Path" then some data.Path
  else if name = bytes "Event" then some data.Event
  else if name = bytes "Dir" then some data.Dir
  else if name = bytes "Name" then some data.Name
  else if name = bytes "Time" then some data.Time
  else none

/-- The execution of the model: the nodes are written in order; a field that
TemplateData does not have stops the execution with the error of the library, what was
written before it staying in the buffer. -/
def execNodes (data : TemplateData) : List TemplateNode → GoString → GoString × Option GoString
  | [], buf => (buf, none)
  | .text s :: rest, buf => execNodes data rest (buf ++ s)
  | .field name :: rest, buf =>
    match data.lookup name with
    | none => (buf, some (bytes "template: can't evaluate field " ++ name))
    | some v => execNodes data rest (buf ++ v)

/-- A model of text/template for templates made of text and actions `{{.Field}}`. On
such templates it is the library; other actions are outside it and are turned down. -/
def fieldTemplates : TemplateEngine (List TemplateNode) :=
  { Parse := fun tmpl => parseNodes (tmpl.length + 1) tmpl []
    Execute := fun nodes data => execNodes data nodes [] }

/-! ## Test data of internal/rule/engine_test.go and of the specification -/

/-- An Action given by its type, command, URL and format, the other fields zero. -/
def mkAction (type command url format : String) : Action :=
  { Type_ := bytes type, Command := bytes command, Dir := [], URL := bytes url, Method := [],
    Headers := [], Timeout := 0, Format := bytes format }

/-- Go: rule "Go rebuild" of testConfig in engine_test.go. -/
def ruleGoRebuild : Rule :=
  { Name := bytes "Go rebuild", Watch := [bytes "**/*.go"],
    Events := [bytes "create", bytes "modify"], Debounce := 0,
    Action := mkAction "command" "go build ./..." "" "" }

/-- Go: rule "CSS reload" of testConfig in engine_test.go. -/
def ruleCSSReload : Rule :=
  { Name := bytes "CSS reload", Watch := [bytes "assets/**/*.css"],
    Events := [bytes "modify"], Debounce := 0,
    Action := mkAction "webhook" "" "http://localhost:3000/reload" "" }

/-- The rule "Log all" with an empty events list, which stands for all events. -/
def ruleLogAll : Rule :=
  { Name := bytes "Log all", Watch := [bytes "**/*"], Events := [], Debounce := 0,
    Action := mkAction "log" "" "" "\x7b\x7b.Event\x7d\x7d \x7b\x7b.Path\x7d\x7d" }

/-- An engine over the rules "Go rebuild", "CSS reload" and "Log all", with the global
ignore patterns of testConfig. -/
def testEngine : Engine :=
  { rules := [ruleGoRebuild, ruleCSSReload, ruleLogAll],
    globalIgnores := [bytes ".git", bytes "node_modules"] }

/-- Go: the event of TestEvaluateMatchingGoFile. -/
def evCreateMainGo : Event :=
  { Path := bytes "cmd/main.go", Type_ := Create, Name := bytes "main.go", Dir := bytes "cmd" }

/-- Go: the event of TestEvaluateNoMatchingEvent. -/
def evDeleteMainGo : Event :=
  { Path := bytes "cmd/main.go", Type_ := Delete, Name := bytes "main.go", Dir := bytes "cmd" }

/-- Go: the event of TestEvaluateIgnoredPath. -/
def evModifyGitConfig : Event :=
  { Path := bytes ".git/config", Type_ := Modify, Name := bytes "config", Dir := bytes ".git" }

/-! ## Notions used to state the properties -/

namespace filepath

/-- A chunk of literal bytes: no star, question mark, opening bracket or backslash. -/
def Literal (lit : GoString) : Prop :=
  ∀ c ∈ lit, c ≠ 42 ∧ c ≠ 63 ∧ c ≠ 91 ∧ c ≠ 92

/-- The name is the literal after a non-empty run of bytes without a separator. -/
def StarSkip (lit name : GoString) : Prop :=
  ∃ pre : GoString, pre ≠ [] ∧ name = pre ++ lit ∧ (47 : UInt8) ∉ pre

end filepath

/-- An ASCII letter or digit. -/
def isAlnum (c : UInt8) : Bool :=
  (48 ≤ c && c ≤ 57) || (65 ≤ c && c ≤ 90) || (97 ≤ c && c ≤ 122)

/-- The pattern whose segments are the given ones: the segments joined by slashes. -/
def joinSegments (segs : List GoString) : GoString := [47].intercalate segs

/-- The first brace group of a segment pattern, as matchSegment finds it: the bytes before
the first opening brace, the bytes between it and the next closing brace, and the bytes
after that brace; none when there is no opening brace or no closing brace after it. -/
def braceGroup (pattern : GoString) : Option (GoString × GoString × GoString) :=
  match strings.Index pattern 123 with
  | none => none
  | some idx =>
    match strings.Index (pattern.drop idx) 125 with
    | none => none
    | some e =>
      some (pattern.take idx, (pattern.drop (idx + 1)).take (idx + e - (idx + 1)),
        pattern.drop (idx + e + 1))

/-- The result of matchSegment on a pattern without a brace group: filepath.Match, an
error counting as no match. -/
def plainMatch (pattern name : GoString) : Bool :=
  match filepath.Match pattern name with
  | none => false
  | some matched => matched

/-! ### Bursts of triggers on one key -/

/-- A call at the time now is made before the delay of the call before it has elapsed:
prev is the time at which that delay elapses, none when there is no call before. -/
def callEarly (prev : Option Int) (now : Int) : Bool :=
  match prev with
  | none => true
  | some D => decide (now < D)

/-- A burst on a key: every call is a Trigger or TriggerWithDelay on that key, made
before the delay of the call before it has elapsed (prev is the time at which that delay
elapses); Stop is not called; every act of the runtime is one that can be taken. -/
def burstOk (key : GoString) : Option Int → Debouncer → List Step → Bool
  | _, _, [] => true
  | prev, d, s :: rest =>
    match s with
    | .Trigger k fn =>
      k == key && callEarly prev d.now
        && burstOk key (some (d.now + d.delay)) (d.Trigger k fn) rest
    | .TriggerWithDelay k delay fn =>
      k == key && callEarly prev d.now
        && burstOk key (some (d.now + delay)) (d.TriggerWithDelay k delay fn) rest
    | .stopClose => false
    | .stopSweep => false
    | .advance dt => burstOk key prev (d.advance dt) rest
    | .expire id =>
      match d.expire id with
      | none => false
      | some d1 => burstOk key prev d1 rest
    | .timerLocked id =>
      match d.timerLocked id with
      | none => false
      | some d1 => burstOk key prev d1 rest
    | .timerSelect id =>
      match d.timerSelect id with
      | none => false
      | some d1 => burstOk key prev d1 rest
    | .timerCall id =>
      match d.timerCall id with
      | none => false
      | some d1 => burstOk key prev d1 rest

/-- The callback of the last call among the steps, after the callback last. -/
def lastCallback : Option Callback → List Step → Option Callback
  | last, [] => last
  | _, .Trigger _ fn :: rest => lastCallback (some fn) rest
  | _, .TriggerWithDelay _ _ fn :: rest => lastCallback (some fn) rest
  | last, _ :: rest => lastCallback last rest

/-- No timer is armed and no timer function is under way. -/
def Debouncer.quiet (d : Debouncer) : Prop :=
  d.armed = [] ∧ d.started = [] ∧ d.unlocked = [] ∧ d.selected = []

/-- Where the timer of the last call of a burst stands: armed and stored under its key;
or expired, its function waiting for the lock; or past the lock; or past the select; or
done, its callback called. Nothing else is armed or under way, and no other callback has
been called. -/
def Pending (d : Debouncer) (t : Timer) : Prop :=
  (d.armed = [t] ∧ d.started = [] ∧ d.unlocked = [] ∧ d.selected = [] ∧ d.invoked = [] ∧
      mapGet d.timers t.key = some t.id) ∨
  (t.deadline ≤ d.now ∧ d.armed = [] ∧ d.started = [t] ∧ d.unlocked = [] ∧
      d.selected = [] ∧ d.invoked = []) ∨
  (t.deadline ≤ d.now ∧ d.armed = [] ∧ d.started = [] ∧ d.unlocked = [t] ∧
      d.selected = [] ∧ d.invoked = []) ∨
  (t.deadline ≤ d.now ∧ d.armed = [] ∧ d.started = [] ∧ d.unlocked = [] ∧
      d.selected = [t] ∧ d.invoked = []) ∨
  (t.deadline ≤ d.now ∧ d.armed = [] ∧ d.started = [] ∧ d.unlocked = [] ∧
      d.selected = [] ∧ d.invoked = [t.fn])

/-- The invariant of a burst on a key: done is open, and either no call has been made and
nothing is armed, under way or called, or the timer of the last call, with the deadline
prev and the callback last, is the only one. -/
def BurstInv (key : GoString) (d : Debouncer) (prev : Option Int) (last : Option Callback) :
    Prop :=
  d.done = false ∧
  match prev, last with
  | none, none =>
    d.armed = [] ∧ d.started = [] ∧ d.unlocked = [] ∧ d.selected = [] ∧ d.invoked = []
  | some D, some fn => ∃ id, Pending d { id := id, key := key, deadline := D, fn := fn }
  | _, _ => False

/-- Go: the steps of TestDebouncerSingleFire, in milliseconds: ten calls of Trigger on
main.go, 5 ms apart, under a delay of 50 ms, each with its own callback; then the sleep of
100 ms, during which the last timer expires and its function runs. -/
def singleFireSteps : List Step :=
  (List.range 10).flatMap (fun i => [Step.Trigger (bytes "main.go") i, Step.advance 5])
    ++ [Step.advance 100, Step.expire 9, Step.timerLocked 9, Step.timerSelect 9,
        Step.timerCall 9]

/-! ### Notions and test data for the watcher, the configuration and the actions -/

/-- A rule that validate accepts: a name, a watch pattern, one of the three action types,
and the field that the type requires. -/
def RuleOk (r : Rule) : Prop :=
  r.Name ≠ [] ∧ r.Watch ≠ [] ∧
    ((r.Action.Type_ = bytes "command" ∧ r.Action.Command ≠ []) ∨
     (r.Action.Type_ = bytes "webhook" ∧ r.Action.URL ≠ []) ∨
     (r.Action.Type_ = bytes "log" ∧ r.Action.Format ≠ []))

/-- A file system for the examples: a root directory that can be watched, and a
directory `sub` that cannot, fsw.Add failing on it. -/
def testFS : FileSystem :=
  { base := fun p => p
    dir := fun _ => bytes "."
    statIsDir := fun p => p = bytes "sub"
    walk := fun root => [{ path := root, isDir := true, err := none }]
    add := fun p => if p = bytes "sub" then some (bytes "no space left on device") else none }

/-- The watcher that New returns on the root `.` of testFS. -/
def startedWatcher : Watcher :=
  { watchList := [bytes "."], fswClosed := false, Events := [], eventsClosed := false,
    Errors := [], errorsClosed := false, done := false, looping := true, root := bytes "." }

/-- The watcher startedWatcher after Close. -/
def closedWatcher : Watcher :=
  { watchList := [bytes "."], fswClosed := true, Events := [], eventsClosed := true,
    Errors := [], errorsClosed := true, done := true, looping := false, root := bytes "." }

/-- The Create notification for the directory `sub`. -/
def createSub : fsnotify.Event := { Name := bytes "sub", Op := fsnotify.Create }

/-- Go: the event of TestLogActionExecute, a Modify of main.go. -/
def evModifyMainGo : Event :=
  { Path := bytes "main.go", Type_ := Modify, Name := bytes "main.go", Dir := bytes "." }

/-- The invariant of a CommandAction: no child process is alive, or exactly one is and it
is the process of the command held in running; and a command in running that has a
process was started under the context that cancel will cancel. -/
def CmdInv (c : CommandAction) : Prop :=
  ((c.procs.filter (fun p => p.alive) = []) ∨
    (∃ p cmd, c.procs.filter (fun p => p.alive) = [p] ∧ c.running = some cmd ∧
      cmd.Process = some p.pid)) ∧
  (∀ cmd pid, c.running = some cmd → cmd.Process = some pid → c.cancel = some cmd.ctx)

/-- Go: the steps of TestCommandActionKillsPrevious: Execute twice while the first child
still runs, then Stop. -/
def killsPreviousSteps : List CmdStep :=
  [CmdStep.Execute evModifyMainGo [] none, CmdStep.Execute evModifyMainGo [] none, CmdStep.Stop]

/-- A CommandAction in dry-run mode that still holds the child of an earlier Execute. -/
def dryRunAfterStart : CommandAction :=
  { CmdTemplate := bytes "echo should-not-run", Dir := bytes ".", DryRun := true,
    cancel := some 0,
    running := some { ctx := 0, script := bytes "echo should-not-run", Dir := bytes ".",
                      Process := some 0 },
    cancelled := [], procs := [{ pid := 0, ctx := 0, alive := true }], output := [],
    nextCtx := 1, nextPid := 1 }

/-- The steps that lead to dryRunAfterStart: an Execute, then DryRun is set. -/
def dryRunAfterStartSteps : List CmdStep :=
  [CmdStep.Execute evModifyMainGo [] none, CmdStep.setDryRun true]

/-- Go: the CommandAction of TestCommandActionKillsPrevious after its first Execute: the
child `sleep 10` is alive. -/
def sleepingChild : CommandAction :=
  { CmdTemplate := bytes "sleep 10", Dir := bytes ".", DryRun := false, cancel := some 0,
    running := some { ctx := 0, script := bytes "sleep 10", Dir := bytes ".", Process := some 0 },
    cancelled := [], procs := [{ pid := 0, ctx := 0, alive := true }], output := [],
    nextCtx := 1, nextPid := 1 }

/-! ### Notions for Stop and for calls on distinct keys -/

/-- Go: the steps of TestDebouncerStop after the call of Trigger, in milliseconds: Stop,
then the sleep of 100 ms. -/
def afterStopSteps : List Step := [Step.advance 100]

/-- Go: the Debouncer of TestDebouncerStop after `d.Trigger("test.go", fn)`. -/
def triggeredOnce : Debouncer := (NewDebouncer 50 0).Trigger (bytes "test.go") 0

/-- A Debouncer whose parts fit together: the timers armed and the timers in the map are
older than the next fresh timer, and an armed timer that the map holds under a key is a
timer of that key. -/
def Debouncer.WF (d : Debouncer) : Prop :=
  (∀ t ∈ d.armed, t.id < d.nextId) ∧
  (∀ key id, mapGet d.timers key = some id → id < d.nextId) ∧
  (∀ key id, mapGet d.timers key = some id → ∀ t ∈ d.armed, t.id = id → t.key = key)

/-- The timers of a Debouncer that are armed or whose function is under way. -/
def Debouncer.pool (d : Debouncer) : List Timer :=
  d.armed ++ d.started ++ d.unlocked ++ d.selected

/-- A run in which every call is a Trigger or TriggerWithDelay on a key not used before
(used holds the keys of the calls so far), Stop is not called, and every act of the
runtime is one that can be taken. -/
def distinctOk : List GoString → Debouncer → List Step → Bool
  | _, _, [] => true
  | used, d, s :: rest =>
    match s with
    | .Trigger k fn => !used.contains k && distinctOk (k :: used) (d.Trigger k fn) rest
    | .TriggerWithDelay k delay fn =>
      !used.contains k && distinctOk (k :: used) (d.TriggerWithDelay k delay fn) rest
    | .stopClose => false
    | .stopSweep => false
    | .advance dt => distinctOk used (d.advance dt) rest
    | .expire id =>
      match d.expire id with
      | none => false
      | some d1 => distinctOk used d1 rest
    | .timerLocked id =>
      match d.timerLocked id with
      | none => false
      | some d1 => distinctOk used d1 rest
    | .timerSelect id =>
      match d.timerSelect id with
      | none => false
      | some d1 => distinctOk used d1 rest
    | .timerCall id =>
      match d.timerCall id with
      | none => false
      | some d1 => distinctOk used d1 rest

/-- The callbacks of the calls among the steps, in order. -/
def triggered : List Step → List Callback
  | [] => []
  | .Trigger _ fn :: rest => fn :: triggered rest
  | .TriggerWithDelay _ _ fn :: rest => fn :: triggered rest
  | _ :: rest => triggered rest

/-- The invariant of a run on distinct keys: done is open; the keys of the map are keys
used; the timers armed or under way are distinct and older than the next fresh timer;
and the callbacks of these timers together with the callbacks called are, up to order,
the callbacks of the calls made. -/
def KeysInv (used : List GoString) (d : Debouncer) (trig : List Callback) : Prop :=
  d.done = false ∧
  (∀ k id, mapGet d.timers k = some id → k ∈ used) ∧
  (d.pool.map (fun t => t.id)).Nodup ∧
  (∀ t ∈ d.pool, t.id < d.nextId) ∧
  List.Perm (d.pool.map (fun t => t.fn) ++ d.invoked) trig

/-- Go: the steps of TestDebouncerIndependentPaths, in milliseconds: Trigger on a.go,
b.go and c.go under a delay of 30 ms, then the sleep of 100 ms, during which the three
timers expire and their functions run, here in the order c, a, b. -/
def independentPathsSteps : List Step :=
  [Step.Trigger (bytes "a.go") 0, Step.Trigger (bytes "b.go") 1, Step.Trigger (bytes "c.go") 2,
   Step.advance 100,
   Step.expire 2, Step.expire 0, Step.timerLocked 2, Step.expire 1, Step.timerSelect 2,
   Step.timerLocked 0, Step.timerCall 2, Step.timerLocked 1, Step.timerSelect 0,
   Step.timerSelect 1, Step.timerCall 0, Step.timerCall 1]


/-! ## internal/watcher/watcher.go: ParseEventType -/

/-- Go: ParseEventType(s): the event type and the error; the error is its message, none
for nil. -/
def ParseEventType (s : GoString) : EventType × Option GoString :=
  if s = Create ∨ s = Modify ∨ s = Delete ∨ s = Rename then (s, none)
  else ([], some (bytes "unknown event type: " ++ s))

/-! ### Notions for the rule engine and the late handler of a timer -/

/-- The match that Evaluate appends for a rule. -/
def Rule.toMatch (r : Rule) : Match :=
  { RuleName := r.Name, Action := r.Action }

/-- The decision on a rule in the words of the composed Matcher: the events list of the
rule is empty or holds the type of the event, and the Matcher built from the watch
patterns of the rule and the global ignore patterns of the engine accepts the path. -/
def ruleByMatcher (e : Engine) (r : Rule) (ev : Event) : Bool :=
  decide (r.Events = [] ∨ ev.Type_ ∈ r.Events) && (New r.Watch e.globalIgnores).Match ev.Path

/-- The description of Evaluate by the composed Matcher: the matches of the rules that
ruleByMatcher keeps, in the order of the rules. -/
def EvaluateByMatcher (e : Engine) (ev : Event) : List Match :=
  (e.rules.filter (fun r => ruleByMatcher e r ev)).map Rule.toMatch

/-- A rule without its events list. -/
def eraseEvents (r : Rule) : Rule :=
  { r with Events := [] }

/-- A rule of TestEvaluate whose events are misspelt: "Create" and "write". -/
def ruleMisspelt : Rule :=
  { ruleLogAll with Name := bytes "Misspelt", Events := [bytes "Create", bytes "write"] }

/-- The steps of a run in which the timer of a first call on main.go expires, a second
call on main.go is made before the function of the first timer has taken the lock, and
the function then takes the lock and deletes the key; times in milliseconds. -/
def lateHandlerSteps : List Step :=
  [Step.Trigger (bytes "main.go") 0, Step.advance 50, Step.expire 0,
   Step.Trigger (bytes "main.go") 1, Step.timerLocked 0]

/-- The steps that follow lateHandlerSteps: the first callback is called, a third call on
main.go is made 10 ms after the second, and the timers of the second and of the third call
expire and their functions run. -/
def lateHandlerRest : List Step :=
  [Step.timerSelect 0, Step.timerCall 0, Step.advance 10,
   Step.Trigger (bytes "main.go") 2, Step.advance 40,
   Step.expire 1, Step.timerLocked 1, Step.timerSelect 1, Step.timerCall 1, Step.advance 10,
   Step.expire 2, Step.timerLocked 2, Step.timerSelect 2, Step.timerCall 2]

/-- The steps that bring a new Debouncer under a delay of 50 ms to a state in which the
timer of a call on main.go has expired and its function has not yet taken the lock. -/
def expiredFirstSteps : List Step :=
  [Step.Trigger (bytes "main.go") 0, Step.advance 50, Step.expire 0]

/-- A burst of two calls on main.go, 10 ms apart, begun in the state after
expiredFirstSteps: the function of the expired timer takes the lock between the two
calls; after the calls the functions of the timers run as their timers expire. -/
def lateBurstSteps : List Step :=
  [Step.Trigger (bytes "main.go") 1, Step.timerLocked 0, Step.advance 10,
   Step.Trigger (bytes "main.go") 2,
   Step.timerSelect 0, Step.timerCall 0, Step.advance 40,
   Step.expire 1, Step.timerLocked 1, Step.timerSelect 1, Step.timerCall 1, Step.advance 10,
   Step.expire 2, Step.timerLocked 2, Step.timerSelect 2, Step.timerCall 2]

/-- The steps of a run in which Stop is called while the timer of a second call on
main.go is armed and no longer in the map, the function of the expired timer of the first
call having deleted the key after the second call. -/
def stopWithOrphanSteps : List Step :=
  [Step.Trigger (bytes "main.go") 0, Step.advance 50, Step.expire 0,
   Step.Trigger (bytes "main.go") 1, Step.timerLocked 0, Step.stopClose, Step.stopSweep]

/-- The steps after Stop in that run: 50 ms later the timer of the second call expires
and its function runs up to its select. -/
def orphanExpirySteps : List Step :=
  [Step.advance 50, Step.expire 1, Step.timerLocked 1, Step.timerSelect 1]

/-- The steps of a run in which Stop is called, from its first statement to its return,
between the select of a timer function and its call of fn. -/
def stopAfterSelectSteps : List Step :=
  [Step.Trigger (bytes "main.go") 0, Step.advance 50, Step.expire 0, Step.timerLocked 0,
   Step.timerSelect 0, Step.stopClose, Step.stopSweep]
/-! ## Theorems: the standard library model -/

/-- The model of strings.Split is the library function that splits a list at a byte. -/
theorem strings.Split_eq_splitOn (s : GoString) (sep : UInt8) :
    strings.Split s sep = s.splitOn sep := by
  induction s with
  | nil => rfl
  | cons c cs ih =>
    have hne := List.splitOnP_ne_nil (· == sep) cs
    simp only [List.splitOn] at ih ⊢
    rw [strings.Split, ih, List.splitOnP_cons]
    by_cases h : c = sep
    · simp [h]
    · cases hs : List.splitOnP (· == sep) cs with
      | nil => exact absurd hs hne
      | cons seg segs => simp [h, List.modifyHead]

/-- The model of strings.Contains is membership in the list of bytes. -/
theorem strings.Contains_iff (s : GoString) (b : UInt8) :
    strings.Contains s b = true ↔ b ∈ s := by
  induction s with
  | nil => simp [strings.Contains]
  | cons c cs ih =>
    by_cases h : c = b
    · simp [strings.Contains, h]
    · simp [strings.Contains, h, ih, Ne.symm h]

/-- Where the separator is the slash, filepath.ToSlash changes nothing. -/
theorem filepath.ToSlash_eq (path : GoString) : filepath.ToSlash path = path := by
  simp [filepath.ToSlash, filepath.Separator]

/-! ## Theorems: the glob matcher -/

theorem bareNameLoop_iff (pattern : GoString) (segs : List GoString) :
    bareNameLoop pattern segs = true ↔ pattern ∈ segs := by
  induction segs with
  | nil => simp [bareNameLoop]
  | cons seg segs ih =>
    by_cases h : seg = pattern
    · simp [bareNameLoop, h]
    · simp [bareNameLoop, h, ih, Ne.symm h]

theorem trailingStars_iff (ps : List GoString) :
    trailingStars ps = true ↔ ∀ p ∈ ps, p = doubleStar := by
  induction ps with
  | nil => simp [trailingStars]
  | cons p ps ih =>
    by_cases h : p = doubleStar
    · simp [trailingStars, h, ih]
    · simp [trailingStars, h]

theorem matchSegments_nil_right (ps : List GoString) :
    matchSegments ps [] = trailingStars ps := by
  cases ps with
  | nil => rfl
  | cons p ps => rfl

theorem matchSegments_cons_cons (p : GoString) (ps : List GoString) (n : GoString)
    (ns : List GoString) (h : p ≠ doubleStar) :
    matchSegments (p :: ps) (n :: ns) = (matchSegment p n && matchSegments ps ns) := by
  rw [matchSegments]
  simp only [h, if_false]
  cases matchSegment p n <;> simp

theorem matchSegments_doubleStar_iff (rest ns : List GoString) :
    matchSegments (doubleStar :: rest) ns = true ↔
      ∃ k, k ≤ ns.length ∧ matchSegments rest (ns.drop k) = true := by
  cases ns with
  | nil =>
    simp [matchSegments, trailingStars, matchSegments_nil_right]
  | cons n ns =>
    rw [matchSegments]
    simp only [if_true, List.any_eq_true, List.mem_range]
    constructor
    · rintro ⟨k, hk, h⟩
      exact ⟨k, by omega, h⟩
    · rintro ⟨k, hk, h⟩
      exact ⟨k, by omega, h⟩

/-- C1: for every pattern without the bytes '/', '*' and '?', and for every path,
MatchPattern is true exactly when the pattern is one of the segments of the path between
slashes. -/
theorem MatchPattern_bare_name (P path : GoString)
    (hslash : (47 : UInt8) ∉ P) (hstar : (42 : UInt8) ∉ P) (hquest : (63 : UInt8) ∉ P) :
    MatchPattern P path = true ↔ P ∈ path.splitOn 47 := by
  have h1 : strings.Contains P 47 = false := by
    rw [← Bool.not_eq_true, strings.Contains_iff]; exact hslash
  have h2 : strings.Contains P 42 = false := by
    rw [← Bool.not_eq_true, strings.Contains_iff]; exact hstar
  have h3 : strings.Contains P 63 = false := by
    rw [← Bool.not_eq_true, strings.Contains_iff]; exact hquest
  simp only [MatchPattern, matchGlob, filepath.ToSlash_eq, h1, h2, h3, Bool.not_false,
    Bool.and_self, if_true, bareNameLoop_iff, strings.Split_eq_splitOn]

theorem MatchPattern_bare_name_witness :
    ((47 : UInt8) ∉ bytes ".git" ∧ (42 : UInt8) ∉ bytes ".git" ∧ (63 : UInt8) ∉ bytes ".git") ∧
    (MatchPattern (bytes ".git") (bytes ".git/config") = true ↔
      bytes ".git" ∈ (bytes ".git/config").splitOn 47) :=
  ⟨by decide, MatchPattern_bare_name (bytes ".git") (bytes ".git/config")
    (by decide) (by decide) (by decide)⟩

/-- C2: a pattern that starts with the segment `**` matches a list of path segments
exactly when the rest of the pattern matches the list with its first k segments removed,
for some k from 0 to the length of the list. -/
theorem matchSegments_doubleStar_splits (rest ns : List GoString) :
    matchSegments (bytes "**" :: rest) ns = true ↔
      ∃ k, k ≤ ns.length ∧ matchSegments rest (ns.drop k) = true :=
  matchSegments_doubleStar_iff rest ns

theorem matchSegments_nil_left (ns : List GoString) :
    matchSegments [] ns = true ↔ ns = [] := by
  cases ns <;> simp [matchSegments]

theorem matchSegments_append_doubleStar (ps : List GoString) :
    ∀ ns : List GoString, matchSegments (ps ++ [doubleStar]) ns = true ↔
      ∃ k, k ≤ ns.length ∧ matchSegments ps (ns.take k) = true := by
  induction ps with
  | nil =>
    intro ns
    simp only [List.nil_append, matchSegments_doubleStar_iff, matchSegments_nil_left]
    constructor
    · intro _
      exact ⟨0, Nat.zero_le _, by simp⟩
    · intro _
      exact ⟨ns.length, le_refl _, by simp⟩
  | cons p ps ih =>
    intro ns
    by_cases hp : p = doubleStar
    · subst hp
      simp only [List.cons_append, matchSegments_doubleStar_iff, ih]
      constructor
      · rintro ⟨j, hj, k, hk, h⟩
        simp only [List.length_drop] at hk
        refine ⟨j + k, by omega, j, ?_, ?_⟩
        · simp only [List.length_take]; omega
        · rw [List.drop_take]
          simpa using h
      · rintro ⟨k, hk, j, hj, h⟩
        simp only [List.length_take] at hj
        refine ⟨j, by omega, k - j, ?_, ?_⟩
        · simp only [List.length_drop]; omega
        · rw [List.drop_take] at h
          exact h
    · cases ns with
      | nil =>
        simp [matchSegments_nil_right, trailingStars, hp]
      | cons n ns =>
        simp only [List.cons_append, matchSegments_cons_cons _ _ _ _ hp, Bool.and_eq_true, ih]
        constructor
        · rintro ⟨hm, k, hk, h⟩
          refine ⟨k + 1, by simp only [List.length_cons]; omega, ?_⟩
          simp only [List.take_succ_cons, matchSegments_cons_cons _ _ _ _ hp, Bool.and_eq_true]
          exact ⟨hm, h⟩
        · rintro ⟨k, hk, h⟩
          cases k with
          | zero =>
            simp [matchSegments_nil_right, trailingStars, hp] at h
          | succ k =>
            simp only [List.take_succ_cons, matchSegments_cons_cons _ _ _ _ hp,
              Bool.and_eq_true] at h
            simp only [List.length_cons] at hk
            exact ⟨h.1, k, by omega, h.2⟩

/-- C9: a pattern that ends with the segment `**` matches a list of path segments exactly
when the pattern before the `**` matches a prefix of the list, the whole list included;
so `cmd/**` matches `cmd/main.go` and `cmd/server/main.go`. -/
theorem matchSegments_trailing_doubleStar :
    (∀ ps ns : List GoString, matchSegments (ps ++ [bytes "**"]) ns = true ↔
      ∃ k, k ≤ ns.length ∧ matchSegments ps (ns.take k) = true) ∧
    MatchPattern (bytes "cmd/**") (bytes "cmd/main.go") = true ∧
    MatchPattern (bytes "cmd/**") (bytes "cmd/server/main.go") = true :=
  ⟨matchSegments_append_doubleStar, by decide, by decide⟩

/-! ## Theorems: the composed matcher and the rule engine -/

theorem rangeMatchGlob_eq_any (ps : List GoString) (path : GoString) :
    rangeMatchGlob ps (filepath.ToSlash path) = ps.any (fun p => MatchPattern p path) := by
  induction ps with
  | nil => rfl
  | cons p ps ih =>
    rw [rangeMatchGlob, ih, List.any_cons]
    cases h : MatchPattern p path
    · have h1 : matchGlob p (filepath.ToSlash path) = false := h
      simp [h1]
    · have h1 : matchGlob p (filepath.ToSlash path) = true := h
      simp [h1]

theorem rangeMatchPattern_eq_any (ps : List GoString) (path : GoString) :
    rangeMatchPattern ps path = ps.any (fun p => MatchPattern p path) := by
  induction ps with
  | nil => rfl
  | cons p ps ih =>
    rw [rangeMatchPattern, ih, List.any_cons]
    cases h : MatchPattern p path <;> simp

theorem slicesContains_iff (xs : List GoString) (v : GoString) :
    slicesContains xs v = true ↔ v ∈ xs := by
  induction xs with
  | nil => simp [slicesContains]
  | cons x xs ih =>
    by_cases h : x = v
    · simp [slicesContains, h]
    · simp [slicesContains, h, ih, Ne.symm h]

theorem matchesRule_iff (e : Engine) (r : Rule) (ev : Event) :
    e.matchesRule r ev = true ↔
      (r.Events = [] ∨ ev.Type_ ∈ r.Events) ∧ ∃ p ∈ r.Watch, MatchPattern p ev.Path = true := by
  unfold Engine.matchesRule containsEvent
  rw [rangeMatchPattern_eq_any]
  cases hE : r.Events with
  | nil => simp [slicesContains]
  | cons x xs =>
    by_cases hc : slicesContains (x :: xs) ev.Type_ = true
    · have hm := (slicesContains_iff (x :: xs) ev.Type_).mp hc
      simp [hc, hm]
    · have hm : ev.Type_ ∉ x :: xs := fun h => hc ((slicesContains_iff _ _).mpr h)
      simp only [Bool.not_eq_true] at hc
      simp [hc, hm]

theorem rulesLoop_eq (e : Engine) (ev : Event) (rs : List Rule) :
    ∀ acc : List Match, Engine.rulesLoop e ev rs acc =
      acc ++ (rs.filter (fun r => e.matchesRule r ev)).map
        (fun r => { RuleName := r.Name, Action := r.Action }) := by
  induction rs with
  | nil => intro acc; simp [Engine.rulesLoop]
  | cons r rs ih =>
    intro acc
    rw [Engine.rulesLoop]
    cases h : e.matchesRule r ev
    · simp [ih, h]
    · simp [ih, h]

/-- C4: Match of a Matcher built from an include list and an ignore list is false when an
ignore pattern matches the path, otherwise true when an include pattern matches it,
otherwise false; so an ignore pattern wins over an include pattern, and a Matcher with no
include pattern is false on every path. -/
theorem Matcher_Match_spec :
    (∀ (includes ignores : List GoString) (path : GoString),
      (New includes ignores).Match path =
        if ignores.any (fun p => MatchPattern p path) then false
        else if includes.any (fun p => MatchPattern p path) then true
        else false) ∧
    (∀ (includes ignores : List GoString) (path : GoString) (ign : GoString),
      ign ∈ ignores → MatchPattern ign path = true → (New includes ignores).Match path = false) ∧
    (∀ (ignores : List GoString) (path : GoString), (New [] ignores).Match path = false) := by
  have hmain : ∀ (includes ignores : List GoString) (path : GoString),
      (New includes ignores).Match path =
        if ignores.any (fun p => MatchPattern p path) then false
        else if includes.any (fun p => MatchPattern p path) then true
        else false := by
    intro includes ignores path
    simp only [Matcher.Match, New, rangeMatchGlob_eq_any]
  refine ⟨hmain, ?_, ?_⟩
  · intro includes ignores path ign hmem hm
    rw [hmain]
    have : ignores.any (fun p => MatchPattern p path) = true :=
      List.any_eq_true.mpr ⟨ign, hmem, hm⟩
    simp [this]
  · intro ignores path
    rw [hmain]
    simp

/-- With the ignore list of TestMatcher, the path .git/config is refused although the
include pattern `**/*` matches it, the ignore pattern `.git` matching it too; with the
include list of TestMatcher, cmd/main.go is accepted. -/
theorem Matcher_Match_spec_witness :
    (bytes ".git" ∈ [bytes ".git", bytes "node_modules", bytes "*.tmp"] ∧
      MatchPattern (bytes ".git") (bytes ".git/config") = true ∧
      MatchPattern (bytes "**/*") (bytes ".git/config") = true) ∧
    (New [bytes "**/*"] [bytes ".git", bytes "node_modules", bytes "*.tmp"]).Match
      (bytes ".git/config") = false ∧
    (New [bytes "**/*.go", bytes "**/*.yaml"]
      [bytes ".git", bytes "node_modules", bytes "*.tmp"]).Match (bytes "cmd/main.go") = true :=
  ⟨by decide,
   Matcher_Match_spec.2.1 [bytes "**/*"] [bytes ".git", bytes "node_modules", bytes "*.tmp"]
     (bytes ".git/config") (bytes ".git") (by decide) (by decide),
   (Matcher_Match_spec.1 [bytes "**/*.go", bytes "**/*.yaml"]
     [bytes ".git", bytes "node_modules", bytes "*.tmp"] (bytes "cmd/main.go")).trans
     (by decide)⟩

/-- C5: when no global ignore pattern matches the path of the event, Evaluate returns, in
the order of the rule list and each with its own name and action, exactly the rules whose
events list is empty or contains the type of the event and one of whose watch patterns
matches the path of the event. -/
theorem Evaluate_not_ignored (e : Engine) (ev : Event)
    (hign : ∀ ign ∈ e.globalIgnores, MatchPattern ign ev.Path = false) :
    e.Evaluate ev =
      (e.rules.filter (fun r => decide ((r.Events = [] ∨ ev.Type_ ∈ r.Events) ∧
          ∃ p ∈ r.Watch, MatchPattern p ev.Path = true))).map
        (fun r => { RuleName := r.Name, Action := r.Action }) := by
  have h0 : rangeMatchPattern e.globalIgnores ev.Path = false := by
    rw [rangeMatchPattern_eq_any, List.any_eq_false]
    intro ign hmem
    simp [hign ign hmem]
  unfold Engine.Evaluate
  rw [h0, rulesLoop_eq]
  simp only [Bool.false_eq_true, if_false, List.nil_append]
  congr 1
  apply List.filter_congr
  intro r _
  rw [Bool.eq_iff_iff, decide_eq_true_iff]
  exact matchesRule_iff e r ev

/-- With the rules "Go rebuild", "CSS reload" and "Log all", a Create of cmd/main.go gives
"Go rebuild" then "Log all", and a Delete of it gives "Log all" alone. -/
theorem Evaluate_not_ignored_witness :
    (∀ ign ∈ testEngine.globalIgnores, MatchPattern ign evCreateMainGo.Path = false) ∧
    testEngine.Evaluate evCreateMainGo =
      [{ RuleName := bytes "Go rebuild", Action := ruleGoRebuild.Action },
       { RuleName := bytes "Log all", Action := ruleLogAll.Action }] ∧
    testEngine.Evaluate evDeleteMainGo =
      [{ RuleName := bytes "Log all", Action := ruleLogAll.Action }] :=
  ⟨by decide,
   (Evaluate_not_ignored testEngine evCreateMainGo (by decide)).trans (by decide),
   (Evaluate_not_ignored testEngine evDeleteMainGo (by decide)).trans (by decide)⟩

/-- C6: when a global ignore pattern matches the path of the event, Evaluate returns the
empty list, whatever the rules. -/
theorem Evaluate_ignored (e : Engine) (ev : Event) (ign : GoString)
    (hmem : ign ∈ e.globalIgnores) (hm : MatchPattern ign ev.Path = true) :
    e.Evaluate ev = [] := by
  have h0 : rangeMatchPattern e.globalIgnores ev.Path = true := by
    rw [rangeMatchPattern_eq_any]
    exact List.any_eq_true.mpr ⟨ign, hmem, hm⟩
  simp [Engine.Evaluate, h0]

/-- The event of TestEvaluateIgnoredPath, under `.git`, gives no match although the rule
"Log all" matches its path and type. -/
theorem Evaluate_ignored_witness :
    (bytes ".git" ∈ testEngine.globalIgnores ∧
      MatchPattern (bytes ".git") evModifyGitConfig.Path = true ∧
      testEngine.matchesRule ruleLogAll evModifyGitConfig = true) ∧
    testEngine.Evaluate evModifyGitConfig = [] :=
  ⟨by decide, Evaluate_ignored testEngine evModifyGitConfig (bytes ".git") (by decide) (by decide)⟩

/-! ## Theorems: filepath.Match on a star followed by literal bytes -/

namespace filepath

theorem Literal.tail {c : UInt8} {lit : GoString} (h : Literal (c :: lit)) : Literal lit :=
  fun d hd => h d (List.mem_cons_of_mem c hd)

theorem scanLen_literal (lit : GoString) (h : Literal lit) :
    scanLen lit false = lit.length := by
  induction lit with
  | nil => rfl
  | cons c lit ih =>
    obtain ⟨h42, _, h91, h92⟩ := h c (List.mem_cons_self c lit)
    have ih1 := ih h.tail
    unfold scanLen
    by_cases h93 : c = 93
    · simp [h92, h91, h93, ih1]; omega
    · simp [h92, h91, h93, h42, ih1]; omega

theorem dropWhile_star_literal (lit : GoString) (h : Literal lit) :
    lit.dropWhile (· == 42) = lit := by
  cases lit with
  | nil => rfl
  | cons c lit =>
    have h42 := (h c (List.mem_cons_self c lit)).1
    have hb : (c == 42) = false := by simp [h42]
    simp [List.dropWhile, hb]

theorem scanChunk_star_literal (lit : GoString) (h : Literal lit) :
    scanChunk (42 :: lit) = (true, lit, []) := by
  have h1 : (42 :: lit).dropWhile (· == 42) = lit := by
    simp only [List.dropWhile, beq_self_eq_true]
    exact dropWhile_star_literal lit h
  simp [scanChunk, h1, scanLen_literal lit h]

theorem matchChunkLoop_failed (chunk : GoString) (h : Literal chunk) :
    ∀ (fuel : Nat) (s : GoString), chunk.length ≤ fuel →
      matchChunkLoop fuel chunk s true = ChunkResult.fail := by
  induction chunk with
  | nil => intro fuel s _; cases fuel <;> simp [matchChunkLoop]
  | cons c chunk ih =>
    intro fuel s hf
    obtain ⟨_, h63, h91, h92⟩ := h c (List.mem_cons_self c chunk)
    cases fuel with
    | zero => simp at hf
    | succ fuel =>
      simp only [List.length_cons, Nat.add_le_add_iff_right] at hf
      unfold matchChunkLoop
      simp only [h91, h63, h92, if_false, Bool.true_or, if_true]
      exact ih h.tail fuel s hf

theorem matchChunkLoop_literal (chunk : GoString) (h : Literal chunk) :
    ∀ (fuel : Nat) (s : GoString), chunk.length ≤ fuel →
      matchChunkLoop fuel chunk s false =
        if chunk <+: s then ChunkResult.ok (s.drop chunk.length) else ChunkResult.fail := by
  induction chunk with
  | nil => intro fuel s _; cases fuel <;> simp [matchChunkLoop]
  | cons c chunk ih =>
    intro fuel s hf
    obtain ⟨_, h63, h91, h92⟩ := h c (List.mem_cons_self c chunk)
    cases fuel with
    | zero => simp at hf
    | succ fuel =>
      simp only [List.length_cons, Nat.add_le_add_iff_right] at hf
      unfold matchChunkLoop
      simp only [h91, h63, h92, if_false, Bool.false_or]
      cases s with
      | nil =>
        simp only [List.isEmpty_nil, if_true, Bool.true_or]
        rw [matchChunkLoop_failed chunk h.tail fuel [] hf]
        simp
      | cons d s =>
        by_cases hd : d = c
        · subst hd
          simp only [List.isEmpty_cons, Bool.false_eq_true, if_false, List.tail_cons,
            List.head?_cons, bne_self_eq_false, Bool.or_self]
          rw [ih h.tail fuel s hf]
          simp [List.cons_prefix_cons]
        · have hne : (some d != some c) = true := by simp [hd]
          simp only [List.isEmpty_cons, Bool.false_eq_true, if_false, List.tail_cons,
            List.head?_cons, hne, Bool.false_or]
          rw [matchChunkLoop_failed chunk h.tail fuel s hf]
          have : ¬ (c :: chunk <+: d :: s) := by
            rw [List.cons_prefix_cons]
            exact fun hp => hd hp.1.symm
          simp [this]

theorem matchChunk_literal (chunk s : GoString) (h : Literal chunk) :
    matchChunk chunk s =
      if chunk <+: s then ChunkResult.ok (s.drop chunk.length) else ChunkResult.fail :=
  matchChunkLoop_literal chunk h chunk.length s (le_refl _)

theorem StarSkip_nil (lit : GoString) : ¬ StarSkip lit [] := by
  rintro ⟨pre, hne, h, _⟩
  cases pre with
  | nil => exact hne rfl
  | cons c pre => simp at h

theorem StarSkip_cons_sep (lit rest : GoString) : ¬ StarSkip lit (47 :: rest) := by
  rintro ⟨pre, hne, h, hsep⟩
  cases pre with
  | nil => exact hne rfl
  | cons c pre =>
    simp only [List.cons_append, List.cons.injEq] at h
    exact hsep (by simp [h.1])

theorem StarSkip_cons (lit rest : GoString) (c : UInt8) (hc : c ≠ 47) :
    StarSkip lit (c :: rest) ↔ rest = lit ∨ StarSkip lit rest := by
  constructor
  · rintro ⟨pre, hne, h, hsep⟩
    cases pre with
    | nil => exact absurd rfl hne
    | cons d pre =>
      simp only [List.cons_append, List.cons.injEq] at h
      cases pre with
      | nil => left; simpa using h.2
      | cons d2 pre =>
        right
        exact ⟨d2 :: pre, by simp, h.2, fun hm => hsep (List.mem_cons_of_mem d hm)⟩
  · rintro (h | ⟨pre, hne, h, hsep⟩)
    · exact ⟨[c], by simp, by simp [h], by simpa using Ne.symm hc⟩
    · refine ⟨c :: pre, by simp, by simp [h], ?_⟩
      simp only [List.mem_cons, not_or]
      exact ⟨Ne.symm hc, hsep⟩

theorem prefix_drop_length_nil {lit rest : GoString} (hp : lit <+: rest)
    (hd : rest.drop lit.length = []) : rest = lit := by
  obtain ⟨t, rfl⟩ := hp
  simp at hd
  simp [hd]

theorem starLoop_literal (lit : GoString) (h : Literal lit) :
    ∀ name : GoString,
      (starLoop lit true name = ChunkResult.ok [] ∧ StarSkip lit name) ∨
      (starLoop lit true name = ChunkResult.fail ∧ ¬ StarSkip lit name) := by
  intro name
  induction name with
  | nil => right; exact ⟨rfl, StarSkip_nil lit⟩
  | cons c rest ih =>
    by_cases hc : c = 47
    · subst hc
      right
      exact ⟨by simp [starLoop, Separator], StarSkip_cons_sep lit rest⟩
    · have hcs : c ≠ Separator := hc
      rw [StarSkip_cons lit rest c hc]
      unfold starLoop
      simp only [hcs, if_false, matchChunk_literal lit rest h]
      by_cases hp : lit <+: rest
      · simp only [hp, if_true, Bool.true_and]
        cases ht : rest.drop lit.length with
        | nil =>
          left
          exact ⟨by simp, Or.inl (prefix_drop_length_nil hp ht)⟩
        | cons d t =>
          have hne : rest ≠ lit := by
            intro he
            rw [he] at ht
            simp at ht
          simp only [List.isEmpty_cons, Bool.not_false, if_true]
          rcases ih with ⟨h1, h2⟩ | ⟨h1, h2⟩
          · left; exact ⟨h1, Or.inr h2⟩
          · right; exact ⟨h1, fun hh => hh.elim hne h2⟩
      · have hne : rest ≠ lit := by
          intro he
          exact hp (he ▸ List.prefix_refl _)
        simp only [hp, if_false]
        rcases ih with ⟨h1, h2⟩ | ⟨h1, h2⟩
        · left; exact ⟨h1, Or.inr h2⟩
        · right; exact ⟨h1, fun hh => hh.elim hne h2⟩

/-- Go: filepath.Match on a star followed by literal bytes: no error, and a match exactly
when the name is the literal after a run of bytes without a separator. -/
theorem Match_star_literal (lit name : GoString) (h : Literal lit) :
    ∃ b : Bool, Match (42 :: lit) name = some b ∧
      (b = true ↔ ∃ pre : GoString, name = pre ++ lit ∧ (47 : UInt8) ∉ pre) := by
  unfold Match
  simp only [List.length_cons]
  unfold matchLoop
  simp only [scanChunk_star_literal lit h, Bool.true_and]
  cases lit with
  | nil =>
    refine ⟨!strings.Contains name Separator, by simp, ?_⟩
    simp only [Bool.not_eq_true', List.append_nil, exists_eq_left']
    rw [← Bool.not_eq_true, strings.Contains_iff]
    rfl
  | cons l lit =>
    simp only [List.isEmpty_cons, Bool.false_eq_true, if_false, List.isEmpty_nil,
      Bool.not_true, Bool.or_false, if_true, matchChunk_literal (l :: lit) name h]
    by_cases hp : (l :: lit) <+: name
    · simp only [hp, if_true]
      cases ht : name.drop (l :: lit).length with
      | nil =>
        refine ⟨true, by cases lit <;> simp [matchLoop], ?_⟩
        simp only [true_iff]
        exact ⟨[], by simp [prefix_drop_length_nil hp ht], by simp⟩
      | cons d t =>
        have hne : name ≠ l :: lit := by
          intro he
          rw [he] at ht
          simp at ht
        simp only [List.isEmpty_cons, Bool.false_eq_true, if_false]
        rcases starLoop_literal (l :: lit) h name with ⟨h1, h2⟩ | ⟨h1, h2⟩
        · refine ⟨true, by rw [h1]; cases lit <;> simp [matchLoop], ?_⟩
          obtain ⟨pre, _, he, hs⟩ := h2
          simp only [true_iff]
          exact ⟨pre, he, hs⟩
        · refine ⟨false, by rw [h1], ?_⟩
          simp only [Bool.false_eq_true, false_iff]
          rintro ⟨pre, he, hs⟩
          cases pre with
          | nil => exact hne (by simpa using he)
          | cons d2 pre => exact h2 ⟨d2 :: pre, by simp, he, hs⟩
    · have hne : name ≠ l :: lit := by
        intro he
        exact hp (he ▸ List.prefix_refl _)
      simp only [hp, if_false]
      rcases starLoop_literal (l :: lit) h name with ⟨h1, h2⟩ | ⟨h1, h2⟩
      · refine ⟨true, by rw [h1]; cases lit <;> simp [matchLoop], ?_⟩
        obtain ⟨pre, _, he, hs⟩ := h2
        simp only [true_iff]
        exact ⟨pre, he, hs⟩
      · refine ⟨false, by rw [h1], ?_⟩
        simp only [Bool.false_eq_true, false_iff]
        rintro ⟨pre, he, hs⟩
        cases pre with
        | nil => exact hne (by simpa using he)
        | cons d2 pre => exact h2 ⟨d2 :: pre, by simp, he, hs⟩

end filepath

/-! ## Theorems: the bounds on the loops of filepath.Match are never reached -/

namespace filepath

theorem DecodeRuneInString_width_pos (c : UInt8) (t : GoString) :
    1 ≤ (utf8.DecodeRuneInString (c :: t)).2 := by
  unfold utf8.DecodeRuneInString
  dsimp only
  repeat' split
  all_goals simp

theorem getEsc_length (chunk : GoString) (r : Nat) (nchunk : GoString)
    (h : getEsc chunk = some (r, nchunk)) : nchunk.length < chunk.length := by
  cases chunk with
  | nil => simp [getEsc] at h
  | cons c t =>
    unfold getEsc at h
    simp only at h
    split at h
    · exact absurd h (by simp)
    · by_cases hc : c = 92
      · simp only [hc, if_true] at h
        cases t with
        | nil => simp at h
        | cons c1 t1 =>
          have hw := DecodeRuneInString_width_pos c1 t1
          simp only [List.isEmpty_cons, Bool.false_eq_true, if_false] at h
          split at h
          · exact absurd h (by simp)
          · split at h
            · exact absurd h (by simp)
            · simp only [Option.some.injEq, Prod.mk.injEq] at h
              rw [← h.2]
              simp only [List.length_drop, List.length_cons]
              omega
      · have hw := DecodeRuneInString_width_pos c t
        simp only [hc, if_false, List.isEmpty_cons, Bool.false_eq_true] at h
        split at h
        · exact absurd h (by simp)
        · split at h
          · exact absurd h (by simp)
          · simp only [Option.some.injEq, Prod.mk.injEq] at h
            rw [← h.2]
            simp only [List.length_drop, List.length_cons]
            omega

theorem rangeLoop_step (fuel : Nat) (chunk : GoString) (r : Nat) (matched : Bool)
    (nrange : Nat) :
    rangeLoop (fuel + 1) chunk r matched nrange =
      if chunk.head? = some 93 ∧ nrange > 0 then some (matched, chunk.tail)
      else
        match getEsc chunk with
        | none => none
        | some (lo, chunk1) =>
          match (if chunk1.head? = some 45 then getEsc chunk1.tail else some (lo, chunk1)) with
          | none => none
          | some (hi, chunk2) =>
            rangeLoop fuel chunk2 r (matched || (decide (lo ≤ r) && decide (r ≤ hi)))
              (nrange + 1) := by
  simp only [rangeLoop]

theorem rangeLoop_inner_length (lo : Nat) (chunk1 : GoString) (hi : Nat) (chunk2 : GoString)
    (h : (if chunk1.head? = some 45 then getEsc chunk1.tail else some (lo, chunk1)) =
      some (hi, chunk2)) : chunk2.length ≤ chunk1.length := by
  split at h
  · have := getEsc_length _ _ _ h
    simp only [List.length_tail] at this
    omega
  · simp only [Option.some.injEq, Prod.mk.injEq] at h
    rw [h.2]

theorem rangeLoop_length :
    ∀ (fuel : Nat) (chunk : GoString) (r : Nat) (matched : Bool) (nrange : Nat) (b : Bool)
      (rest : GoString),
      rangeLoop fuel chunk r matched nrange = some (b, rest) → rest.length < chunk.length := by
  intro fuel
  induction fuel with
  | zero => intro chunk r matched nrange b rest h; simp [rangeLoop] at h
  | succ fuel ih =>
    intro chunk r matched nrange b rest h
    rw [rangeLoop_step] at h
    split at h
    · rename_i hc
      simp only [Option.some.injEq, Prod.mk.injEq] at h
      rw [← h.2]
      cases chunk with
      | nil => simp at hc
      | cons c t => simp
    · cases h1 : getEsc chunk with
      | none => simp [h1] at h
      | some p1 =>
        obtain ⟨lo, chunk1⟩ := p1
        simp only [h1] at h
        have hl1 := getEsc_length _ _ _ h1
        cases h2 : (if chunk1.head? = some 45 then getEsc chunk1.tail else some (lo, chunk1)) with
        | none => simp [h2] at h
        | some p2 =>
          obtain ⟨hi, chunk2⟩ := p2
          simp only [h2] at h
          have hl2 := rangeLoop_inner_length _ _ _ _ h2
          have := ih _ _ _ _ _ _ h
          omega

theorem rangeLoop_enough :
    ∀ (f1 f2 : Nat) (chunk : GoString) (r : Nat) (matched : Bool) (nrange : Nat),
      chunk.length < f1 → chunk.length < f2 →
      rangeLoop f1 chunk r matched nrange = rangeLoop f2 chunk r matched nrange := by
  intro f1
  induction f1 with
  | zero => intro f2 chunk r matched nrange h1 _; omega
  | succ f1 ih =>
    intro f2 chunk r matched nrange h1 h2
    cases f2 with
    | zero => omega
    | succ f2 =>
      rw [rangeLoop_step, rangeLoop_step]
      split
      · rfl
      · cases hg : getEsc chunk with
        | none => rfl
        | some p1 =>
          obtain ⟨lo, chunk1⟩ := p1
          have hl1 := getEsc_length _ _ _ hg
          simp only
          cases hg2 : (if chunk1.head? = some 45 then getEsc chunk1.tail
              else some (lo, chunk1)) with
          | none => rfl
          | some p2 =>
            obtain ⟨hi, chunk2⟩ := p2
            have hl2 := rangeLoop_inner_length _ _ _ _ hg2
            simp only
            apply ih
            · omega
            · omega

theorem matchChunkLoop_enough :
    ∀ (f1 f2 : Nat) (chunk s : GoString) (failed : Bool),
      chunk.length ≤ f1 → chunk.length ≤ f2 →
      matchChunkLoop f1 chunk s failed = matchChunkLoop f2 chunk s failed := by
  intro f1
  induction f1 with
  | zero =>
    intro f2 chunk s failed h1 _
    cases chunk with
    | nil => cases f2 <;> simp [matchChunkLoop]
    | cons c t => simp at h1
  | succ f1 ih =>
    intro f2 chunk s failed h1 h2
    cases chunk with
    | nil => cases f2 <;> simp [matchChunkLoop]
    | cons c t =>
      cases f2 with
      | zero => simp at h2
      | succ f2 =>
        simp only [List.length_cons, Nat.add_le_add_iff_right] at h1 h2
        unfold matchChunkLoop
        simp only
        split
        · have htail : (if (t.head? == some 94) = true then t.tail else t).length ≤ t.length := by
            split
            · simp
            · exact le_refl _
          split
          · rfl
          · rename_i hr
            have := rangeLoop_length _ _ _ _ _ _ _ hr
            apply ih
            · omega
            · omega
        · split
          · exact ih _ _ _ _ h1 h2
          · split
            · cases t with
              | nil => rfl
              | cons c1 t1 =>
                simp only [List.length_cons] at h1 h2
                apply ih
                · omega
                · omega
            · exact ih _ _ _ _ h1 h2

theorem scanLen_pos (c : UInt8) (rest : GoString) (inrange : Bool) (h : c ≠ 42) :
    1 ≤ scanLen (c :: rest) inrange := by
  unfold scanLen
  simp only [h, if_false]
  repeat' split
  all_goals omega

theorem scanChunk_length (p : UInt8) (ps : GoString) :
    (scanChunk (p :: ps)).2.2.length ≤ ps.length := by
  simp only [scanChunk, List.length_drop]
  by_cases hp : p = 42
  · subst hp
    have h1 : ((42 : UInt8) :: ps).dropWhile (· == 42) = ps.dropWhile (· == 42) := by
      simp [List.dropWhile]
    rw [h1]
    have h2 : (ps.dropWhile (· == 42)).length ≤ ps.length :=
      (List.dropWhile_sublist _).length_le
    omega
  · have hb : (p == 42) = false := by simp [hp]
    have h1 : (p :: ps).dropWhile (· == 42) = p :: ps := by
      simp [List.dropWhile, hb]
    rw [h1]
    have := scanLen_pos p ps false hp
    simp only [List.length_cons]
    omega

theorem matchLoop_enough :
    ∀ (f1 f2 : Nat) (pattern name : GoString),
      pattern.length ≤ f1 → pattern.length ≤ f2 →
      matchLoop f1 pattern name = matchLoop f2 pattern name := by
  intro f1
  induction f1 with
  | zero =>
    intro f2 pattern name h1 _
    cases pattern with
    | nil => cases f2 <;> simp [matchLoop]
    | cons p ps => simp at h1
  | succ f1 ih =>
    intro f2 pattern name h1 h2
    cases pattern with
    | nil => cases f2 <;> simp [matchLoop]
    | cons p ps =>
      cases f2 with
      | zero => simp at h2
      | succ f2 =>
        simp only [List.length_cons, Nat.add_le_add_iff_right] at h1 h2
        have hlen := scanChunk_length p ps
        rcases hsc : scanChunk (p :: ps) with ⟨star, chunk, rest⟩
        rw [hsc] at hlen
        simp only at hlen
        simp only [matchLoop, hsc]
        split
        · rfl
        · split
          · apply ih
            · omega
            · omega
          · rfl
          · rfl

/-- Go: filepath.Match does not depend on the bound of its loop: any bound from the
length of the pattern on gives the same result. -/
theorem Match_enough (fuel : Nat) (pattern name : GoString) (h : pattern.length ≤ fuel) :
    matchLoop fuel pattern name = Match pattern name :=
  matchLoop_enough fuel pattern.length pattern name h (le_refl _)

end filepath

/-! ## Theorems: matchSegment and brace groups -/

theorem strings.Index_none_iff (s : GoString) (b : UInt8) :
    strings.Index s b = none ↔ b ∉ s := by
  induction s with
  | nil => simp [strings.Index]
  | cons c cs ih =>
    by_cases h : c = b
    · simp [strings.Index, h]
    · simp [strings.Index, h, ih, Ne.symm h]

theorem strings.Index_append (a c : GoString) (b : UInt8) (h : b ∉ a) :
    strings.Index (a ++ b :: c) b = some a.length := by
  induction a with
  | nil => simp [strings.Index]
  | cons x a ih =>
    have hx : x ≠ b := fun he => h (by simp [he])
    have ha : b ∉ a := fun hm => h (List.mem_cons_of_mem x hm)
    simp [strings.Index, hx, ih ha]

theorem strings.Index_some (s : GoString) (b : UInt8) :
    ∀ i : Nat, strings.Index s b = some i →
      ∃ a c : GoString, s = a ++ b :: c ∧ a.length = i ∧ b ∉ a := by
  induction s with
  | nil => intro i h; simp [strings.Index] at h
  | cons x s ih =>
    intro i h
    by_cases hx : x = b
    · subst hx
      simp only [strings.Index, if_true, Option.some.injEq] at h
      exact ⟨[], s, by simp, by simp [← h], by simp⟩
    · simp only [strings.Index, hx, if_false, Option.map_eq_some'] at h
      obtain ⟨j, hj, rfl⟩ := h
      obtain ⟨a, c, hs, hl, hb⟩ := ih j hj
      refine ⟨x :: a, c, by simp [hs], by simp [hl], ?_⟩
      simp only [List.mem_cons, not_or]
      exact ⟨Ne.symm hx, hb⟩

theorem strings.Split_length_le (s : GoString) (sep : UInt8) :
    ∀ seg ∈ strings.Split s sep, seg.length ≤ s.length := by
  induction s with
  | nil => simp [strings.Split]
  | cons c cs ih =>
    intro seg hseg
    unfold strings.Split at hseg
    by_cases h : c = sep
    · simp only [h, if_true, List.mem_cons] at hseg
      rcases hseg with rfl | hseg
      · simp
      · have := ih seg hseg
        simp only [List.length_cons]; omega
    · simp only [h, if_false] at hseg
      cases hs : strings.Split cs sep with
      | nil =>
        rw [hs] at hseg
        simp only [List.mem_singleton] at hseg
        subst hseg
        simp
      | cons x xs =>
        rw [hs] at hseg ih
        simp only [List.mem_cons] at hseg
        rcases hseg with rfl | hseg
        · have := ih x (by simp)
          simp only [List.length_cons]; omega
        · have := ih seg (by simp [hseg])
          simp only [List.length_cons]; omega

theorem strings.Split_not_mem (s : GoString) (sep : UInt8) :
    ∀ seg ∈ strings.Split s sep, sep ∉ seg := by
  induction s with
  | nil => simp [strings.Split]
  | cons c cs ih =>
    intro seg hseg
    unfold strings.Split at hseg
    by_cases h : c = sep
    · simp only [h, if_true, List.mem_cons] at hseg
      rcases hseg with rfl | hseg
      · simp
      · exact ih seg hseg
    · simp only [h, if_false] at hseg
      cases hs : strings.Split cs sep with
      | nil =>
        rw [hs] at hseg
        simp only [List.mem_singleton] at hseg
        subst hseg
        simpa using Ne.symm h
      | cons x xs =>
        rw [hs] at hseg ih
        simp only [List.mem_cons] at hseg
        rcases hseg with rfl | hseg
        · have := ih x (by simp)
          simp only [List.mem_cons, not_or]
          exact ⟨Ne.symm h, this⟩
        · exact ih seg (by simp [hseg])

theorem strings.Split_subset (s : GoString) (sep : UInt8) :
    ∀ seg ∈ strings.Split s sep, ∀ c ∈ seg, c ∈ s := by
  induction s with
  | nil => simp [strings.Split]
  | cons d cs ih =>
    intro seg hseg c hc
    unfold strings.Split at hseg
    by_cases h : d = sep
    · simp only [h, if_true, List.mem_cons] at hseg
      rcases hseg with rfl | hseg
      · simp at hc
      · exact List.mem_cons_of_mem _ (ih seg hseg c hc)
    · simp only [h, if_false] at hseg
      cases hs : strings.Split cs sep with
      | nil =>
        rw [hs] at hseg
        simp only [List.mem_singleton] at hseg
        subst hseg
        simp only [List.mem_singleton] at hc
        simp [hc]
      | cons x xs =>
        rw [hs] at hseg ih
        simp only [List.mem_cons] at hseg
        rcases hseg with rfl | hseg
        · simp only [List.mem_cons] at hc
          rcases hc with rfl | hc
          · simp
          · exact List.mem_cons_of_mem _ (ih x (by simp) c hc)
        · exact List.mem_cons_of_mem _ (ih seg (by simp [hseg]) c hc)

theorem braceGroup_of_parts (pre body suf : GoString)
    (hpre : (123 : UInt8) ∉ pre) (hbody : (125 : UInt8) ∉ body) :
    braceGroup (pre ++ 123 :: body ++ 125 :: suf) = some (pre, body, suf) := by
  have h1 : strings.Index (pre ++ 123 :: body ++ 125 :: suf) 123 = some pre.length := by
    have := strings.Index_append pre (body ++ 125 :: suf) 123 hpre
    simpa using this
  have h2 : (pre ++ 123 :: body ++ 125 :: suf).drop pre.length = (123 :: body) ++ 125 :: suf := by
    simp
  have hb : (125 : UInt8) ∉ 123 :: body := by
    simp only [List.mem_cons, not_or]
    exact ⟨by decide, hbody⟩
  have h3 : strings.Index ((123 :: body) ++ 125 :: suf) 125 = some (123 :: body).length :=
    strings.Index_append (123 :: body) suf 125 hb
  unfold braceGroup
  rw [h1]
  simp only [h2, h3, List.length_cons, Option.some.injEq, Prod.mk.injEq]
  refine ⟨by simp, ?_, ?_⟩
  · have : (pre ++ 123 :: body ++ 125 :: suf).drop (pre.length + 1) = body ++ 125 :: suf := by
      rw [← List.drop_drop]
      simp
    rw [this]
    have hl : pre.length + (body.length + 1) - (pre.length + 1) = body.length := by omega
    rw [hl]
    simp
  · have : pre.length + (body.length + 1) + 1 = (pre ++ 123 :: body ++ [125]).length := by
      simp; omega
    rw [this]
    have he : pre ++ 123 :: body ++ 125 :: suf = (pre ++ 123 :: body ++ [125]) ++ suf := by simp
    rw [he, List.drop_left]

theorem braceGroup_some (pattern pre body suf : GoString)
    (h : braceGroup pattern = some (pre, body, suf)) :
    pattern = pre ++ 123 :: body ++ 125 :: suf ∧ (123 : UInt8) ∉ pre ∧ (125 : UInt8) ∉ body := by
  unfold braceGroup at h
  cases h1 : strings.Index pattern 123 with
  | none => simp [h1] at h
  | some idx =>
    obtain ⟨a, c, hs, hl, hb⟩ := strings.Index_some pattern 123 idx h1
    subst hs
    subst hl
    have hd : (a ++ 123 :: c).drop a.length = 123 :: c := by simp
    rw [h1] at h
    simp only [hd] at h
    cases h2 : strings.Index (123 :: c) 125 with
    | none => simp [h2] at h
    | some e =>
      obtain ⟨a2, c2, hs2, hl2, hb2⟩ := strings.Index_some (123 :: c) 125 e h2
      cases a2 with
      | nil => simp at hs2
      | cons x body2 =>
        simp only [List.cons_append, List.cons.injEq] at hs2
        obtain ⟨_, hc⟩ := hs2
        subst hc
        have hbody : (125 : UInt8) ∉ body2 := fun hm => hb2 (List.mem_cons_of_mem x hm)
        have := braceGroup_of_parts a body2 c2 hb hbody
        unfold braceGroup at this
        simp only [List.append_assoc, List.cons_append] at this
        rw [h1] at this
        simp only [hd, h2] at this
        rw [h2] at h
        simp only at h
        rw [h] at this
        simp only [Option.some.injEq, Prod.mk.injEq] at this
        obtain ⟨r1, r2, r3⟩ := this
        subst r1 r2 r3
        exact ⟨by simp, hb, hbody⟩

theorem matchSegmentFuel_succ (fuel : Nat) (pattern name : GoString) :
    matchSegmentFuel (fuel + 1) pattern name =
      match braceGroup pattern with
      | none => plainMatch pattern name
      | some (pre, body, suf) =>
        (strings.Split body 44).any (fun alt => matchSegmentFuel fuel (pre ++ alt ++ suf) name) := by
  conv_lhs => rw [matchSegmentFuel]
  unfold braceGroup plainMatch
  cases strings.Index pattern 123 with
  | none => rfl
  | some idx =>
    simp only
    cases strings.Index (pattern.drop idx) 125 with
    | none => rfl
    | some e => rfl

theorem any_congr_mem {α : Type} (l : List α) (f g : α → Bool) (h : ∀ x ∈ l, f x = g x) :
    l.any f = l.any g := by
  induction l with
  | nil => rfl
  | cons x l ih =>
    simp only [List.any_cons]
    rw [h x (List.mem_cons_self x l), ih (fun y hy => h y (List.mem_cons_of_mem x hy))]

theorem matchSegmentFuel_enough (name : GoString) :
    ∀ (f1 f2 : Nat) (pattern : GoString), pattern.length < f1 → pattern.length < f2 →
      matchSegmentFuel f1 pattern name = matchSegmentFuel f2 pattern name := by
  intro f1
  induction f1 with
  | zero => intro f2 pattern h1 _; omega
  | succ f1 ih =>
    intro f2 pattern h1 h2
    cases f2 with
    | zero => omega
    | succ f2 =>
      rw [matchSegmentFuel_succ, matchSegmentFuel_succ]
      cases hg : braceGroup pattern with
      | none => rfl
      | some g =>
        obtain ⟨pre, body, suf⟩ := g
        obtain ⟨hp, _, _⟩ := braceGroup_some pattern pre body suf hg
        simp only
        apply any_congr_mem
        intro alt halt
        have hlen := strings.Split_length_le body 44 alt halt
        have hpl : pattern.length = pre.length + body.length + suf.length + 2 := by
          rw [hp]; simp; omega
        apply ih
        · simp only [List.length_append]; omega
        · simp only [List.length_append]; omega

/-- Go: matchSegment on a pattern with a brace group: each alternative is tried in place
of the group. -/
theorem matchSegment_brace (pre body suf name : GoString)
    (hpre : (123 : UInt8) ∉ pre) (hbody : (125 : UInt8) ∉ body) :
    matchSegment (pre ++ 123 :: body ++ 125 :: suf) name =
      (strings.Split body 44).any (fun alt => matchSegment (pre ++ alt ++ suf) name) := by
  unfold matchSegment
  rw [matchSegmentFuel_succ, braceGroup_of_parts pre body suf hpre hbody]
  simp only
  apply any_congr_mem
  intro alt halt
  have hlen := strings.Split_length_le body 44 alt halt
  apply matchSegmentFuel_enough
  · simp only [List.length_append, List.length_cons]; omega
  · simp only [List.length_append]; omega

/-- Go: matchSegment on a pattern without a brace group is filepath.Match. -/
theorem matchSegment_plain (pattern name : GoString) (h : braceGroup pattern = none) :
    matchSegment pattern name = plainMatch pattern name := by
  unfold matchSegment
  rw [matchSegmentFuel_succ, h]

theorem braceGroup_none_of_not_mem (pattern : GoString) (h : (123 : UInt8) ∉ pattern) :
    braceGroup pattern = none := by
  unfold braceGroup
  rw [(strings.Index_none_iff pattern 123).mpr h]

/-! ## Theorems: patterns of the form `**/*.ext` and `*.{e1,...,en}` -/

theorem matchSegments_singleton (p : GoString) (ns : List GoString) (hp : p ≠ doubleStar) :
    matchSegments [p] ns = true ↔ ∃ n, ns = [n] ∧ matchSegment p n = true := by
  cases ns with
  | nil => simp [matchSegments_nil_right, trailingStars, hp]
  | cons n ns =>
    rw [matchSegments_cons_cons p [] n ns hp, Bool.and_eq_true, matchSegments_nil_left]
    constructor
    · rintro ⟨h1, h2⟩
      exact ⟨n, by rw [h2], h1⟩
    · rintro ⟨m, hm, h⟩
      simp only [List.cons.injEq] at hm
      obtain ⟨rfl, rfl⟩ := hm
      exact ⟨h, rfl⟩

theorem drop_eq_singleton_iff (ns : List GoString) (Q : GoString → Prop) :
    (∃ k, k ≤ ns.length ∧ ∃ n, ns.drop k = [n] ∧ Q n) ↔
      ∃ n, ns.getLast? = some n ∧ Q n := by
  constructor
  · rintro ⟨k, _, n, hd, hq⟩
    refine ⟨n, ?_, hq⟩
    have h1 : ns = ns.take k ++ [n] := by rw [← hd, List.take_append_drop]
    rw [h1]
    simp
  · rintro ⟨n, hl, hq⟩
    have h1 := List.dropLast_append_getLast? n hl
    refine ⟨ns.dropLast.length, by simp, n, ?_, hq⟩
    conv_lhs => rw [← h1]
    simp

theorem matchSegment_star_literal (lit n : GoString) (h : filepath.Literal lit)
    (hb : (123 : UInt8) ∉ lit) :
    matchSegment (42 :: lit) n = true ↔
      ∃ pre : GoString, n = pre ++ lit ∧ (47 : UInt8) ∉ pre := by
  have hb2 : (123 : UInt8) ∉ 42 :: lit := by
    simp only [List.mem_cons, not_or]
    exact ⟨by decide, hb⟩
  rw [matchSegment_plain _ _ (braceGroup_none_of_not_mem _ hb2)]
  obtain ⟨b, hm, hiff⟩ := filepath.Match_star_literal lit n h
  unfold plainMatch
  rw [hm]
  exact hiff

theorem suffix_of_segment (lit n : GoString) (hn : (47 : UInt8) ∉ n) :
    (∃ pre : GoString, n = pre ++ lit ∧ (47 : UInt8) ∉ pre) ↔ lit <:+ n := by
  constructor
  · rintro ⟨pre, he, _⟩
    exact ⟨pre, he.symm⟩
  · rintro ⟨pre, he⟩
    refine ⟨pre, he.symm, fun hm => hn ?_⟩
    rw [← he]
    exact List.mem_append_left _ hm

theorem getLast?_splitOn_not_mem (path seg : GoString)
    (h : (path.splitOn 47).getLast? = some seg) : (47 : UInt8) ∉ seg := by
  apply strings.Split_not_mem path 47 seg
  rw [strings.Split_eq_splitOn]
  exact List.mem_of_getLast?_eq_some h

/-- C3: MatchPattern of `**/*.go` is true exactly for the paths whose last segment
between slashes ends with `.go`: true for main.go, where `**` stands for no segment, and
for a/b/c/d/e.go, false for cmd/server/main.rs. -/
theorem MatchPattern_doubleStar_go :
    (∀ path : GoString, MatchPattern (bytes "**/*.go") path = true ↔
      ∃ seg, (path.splitOn 47).getLast? = some seg ∧ bytes ".go" <:+ seg) ∧
    MatchPattern (bytes "**/*.go") (bytes "main.go") = true ∧
    MatchPattern (bytes "**/*.go") (bytes "a/b/c/d/e.go") = true ∧
    MatchPattern (bytes "**/*.go") (bytes "cmd/server/main.rs") = false := by
  refine ⟨?_, by decide, by decide, by decide⟩
  intro path
  have hpat : strings.Split (bytes "**/*.go") 47 = [doubleStar, 42 :: bytes ".go"] := by decide
  have hlit : filepath.Literal (bytes ".go") := by unfold filepath.Literal; decide
  have hne : (42 :: bytes ".go") ≠ doubleStar := by decide
  have hc : strings.Contains (bytes "**/*.go") 47 = true := by decide
  simp only [MatchPattern, matchGlob, filepath.ToSlash_eq, hc, Bool.not_true, Bool.false_and,
    Bool.false_eq_true, if_false, globMatch, hpat, matchSegments_doubleStar_iff,
    matchSegments_singleton _ _ hne, strings.Split_eq_splitOn]
  rw [drop_eq_singleton_iff (path.splitOn 47) (fun n => matchSegment (42 :: bytes ".go") n = true)]
  constructor
  · rintro ⟨n, hl, hm⟩
    refine ⟨n, hl, ?_⟩
    rw [matchSegment_star_literal _ _ hlit (by decide)] at hm
    exact (suffix_of_segment _ _ (getLast?_splitOn_not_mem path n hl)).mp hm
  · rintro ⟨n, hl, hs⟩
    refine ⟨n, hl, ?_⟩
    rw [matchSegment_star_literal _ _ hlit (by decide)]
    exact (suffix_of_segment _ _ (getLast?_splitOn_not_mem path n hl)).mpr hs

theorem intercalate_cons_cons (sep : UInt8) (a b : GoString) (ls : List GoString) :
    [sep].intercalate (a :: b :: ls) = a ++ sep :: [sep].intercalate (b :: ls) := by
  simp [List.intercalate, List.intersperse_cons_cons, List.flatten]

theorem intercalate_singleton (sep : UInt8) (a : GoString) : [sep].intercalate [a] = a := by
  simp [List.intercalate, List.flatten]

theorem mem_intercalate (sep : UInt8) (ls : List GoString) (c : UInt8) :
    c ∈ [sep].intercalate ls → c = sep ∨ ∃ l ∈ ls, c ∈ l := by
  induction ls with
  | nil => intro h; simp [List.intercalate] at h
  | cons a ls ih =>
    cases ls with
    | nil =>
      intro h
      rw [intercalate_singleton] at h
      exact Or.inr ⟨a, by simp, h⟩
    | cons b ls =>
      intro h
      rw [intercalate_cons_cons] at h
      simp only [List.mem_append, List.mem_cons] at h
      rcases h with h | h | h
      · exact Or.inr ⟨a, by simp, h⟩
      · exact Or.inl h
      · rcases ih h with h1 | ⟨l, hl, hc⟩
        · exact Or.inl h1
        · exact Or.inr ⟨l, List.mem_cons_of_mem a hl, hc⟩

theorem strings.Split_of_not_mem (s : GoString) (sep : UInt8) (h : sep ∉ s) :
    strings.Split s sep = [s] := by
  rw [strings.Split_eq_splitOn]
  apply List.splitOnP_eq_single
  intro x hx hb
  rw [beq_iff_eq] at hb
  exact h (hb ▸ hx)

theorem strings.Split_eq_singleton_iff (path n : GoString) :
    strings.Split path 47 = [n] ↔ (47 : UInt8) ∉ path ∧ n = path := by
  constructor
  · intro h
    have h1 := List.intercalate_splitOn path 47
    rw [← strings.Split_eq_splitOn, h, intercalate_singleton] at h1
    subst h1
    exact ⟨strings.Split_not_mem n 47 n (by rw [h]; simp), rfl⟩
  · rintro ⟨h, rfl⟩
    exact strings.Split_of_not_mem n 47 h

theorem isAlnum_ne (c : UInt8) (h : isAlnum c = true) :
    c ≠ 42 ∧ c ≠ 44 ∧ c ≠ 47 ∧ c ≠ 63 ∧ c ≠ 91 ∧ c ≠ 92 ∧ c ≠ 123 ∧ c ≠ 125 := by
  refine ⟨?_, ?_, ?_, ?_, ?_, ?_, ?_, ?_⟩ <;> (rintro rfl; revert h; decide)

/-- C8: for a non-empty list of extensions made of ASCII letters and digits, MatchPattern
of `*.{e1,...,en}` is true exactly for the paths without a slash that end with a dot
followed by one of the extensions. -/
theorem MatchPattern_star_brace_extensions (es : List GoString) (path : GoString)
    (hne : es ≠ []) (halnum : ∀ e ∈ es, ∀ c ∈ e, isAlnum c = true) :
    MatchPattern (bytes "*." ++ 123 :: [44].intercalate es ++ [125]) path = true ↔
      (47 : UInt8) ∉ path ∧ ∃ e ∈ es, (46 :: e) <:+ path := by
  have hbody : ∀ c ∈ [44].intercalate es, c = 44 ∨ isAlnum c = true := by
    intro c hc
    rcases mem_intercalate 44 es c hc with h | ⟨e, he, hce⟩
    · exact Or.inl h
    · exact Or.inr (halnum e he c hce)
  have hpat : bytes "*." ++ 123 :: [44].intercalate es ++ [125] =
      [42, 46] ++ 123 :: [44].intercalate es ++ 125 :: [] := rfl
  rw [hpat]
  have hslash : (47 : UInt8) ∉ [42, 46] ++ 123 :: [44].intercalate es ++ 125 :: [] := by
    simp only [List.mem_append, List.mem_cons, List.mem_singleton, List.not_mem_nil, or_false,
      not_or]
    refine ⟨⟨⟨by decide, by decide⟩, by decide, ?_⟩, by decide⟩
    intro hm
    rcases hbody 47 hm with h | h
    · exact absurd h (by decide)
    · exact absurd h (by decide)
  have hb125 : (125 : UInt8) ∉ [44].intercalate es := by
    intro hm
    rcases hbody 125 hm with h | h
    · exact absurd h (by decide)
    · exact absurd h (by decide)
  have hstar : strings.Contains ([42, 46] ++ 123 :: [44].intercalate es ++ 125 :: []) 42 = true := by
    rw [strings.Contains_iff]; simp
  have hne2 : [42, 46] ++ 123 :: [44].intercalate es ++ 125 :: [] ≠ doubleStar := by
    intro h
    have := congrArg List.length h
    simp [doubleStar] at this
  have hsplit : strings.Split ([44].intercalate es) 44 = es := by
    rw [strings.Split_eq_splitOn]
    exact List.splitOn_intercalate es 44
      (fun e he hm => (isAlnum_ne 44 (halnum e he 44 hm)).2.1 rfl) hne
  simp only [MatchPattern, matchGlob, filepath.ToSlash_eq, hstar, Bool.not_true, Bool.and_false,
    Bool.false_and, Bool.false_eq_true, if_false, globMatch,
    strings.Split_of_not_mem _ 47 hslash, matchSegments_singleton _ _ hne2,
    strings.Split_eq_singleton_iff]
  have key : ∀ n : GoString,
      matchSegment ([42, 46] ++ 123 :: [44].intercalate es ++ 125 :: []) n =
        es.any (fun alt => matchSegment ([42, 46] ++ alt ++ []) n) := by
    intro n
    rw [matchSegment_brace [42, 46] _ [] n (by decide) hb125, hsplit]
  simp only [key]
  constructor
  · rintro ⟨n, ⟨hp, rfl⟩, hm⟩
    refine ⟨hp, ?_⟩
    rw [List.any_eq_true] at hm
    obtain ⟨e, he, hme⟩ := hm
    refine ⟨e, he, ?_⟩
    have hlit : filepath.Literal (46 :: e) := by
      intro c hc
      simp only [List.mem_cons] at hc
      rcases hc with rfl | hc
      · decide
      · have := isAlnum_ne c (halnum e he c hc)
        exact ⟨this.1, this.2.2.2.1, this.2.2.2.2.1, this.2.2.2.2.2.1⟩
    have hbr : (123 : UInt8) ∉ 46 :: e := by
      simp only [List.mem_cons, not_or]
      exact ⟨by decide, fun hm => (isAlnum_ne 123 (halnum e he 123 hm)).2.2.2.2.2.2.1 rfl⟩
    have hme2 : matchSegment (42 :: (46 :: e)) n = true := by simpa using hme
    rw [matchSegment_star_literal _ _ hlit hbr] at hme2
    exact (suffix_of_segment _ _ hp).mp hme2
  · rintro ⟨hp, e, he, hs⟩
    refine ⟨path, ⟨hp, rfl⟩, ?_⟩
    rw [List.any_eq_true]
    refine ⟨e, he, ?_⟩
    have hlit : filepath.Literal (46 :: e) := by
      intro c hc
      simp only [List.mem_cons] at hc
      rcases hc with rfl | hc
      · decide
      · have := isAlnum_ne c (halnum e he c hc)
        exact ⟨this.1, this.2.2.2.1, this.2.2.2.2.1, this.2.2.2.2.2.1⟩
    have hbr : (123 : UInt8) ∉ 46 :: e := by
      simp only [List.mem_cons, not_or]
      exact ⟨by decide, fun hm => (isAlnum_ne 123 (halnum e he 123 hm)).2.2.2.2.2.2.1 rfl⟩
    have hme2 : matchSegment (42 :: (46 :: e)) path = true := by
      rw [matchSegment_star_literal _ _ hlit hbr]
      exact (suffix_of_segment _ _ hp).mpr hs
    simpa using hme2

/-- The pattern `*.{go,rs}` matches main.go and lib.rs and does not match app.ts. -/
theorem MatchPattern_star_brace_extensions_witness :
    ([bytes "go", bytes "rs"] ≠ [] ∧
      ∀ e ∈ [bytes "go", bytes "rs"], ∀ c ∈ e, isAlnum c = true) ∧
    (MatchPattern (bytes "*.\x7bgo,rs\x7d") (bytes "main.go") = true ↔
      (47 : UInt8) ∉ bytes "main.go" ∧
        ∃ e ∈ [bytes "go", bytes "rs"], (46 :: e) <:+ bytes "main.go") ∧
    MatchPattern (bytes "*.\x7bgo,rs\x7d") (bytes "main.go") = true ∧
    MatchPattern (bytes "*.\x7bgo,rs\x7d") (bytes "lib.rs") = true ∧
    MatchPattern (bytes "*.\x7bgo,rs\x7d") (bytes "app.ts") = false :=
  ⟨⟨by decide, by decide⟩,
   MatchPattern_star_brace_extensions [bytes "go", bytes "rs"] (bytes "main.go")
     (by decide) (by decide),
   by decide, by decide, by decide⟩

/-! ## Theorems: brace groups in whole patterns -/

theorem matchSegments_alternatives (seg : GoString) (f : GoString → GoString)
    (alts ps2 : List GoString) (hseg : seg ≠ doubleStar)
    (hf : ∀ alt ∈ alts, f alt ≠ doubleStar)
    (hm : ∀ n, matchSegment seg n = alts.any (fun alt => matchSegment (f alt) n)) :
    ∀ ps1 ns : List GoString, matchSegments (ps1 ++ seg :: ps2) ns = true ↔
      ∃ alt ∈ alts, matchSegments (ps1 ++ f alt :: ps2) ns = true := by
  intro ps1
  induction ps1 with
  | nil =>
    intro ns
    cases ns with
    | nil =>
      simp only [List.nil_append, matchSegments_nil_right, trailingStars, hseg, if_false,
        Bool.false_eq_true, false_iff, not_exists, not_and]
      intro alt halt
      simp [hf alt halt]
    | cons n ns =>
      simp only [List.nil_append, matchSegments_cons_cons _ _ _ _ hseg, hm, Bool.and_eq_true,
        List.any_eq_true]
      constructor
      · rintro ⟨⟨alt, halt, h1⟩, h2⟩
        refine ⟨alt, halt, ?_⟩
        rw [matchSegments_cons_cons _ _ _ _ (hf alt halt), h1, h2]
        rfl
      · rintro ⟨alt, halt, h⟩
        rw [matchSegments_cons_cons _ _ _ _ (hf alt halt), Bool.and_eq_true] at h
        exact ⟨⟨alt, halt, h.1⟩, h.2⟩
  | cons p ps1 ih =>
    intro ns
    by_cases hp : p = doubleStar
    · subst hp
      simp only [List.cons_append, matchSegments_doubleStar_iff, ih]
      constructor
      · rintro ⟨k, hk, alt, halt, h⟩
        exact ⟨alt, halt, k, hk, h⟩
      · rintro ⟨alt, halt, k, hk, h⟩
        exact ⟨k, hk, alt, halt, h⟩
    · cases ns with
      | nil => simp [matchSegments_nil_right, trailingStars, hp]
      | cons n ns =>
        simp only [List.cons_append, matchSegments_cons_cons _ _ _ _ hp, Bool.and_eq_true, ih]
        constructor
        · rintro ⟨h1, alt, halt, h2⟩
          exact ⟨alt, halt, h1, h2⟩
        · rintro ⟨alt, halt, h1, h2⟩
          exact ⟨h1, alt, halt, h2⟩

theorem intercalate_cons_of_ne_nil (sep : UInt8) (a : GoString) (ls : List GoString)
    (h : ls ≠ []) : [sep].intercalate (a :: ls) = a ++ sep :: [sep].intercalate ls := by
  cases ls with
  | nil => exact absurd rfl h
  | cons b ls => exact intercalate_cons_cons sep a b ls

theorem joinSegments_middle (ps1 ps2 : List GoString) :
    ∃ A B : GoString, ∀ x : GoString, joinSegments (ps1 ++ [x] ++ ps2) = A ++ x ++ B := by
  induction ps1 with
  | nil =>
    cases ps2 with
    | nil => exact ⟨[], [], fun x => by simp [joinSegments, intercalate_singleton]⟩
    | cons b ps2 =>
      exact ⟨[], 47 :: joinSegments (b :: ps2), fun x => by
        simp [joinSegments, intercalate_cons_cons]⟩
  | cons a ps1 ih =>
    obtain ⟨A, B, h⟩ := ih
    refine ⟨a ++ 47 :: A, B, fun x => ?_⟩
    have hne : ps1 ++ [x] ++ ps2 ≠ [] := by simp
    have := intercalate_cons_of_ne_nil 47 a (ps1 ++ [x] ++ ps2) hne
    simp only [joinSegments] at h ⊢
    rw [List.cons_append, List.cons_append, this, h x]
    simp

theorem Split_joinSegments (segs : List GoString) (hne : segs ≠ [])
    (h : ∀ s ∈ segs, (47 : UInt8) ∉ s) : strings.Split (joinSegments segs) 47 = segs := by
  rw [strings.Split_eq_splitOn]
  exact List.splitOn_intercalate segs 47 h hne

theorem MatchPattern_of_wildcard (pattern path : GoString)
    (h : ∃ c ∈ pattern, c = 47 ∨ c = 42 ∨ c = 63) :
    MatchPattern pattern path = globMatch pattern path := by
  obtain ⟨c, hc, hs⟩ := h
  have hb : (!strings.Contains pattern 47 && !strings.Contains pattern 42
      && !strings.Contains pattern 63) = false := by
    rcases hs with rfl | rfl | rfl
    · simp [(strings.Contains_iff pattern 47).mpr hc]
    · simp [(strings.Contains_iff pattern 42).mpr hc]
    · simp [(strings.Contains_iff pattern 63).mpr hc]
  simp only [MatchPattern, matchGlob, filepath.ToSlash_eq, hb, Bool.false_eq_true, if_false]

/-- C7, amended: let a pattern have the segments ps1, then pre{body}suf, then ps2, where
the brace is the first opening brace of its segment and body runs to the next closing
brace, and let the alternatives be the pieces of body between commas. If every pattern
obtained by putting an alternative in place of the group contains '/', '*' or '?', and no
alternative turns the segment into `**`, then MatchPattern of the pattern is true exactly
when MatchPattern of one of those patterns is. -/
theorem MatchPattern_brace_alternation (ps1 ps2 : List GoString)
    (pre body suf path : GoString)
    (hsegs : ∀ s ∈ ps1 ++ [pre ++ 123 :: body ++ 125 :: suf] ++ ps2, (47 : UInt8) ∉ s)
    (hpre : (123 : UInt8) ∉ pre) (hbody : (125 : UInt8) ∉ body)
    (hwild : ∀ alt ∈ strings.Split body 44,
      ∃ c ∈ joinSegments (ps1 ++ [pre ++ alt ++ suf] ++ ps2), c = 47 ∨ c = 42 ∨ c = 63)
    (hstar : ∀ alt ∈ strings.Split body 44, pre ++ alt ++ suf ≠ bytes "**") :
    MatchPattern (joinSegments (ps1 ++ [pre ++ 123 :: body ++ 125 :: suf] ++ ps2)) path = true ↔
      ∃ alt ∈ strings.Split body 44,
        MatchPattern (joinSegments (ps1 ++ [pre ++ alt ++ suf] ++ ps2)) path = true := by
  have hgroup : (47 : UInt8) ∉ pre ++ 123 :: body ++ 125 :: suf := hsegs _ (by simp)
  have hsub : ∀ alt ∈ strings.Split body 44, ∀ c ∈ pre ++ alt ++ suf,
      c ∈ pre ++ 123 :: body ++ 125 :: suf := by
    intro alt halt c hc
    simp only [List.mem_append, List.mem_cons] at hc ⊢
    rcases hc with (hc | hc) | hc
    · exact Or.inl (Or.inl hc)
    · exact Or.inl (Or.inr (Or.inr (strings.Split_subset body 44 alt halt c hc)))
    · exact Or.inr (Or.inr hc)
  have hsegs2 : ∀ alt ∈ strings.Split body 44,
      ∀ s ∈ ps1 ++ [pre ++ alt ++ suf] ++ ps2, (47 : UInt8) ∉ s := by
    intro alt halt s hs
    simp only [List.mem_append, List.mem_singleton] at hs
    rcases hs with (hs | rfl) | hs
    · exact hsegs s (by simp [hs])
    · exact fun hm => hgroup (hsub alt halt 47 hm)
    · exact hsegs s (by simp [hs])
  have hwild0 : ∃ c ∈ joinSegments (ps1 ++ [pre ++ 123 :: body ++ 125 :: suf] ++ ps2),
      c = 47 ∨ c = 42 ∨ c = 63 := by
    have hne : strings.Split body 44 ≠ [] := by
      rw [strings.Split_eq_splitOn]
      exact List.splitOnP_ne_nil _ _
    obtain ⟨alt, halt⟩ := List.exists_mem_of_ne_nil _ hne
    obtain ⟨c, hc, hs⟩ := hwild alt halt
    obtain ⟨A, B, hAB⟩ := joinSegments_middle ps1 ps2
    refine ⟨c, ?_, hs⟩
    rw [hAB] at hc ⊢
    rcases List.mem_append.mp hc with hc | hc
    · rcases List.mem_append.mp hc with hc | hc
      · exact List.mem_append_left _ (List.mem_append_left _ hc)
      · exact List.mem_append_left _ (List.mem_append_right _ (hsub alt halt c hc))
    · exact List.mem_append_right _ hc
  have hseg : pre ++ 123 :: body ++ 125 :: suf ≠ doubleStar := by
    intro h
    have hm : (123 : UInt8) ∈ pre ++ 123 :: body ++ 125 :: suf := by simp
    rw [h] at hm
    revert hm
    decide
  have hcore := matchSegments_alternatives (pre ++ 123 :: body ++ 125 :: suf)
    (fun alt => pre ++ alt ++ suf) (strings.Split body 44) ps2 hseg hstar
    (fun n => matchSegment_brace pre body suf n hpre hbody) ps1 (strings.Split path 47)
  rw [MatchPattern_of_wildcard _ _ hwild0, globMatch,
    Split_joinSegments _ (by simp) hsegs]
  simp only [List.append_assoc, List.singleton_append] at hcore ⊢
  rw [hcore]
  constructor
  · rintro ⟨alt, halt, h⟩
    refine ⟨alt, halt, ?_⟩
    have h1 := MatchPattern_of_wildcard _ path (hwild alt halt)
    have h2 := Split_joinSegments _ (by simp) (hsegs2 alt halt)
    simp only [List.append_assoc, List.singleton_append] at h1 h2
    rw [h1, globMatch, h2]
    exact h
  · rintro ⟨alt, halt, h⟩
    refine ⟨alt, halt, ?_⟩
    have h1 := MatchPattern_of_wildcard _ path (hwild alt halt)
    have h2 := Split_joinSegments _ (by simp) (hsegs2 alt halt)
    simp only [List.append_assoc, List.singleton_append] at h1 h2
    rw [h1, globMatch, h2] at h
    exact h

/-- C7, as stated, fails: a pattern without '/', '*' and '?' is compared as a bare name,
braces included; an alternative `**` is matched as a single star inside the segment; and
an alternative that alone carries the wildcard leaves a bare name. -/
theorem MatchPattern_brace_counterexample :
    ¬ (MatchPattern (bytes "\x7ba,b\x7d") (bytes "a") = true ↔
        (MatchPattern (bytes "a") (bytes "a") = true ∨
          MatchPattern (bytes "b") (bytes "a") = true)) ∧
    ¬ (MatchPattern (bytes "\x7b**,x\x7d/a") (bytes "a") = true ↔
        (MatchPattern (bytes "**/a") (bytes "a") = true ∨
          MatchPattern (bytes "x/a") (bytes "a") = true)) ∧
    ¬ (MatchPattern (bytes "\x7ba,*\x7d") (bytes "x/a") = true ↔
        (MatchPattern (bytes "a") (bytes "x/a") = true ∨
          MatchPattern (bytes "*") (bytes "x/a") = true)) := by
  decide

/-- The pattern `src/**/*.{ts,tsx}` on src/a/b.tsx: the group is replaced by ts and by
tsx, and the second pattern matches. -/
theorem MatchPattern_brace_alternation_witness :
    ((∀ s ∈ [bytes "src", bytes "**"] ++ [bytes "*." ++ 123 :: bytes "ts,tsx" ++ 125 :: []] ++ [],
        (47 : UInt8) ∉ s) ∧
      (123 : UInt8) ∉ bytes "*." ∧ (125 : UInt8) ∉ bytes "ts,tsx" ∧
      (∀ alt ∈ strings.Split (bytes "ts,tsx") 44,
        ∃ c ∈ joinSegments ([bytes "src", bytes "**"] ++ [bytes "*." ++ alt ++ []] ++ []),
          c = 47 ∨ c = 42 ∨ c = 63) ∧
      (∀ alt ∈ strings.Split (bytes "ts,tsx") 44, bytes "*." ++ alt ++ [] ≠ bytes "**")) ∧
    (MatchPattern (bytes "src/**/*.\x7bts,tsx\x7d") (bytes "src/a/b.tsx") = true ↔
      ∃ alt ∈ strings.Split (bytes "ts,tsx") 44,
        MatchPattern (joinSegments ([bytes "src", bytes "**"] ++ [bytes "*." ++ alt ++ []] ++ []))
          (bytes "src/a/b.tsx") = true) ∧
    MatchPattern (bytes "src/**/*.\x7bts,tsx\x7d") (bytes "src/a/b.tsx") = true :=
  ⟨by decide,
   MatchPattern_brace_alternation [bytes "src", bytes "**"] [] (bytes "*.") (bytes "ts,tsx") []
     (bytes "src/a/b.tsx") (by decide) (by decide) (by decide) (by decide) (by decide),
   by decide⟩

/-! ## Theorems: the debouncer -/

theorem mapGet_mapSet (m : List (GoString × Nat)) (key : GoString) (v : Nat) :
    mapGet (mapSet m key v) key = some v := by
  simp [mapSet, mapGet]

theorem run_append (steps more : List Step) :
    ∀ d : Debouncer, d.run (steps ++ more) =
      match d.run steps with
      | none => none
      | some d1 => d1.run more := by
  induction steps with
  | nil => intro d; rfl
  | cons s steps ih =>
    intro d
    simp only [List.cons_append, Debouncer.run]
    cases d.step s with
    | none => rfl
    | some d1 => exact ih d1

theorem lastCallback_append (steps more : List Step) :
    ∀ last : Option Callback,
      lastCallback last (steps ++ more) = lastCallback (lastCallback last steps) more := by
  induction steps with
  | nil => intro last; rfl
  | cons s steps ih =>
    intro last
    cases s <;> exact ih _

theorem BurstInv_trigger (key : GoString) (d : Debouncer) (prev : Option Int)
    (last : Option Callback) (delay : Duration) (fn : Callback)
    (hinv : BurstInv key d prev last)
    (hearly : callEarly prev d.now = true) :
    BurstInv key (d.TriggerWithDelay key delay fn) (some (d.now + delay)) (some fn) := by
  obtain ⟨hdone, hcase⟩ := hinv
  cases prev with
  | none =>
    cases last with
    | some _ => exact absurd hcase (by simp)
    | none =>
      obtain ⟨ha, hs, hu, hsel, hi⟩ := hcase
      refine ⟨by simp [Debouncer.TriggerWithDelay, hdone], d.nextId, Or.inl ?_⟩
      simp only [Debouncer.TriggerWithDelay, hdone, Bool.false_eq_true, if_false, ha, hs, hu,
        hsel, hi, mapGet_mapSet, and_true]
      cases mapGet d.timers key <;> simp [timerStop]
  | some D =>
    cases last with
    | none => exact absurd hcase (by simp)
    | some fn0 =>
      obtain ⟨id, hp⟩ := hcase
      have hnow : d.now < D := by simpa [callEarly] using hearly
      rcases hp with ⟨ha, hs, hu, hsel, hi, hm⟩ | ⟨hd, _⟩ | ⟨hd, _⟩ | ⟨hd, _⟩ | ⟨hd, _⟩
      · refine ⟨by simp [Debouncer.TriggerWithDelay, hdone], d.nextId, Or.inl ?_⟩
        simp only at hm
        simp only [Debouncer.TriggerWithDelay, hdone, Bool.false_eq_true, if_false, ha, hs, hu,
          hsel, hi, hm, mapGet_mapSet, and_true]
        simp [timerStop]
      · simp only at hd; omega
      · simp only at hd; omega
      · simp only at hd; omega
      · simp only at hd; omega

theorem BurstInv_advance (key : GoString) (d : Debouncer) (prev : Option Int)
    (last : Option Callback) (dt : Nat) (hinv : BurstInv key d prev last) :
    BurstInv key (d.advance dt) prev last := by
  obtain ⟨hdone, hcase⟩ := hinv
  refine ⟨hdone, ?_⟩
  cases prev with
  | none =>
    cases last with
    | some _ => exact absurd hcase (by simp)
    | none => exact hcase
  | some D =>
    cases last with
    | none => exact absurd hcase (by simp)
    | some fn0 =>
      obtain ⟨id, hp⟩ := hcase
      refine ⟨id, ?_⟩
      rcases hp with h | ⟨hd, h⟩ | ⟨hd, h⟩ | ⟨hd, h⟩ | ⟨hd, h⟩
      · exact Or.inl h
      · exact Or.inr (Or.inl ⟨by simp only [Debouncer.advance] at hd ⊢; omega, h⟩)
      · exact Or.inr (Or.inr (Or.inl ⟨by simp only [Debouncer.advance] at hd ⊢; omega, h⟩))
      · exact Or.inr (Or.inr (Or.inr (Or.inl
          ⟨by simp only [Debouncer.advance] at hd ⊢; omega, h⟩)))
      · exact Or.inr (Or.inr (Or.inr (Or.inr
          ⟨by simp only [Debouncer.advance] at hd ⊢; omega, h⟩)))

theorem BurstInv_expire (key : GoString) (d d1 : Debouncer) (prev : Option Int)
    (last : Option Callback) (id : Nat) (hinv : BurstInv key d prev last)
    (hstep : d.expire id = some d1) : BurstInv key d1 prev last := by
  obtain ⟨hdone, hcase⟩ := hinv
  cases prev with
  | none =>
    cases last with
    | some _ => exact absurd hcase (by simp)
    | none =>
      obtain ⟨ha, _⟩ := hcase
      simp [Debouncer.expire, ha] at hstep
  | some D =>
    cases last with
    | none => exact absurd hcase (by simp)
    | some fn0 =>
      obtain ⟨tid, hp⟩ := hcase
      rcases hp with ⟨ha, hs, hu, hsel, hi, hm⟩ | ⟨_, ha, _⟩ | ⟨_, ha, _⟩ | ⟨_, ha, _⟩ |
        ⟨_, ha, _⟩
      · by_cases hid : tid = id
        · subst hid
          by_cases hd : D ≤ d.now
          · simp only [Debouncer.expire, ha, List.find?_cons, beq_self_eq_true, hd, if_true,
              Option.some.injEq] at hstep
            subst hstep
            refine ⟨hdone, tid, Or.inr (Or.inl ?_)⟩
            simp [timerStop, hs, hu, hsel, hi, hd]
          · simp [Debouncer.expire, ha, hd] at hstep
        · have hb : (tid == id) = false := by simp [hid]
          simp [Debouncer.expire, ha, List.find?_cons, hb] at hstep
      · simp [Debouncer.expire, ha] at hstep
      · simp [Debouncer.expire, ha] at hstep
      · simp [Debouncer.expire, ha] at hstep
      · simp [Debouncer.expire, ha] at hstep

theorem BurstInv_timerLocked (key : GoString) (d d1 : Debouncer) (prev : Option Int)
    (last : Option Callback) (id : Nat) (hinv : BurstInv key d prev last)
    (hstep : d.timerLocked id = some d1) : BurstInv key d1 prev last := by
  obtain ⟨hdone, hcase⟩ := hinv
  cases prev with
  | none =>
    cases last with
    | some _ => exact absurd hcase (by simp)
    | none =>
      obtain ⟨_, hs, _⟩ := hcase
      simp [Debouncer.timerLocked, hs] at hstep
  | some D =>
    cases last with
    | none => exact absurd hcase (by simp)
    | some fn0 =>
      obtain ⟨tid, hp⟩ := hcase
      rcases hp with ⟨_, hs, _⟩ | ⟨hd, ha, hs, hu, hsel, hi⟩ | ⟨_, _, hs, _⟩ | ⟨_, _, hs, _⟩ |
        ⟨_, _, hs, _⟩
      · simp [Debouncer.timerLocked, hs] at hstep
      · by_cases hid : tid = id
        · subst hid
          simp only [Debouncer.timerLocked, hs, List.find?_cons, beq_self_eq_true,
            Option.some.injEq] at hstep
          subst hstep
          refine ⟨hdone, tid, Or.inr (Or.inr (Or.inl ?_))⟩
          simp only at hd
          simp [ha, hu, hsel, hi, hd]
        · have hb : (tid == id) = false := by simp [hid]
          simp [Debouncer.timerLocked, hs, List.find?_cons, hb] at hstep
      · simp [Debouncer.timerLocked, hs] at hstep
      · simp [Debouncer.timerLocked, hs] at hstep
      · simp [Debouncer.timerLocked, hs] at hstep

theorem BurstInv_timerSelect (key : GoString) (d d1 : Debouncer) (prev : Option Int)
    (last : Option Callback) (id : Nat) (hinv : BurstInv key d prev last)
    (hstep : d.timerSelect id = some d1) : BurstInv key d1 prev last := by
  obtain ⟨hdone, hcase⟩ := hinv
  cases prev with
  | none =>
    cases last with
    | some _ => exact absurd hcase (by simp)
    | none =>
      obtain ⟨_, _, hu, _⟩ := hcase
      simp [Debouncer.timerSelect, hu] at hstep
  | some D =>
    cases last with
    | none => exact absurd hcase (by simp)
    | some fn0 =>
      obtain ⟨tid, hp⟩ := hcase
      rcases hp with ⟨_, _, hu, _⟩ | ⟨_, _, _, hu, _⟩ | ⟨hd, ha, hs, hu, hsel, hi⟩ |
        ⟨_, _, _, hu, _⟩ | ⟨_, _, _, hu, _⟩
      · simp [Debouncer.timerSelect, hu] at hstep
      · simp [Debouncer.timerSelect, hu] at hstep
      · by_cases hid : tid = id
        · subst hid
          simp only [Debouncer.timerSelect, hu, List.find?_cons, beq_self_eq_true,
            Option.some.injEq] at hstep
          subst hstep
          refine ⟨hdone, tid, Or.inr (Or.inr (Or.inr (Or.inl ?_)))⟩
          simp only at hd
          simp [ha, hs, hsel, hi, hd, hdone]
        · have hb : (tid == id) = false := by simp [hid]
          simp [Debouncer.timerSelect, hu, List.find?_cons, hb] at hstep
      · simp [Debouncer.timerSelect, hu] at hstep
      · simp [Debouncer.timerSelect, hu] at hstep

theorem BurstInv_timerCall (key : GoString) (d d1 : Debouncer) (prev : Option Int)
    (last : Option Callback) (id : Nat) (hinv : BurstInv key d prev last)
    (hstep : d.timerCall id = some d1) : BurstInv key d1 prev last := by
  obtain ⟨hdone, hcase⟩ := hinv
  cases prev with
  | none =>
    cases last with
    | some _ => exact absurd hcase (by simp)
    | none =>
      obtain ⟨_, _, _, hsel, _⟩ := hcase
      simp [Debouncer.timerCall, hsel] at hstep
  | some D =>
    cases last with
    | none => exact absurd hcase (by simp)
    | some fn0 =>
      obtain ⟨tid, hp⟩ := hcase
      rcases hp with ⟨_, _, _, hsel, _⟩ | ⟨_, _, _, _, hsel, _⟩ | ⟨_, _, _, _, hsel, _⟩ |
        ⟨hd, ha, hs, hu, hsel, hi⟩ | ⟨_, _, _, _, hsel, _⟩
      · simp [Debouncer.timerCall, hsel] at hstep
      · simp [Debouncer.timerCall, hsel] at hstep
      · simp [Debouncer.timerCall, hsel] at hstep
      · by_cases hid : tid = id
        · subst hid
          simp only [Debouncer.timerCall, hsel, List.find?_cons, beq_self_eq_true,
            Option.some.injEq] at hstep
          subst hstep
          refine ⟨hdone, tid, Or.inr (Or.inr (Or.inr (Or.inr ?_)))⟩
          simp only at hd
          simp [ha, hs, hu, hi, hd]
        · have hb : (tid == id) = false := by simp [hid]
          simp [Debouncer.timerCall, hsel, List.find?_cons, hb] at hstep
      · simp [Debouncer.timerCall, hsel] at hstep

theorem burst_run (key : GoString) :
    ∀ (steps : List Step) (d : Debouncer) (prev : Option Int) (last : Option Callback),
      BurstInv key d prev last → burstOk key prev d steps = true →
      ∃ d1 prev1, d.run steps = some d1 ∧ BurstInv key d1 prev1 (lastCallback last steps) ∧
        ∀ more, burstOk key prev1 d1 more = true → burstOk key prev d (steps ++ more) = true := by
  intro steps
  induction steps with
  | nil =>
    intro d prev last hinv _
    exact ⟨d, prev, rfl, hinv, fun more h => h⟩
  | cons s steps ih =>
    intro d prev last hinv hok
    cases s with
    | Trigger k fn =>
      simp only [burstOk, Bool.and_eq_true, beq_iff_eq] at hok
      obtain ⟨⟨hk, hearly⟩, hrest⟩ := hok
      subst hk
      have hinv1 := BurstInv_trigger k d prev last d.delay fn hinv hearly
      obtain ⟨d1, prev1, hrun, hinv2, hmore⟩ := ih _ _ _ hinv1 hrest
      refine ⟨d1, prev1, hrun, hinv2, fun more h => ?_⟩
      simp only [List.cons_append, burstOk, beq_self_eq_true, Bool.true_and, Bool.and_eq_true]
      exact ⟨hearly, hmore more h⟩
    | TriggerWithDelay k delay fn =>
      simp only [burstOk, Bool.and_eq_true, beq_iff_eq] at hok
      obtain ⟨⟨hk, hearly⟩, hrest⟩ := hok
      subst hk
      have hinv1 := BurstInv_trigger k d prev last delay fn hinv hearly
      obtain ⟨d1, prev1, hrun, hinv2, hmore⟩ := ih _ _ _ hinv1 hrest
      refine ⟨d1, prev1, hrun, hinv2, fun more h => ?_⟩
      simp only [List.cons_append, burstOk, beq_self_eq_true, Bool.true_and, Bool.and_eq_true]
      exact ⟨hearly, hmore more h⟩
    | stopClose => simp [burstOk] at hok
    | stopSweep => simp [burstOk] at hok
    | advance dt =>
      simp only [burstOk] at hok
      obtain ⟨d1, prev1, hrun, hinv2, hmore⟩ :=
        ih _ _ last (BurstInv_advance key d prev last dt hinv) hok
      refine ⟨d1, prev1, hrun, hinv2, fun more h => ?_⟩
      simp only [List.cons_append, burstOk]
      exact hmore more h
    | expire id =>
      simp only [burstOk] at hok
      cases hstep : d.expire id with
      | none => simp [hstep] at hok
      | some d0 =>
        simp only [hstep] at hok
        obtain ⟨d1, prev1, hrun, hinv2, hmore⟩ :=
          ih _ _ last (BurstInv_expire key d d0 prev last id hinv hstep) hok
        refine ⟨d1, prev1, ?_, hinv2, fun more h => ?_⟩
        · simp only [Debouncer.run, Debouncer.step, hstep]
          exact hrun
        · simp only [List.cons_append, burstOk, hstep]
          exact hmore more h
    | timerLocked id =>
      simp only [burstOk] at hok
      cases hstep : d.timerLocked id with
      | none => simp [hstep] at hok
      | some d0 =>
        simp only [hstep] at hok
        obtain ⟨d1, prev1, hrun, hinv2, hmore⟩ :=
          ih _ _ last (BurstInv_timerLocked key d d0 prev last id hinv hstep) hok
        refine ⟨d1, prev1, ?_, hinv2, fun more h => ?_⟩
        · simp only [Debouncer.run, Debouncer.step, hstep]
          exact hrun
        · simp only [List.cons_append, burstOk, hstep]
          exact hmore more h
    | timerSelect id =>
      simp only [burstOk] at hok
      cases hstep : d.timerSelect id with
      | none => simp [hstep] at hok
      | some d0 =>
        simp only [hstep] at hok
        obtain ⟨d1, prev1, hrun, hinv2, hmore⟩ :=
          ih _ _ last (BurstInv_timerSelect key d d0 prev last id hinv hstep) hok
        refine ⟨d1, prev1, ?_, hinv2, fun more h => ?_⟩
        · simp only [Debouncer.run, Debouncer.step, hstep]
          exact hrun
        · simp only [List.cons_append, burstOk, hstep]
          exact hmore more h
    | timerCall id =>
      simp only [burstOk] at hok
      cases hstep : d.timerCall id with
      | none => simp [hstep] at hok
      | some d0 =>
        simp only [hstep] at hok
        obtain ⟨d1, prev1, hrun, hinv2, hmore⟩ :=
          ih _ _ last (BurstInv_timerCall key d d0 prev last id hinv hstep) hok
        refine ⟨d1, prev1, ?_, hinv2, fun more h => ?_⟩
        · simp only [Debouncer.run, Debouncer.step, hstep]
          exact hrun
        · simp only [List.cons_append, burstOk, hstep]
          exact hmore more h

theorem complete_from_selected (key : GoString) (prev : Option Int) (d : Debouncer) (t : Timer)
    (ha : d.armed = []) (hs : d.started = [])
    (hu : d.unlocked = []) (hsel : d.selected = [t]) (hi : d.invoked = []) :
    ∃ more d2, burstOk key prev d more = true ∧
      (∀ last, lastCallback last more = last) ∧ d.run more = some d2 ∧
      d2.quiet ∧ d2.invoked = [t.fn] := by
  refine ⟨[Step.timerCall t.id], { d with selected := [], invoked := [t.fn] }, ?_,
    fun last => rfl, ?_, ?_, ?_⟩
  · simp [burstOk, Debouncer.timerCall, hsel]
  · simp [Debouncer.run, Debouncer.step, Debouncer.timerCall, hsel, hi]
  · exact ⟨ha, hs, hu, rfl⟩
  · rfl

theorem complete_from_unlocked (key : GoString) (prev : Option Int) (d : Debouncer) (t : Timer)
    (hdone : d.done = false) (ha : d.armed = []) (hs : d.started = [])
    (hu : d.unlocked = [t]) (hsel : d.selected = []) (hi : d.invoked = []) :
    ∃ more d2, burstOk key prev d more = true ∧
      (∀ last, lastCallback last more = last) ∧ d.run more = some d2 ∧
      d2.quiet ∧ d2.invoked = [t.fn] := by
  have hstep : d.timerSelect t.id = some { d with unlocked := [], selected := [t] } := by
    simp [Debouncer.timerSelect, hu, hsel, hdone]
  obtain ⟨more, d2, hok, hlast, hrun, hq, hinv⟩ :=
    complete_from_selected key prev { d with unlocked := [], selected := [t] } t
      ha hs rfl rfl hi
  refine ⟨Step.timerSelect t.id :: more, d2, ?_, fun last => hlast last, ?_, hq, hinv⟩
  · simp only [burstOk, hstep]
    exact hok
  · simp only [Debouncer.run, Debouncer.step, hstep]
    exact hrun

theorem complete_from_started (key : GoString) (prev : Option Int) (d : Debouncer) (t : Timer)
    (hdone : d.done = false) (ha : d.armed = []) (hs : d.started = [t])
    (hu : d.unlocked = []) (hsel : d.selected = []) (hi : d.invoked = []) :
    ∃ more d2, burstOk key prev d more = true ∧
      (∀ last, lastCallback last more = last) ∧ d.run more = some d2 ∧
      d2.quiet ∧ d2.invoked = [t.fn] := by
  have hstep : d.timerLocked t.id =
      some { d with timers := mapDelete d.timers t.key, started := [], unlocked := [t] } := by
    simp [Debouncer.timerLocked, hs, hu]
  obtain ⟨more, d2, hok, hlast, hrun, hq, hinv⟩ :=
    complete_from_unlocked key prev
      { d with timers := mapDelete d.timers t.key, started := [], unlocked := [t] } t
      hdone ha rfl rfl hsel hi
  refine ⟨Step.timerLocked t.id :: more, d2, ?_, fun last => hlast last, ?_, hq, hinv⟩
  · simp only [burstOk, hstep]
    exact hok
  · simp only [Debouncer.run, Debouncer.step, hstep]
    exact hrun

theorem complete_from_armed (key : GoString) (prev : Option Int) (d : Debouncer) (t : Timer)
    (hdone : d.done = false) (ha : d.armed = [t]) (hs : d.started = [])
    (hu : d.unlocked = []) (hsel : d.selected = []) (hi : d.invoked = []) :
    ∃ more d2, burstOk key prev d more = true ∧
      (∀ last, lastCallback last more = last) ∧ d.run more = some d2 ∧
      d2.quiet ∧ d2.invoked = [t.fn] := by
  have hnow : t.deadline ≤ (d.advance (t.deadline - d.now).toNat).now := by
    simp only [Debouncer.advance]
    omega
  have hstep : (d.advance (t.deadline - d.now).toNat).expire t.id =
      some { d.advance (t.deadline - d.now).toNat with armed := [], started := [t] } := by
    simp [Debouncer.expire, Debouncer.advance, ha, hs, timerStop] at hnow ⊢
    exact hnow
  obtain ⟨more, d2, hok, hlast, hrun, hq, hinv⟩ :=
    complete_from_started key prev
      { d.advance (t.deadline - d.now).toNat with armed := [], started := [t] } t
      hdone rfl rfl hu hsel hi
  refine ⟨Step.advance (t.deadline - d.now).toNat :: Step.expire t.id :: more, d2, ?_,
    fun last => hlast last, ?_, hq, hinv⟩
  · simp only [burstOk, hstep]
    exact hok
  · simp only [Debouncer.run, Debouncer.step, hstep]
    exact hrun

/-- On a new Debouncer that is not stopped and whose whole traffic is a burst of Trigger
and TriggerWithDelay calls on one key, each call made before the delay of the call before
it has elapsed, no callback but the one of the last call is ever called, it is called at
most once, it has been called once when no timer is left armed or under way, and every
such run can be carried on to that point. -/
theorem burst_on_new_Debouncer (key : GoString) (delay : Duration) (now : Int)
    (steps : List Step) (fn : Callback)
    (hburst : burstOk key none (NewDebouncer delay now) steps = true)
    (hlast : lastCallback none steps = some fn) :
    ∃ d, (NewDebouncer delay now).run steps = some d ∧
      (d.invoked = [] ∨ d.invoked = [fn]) ∧ (d.quiet → d.invoked = [fn]) ∧
      ∃ more d2, burstOk key none (NewDebouncer delay now) (steps ++ more) = true ∧
        lastCallback none (steps ++ more) = some fn ∧
        (NewDebouncer delay now).run (steps ++ more) = some d2 ∧
        d2.quiet ∧ d2.invoked = [fn] := by
  have hinit : BurstInv key (NewDebouncer delay now) none none :=
    ⟨rfl, rfl, rfl, rfl, rfl, rfl⟩
  obtain ⟨d, prev1, hrun, hinv, hmore⟩ := burst_run key steps _ none none hinit hburst
  rw [hlast] at hinv
  obtain ⟨hdone, hcase⟩ := hinv
  cases prev1 with
  | none => exact absurd hcase (by simp)
  | some D =>
    obtain ⟨id, hp⟩ := hcase
    have hcomplete : ∃ more d2, burstOk key (some D) d more = true ∧
        (∀ last, lastCallback last more = last) ∧ d.run more = some d2 ∧
        d2.quiet ∧ d2.invoked = [fn] := by
      rcases hp with ⟨ha, hs, hu, hsel, hi, _⟩ | ⟨_, ha, hs, hu, hsel, hi⟩ |
        ⟨_, ha, hs, hu, hsel, hi⟩ | ⟨_, ha, hs, hu, hsel, hi⟩ | ⟨_, ha, hs, hu, hsel, hi⟩
      · exact complete_from_armed key _ d _ hdone ha hs hu hsel hi
      · exact complete_from_started key _ d _ hdone ha hs hu hsel hi
      · exact complete_from_unlocked key _ d _ hdone ha hs hu hsel hi
      · exact complete_from_selected key _ d _ ha hs hu hsel hi
      · exact ⟨[], d, rfl, fun last => rfl, rfl, ⟨ha, hs, hu, hsel⟩, hi⟩
    refine ⟨d, hrun, ?_, ?_, ?_⟩
    · rcases hp with ⟨_, _, _, _, hi, _⟩ | ⟨_, _, _, _, _, hi⟩ | ⟨_, _, _, _, _, hi⟩ |
        ⟨_, _, _, _, _, hi⟩ | ⟨_, _, _, _, _, hi⟩
      · exact Or.inl hi
      · exact Or.inl hi
      · exact Or.inl hi
      · exact Or.inl hi
      · exact Or.inr hi
    · rintro ⟨qa, qs, qu, qsel⟩
      rcases hp with ⟨ha, _⟩ | ⟨_, _, hs, _⟩ | ⟨_, _, _, hu, _⟩ | ⟨_, _, _, _, hsel, _⟩ |
        ⟨_, _, _, _, _, hi⟩
      · rw [qa] at ha; simp at ha
      · rw [qs] at hs; simp at hs
      · rw [qu] at hu; simp at hu
      · rw [qsel] at hsel; simp at hsel
      · exact hi
    · obtain ⟨more, d2, hok, hl, hrun2, hq, hi2⟩ := hcomplete
      refine ⟨more, d2, hmore more hok, ?_, ?_, hq, hi2⟩
      · rw [lastCallback_append, hlast, hl]
      · rw [run_append, hrun]
        exact hrun2

/-- The run of TestDebouncerSingleFire: ten calls 5 ms apart under a delay of 50 ms call
the tenth callback, once, and no other. -/
theorem burst_on_new_Debouncer_witness :
    (burstOk (bytes "main.go") none (NewDebouncer 50 0) singleFireSteps = true ∧
      lastCallback none singleFireSteps = some 9) ∧
    ((NewDebouncer 50 0).run singleFireSteps).map (fun d => d.invoked) = some [9] ∧
    ∃ d, (NewDebouncer 50 0).run singleFireSteps = some d ∧
      (d.invoked = [] ∨ d.invoked = [9]) ∧ (d.quiet → d.invoked = [9]) ∧
      ∃ more d2, burstOk (bytes "main.go") none (NewDebouncer 50 0) (singleFireSteps ++ more)
          = true ∧
        lastCallback none (singleFireSteps ++ more) = some 9 ∧
        (NewDebouncer 50 0).run (singleFireSteps ++ more) = some d2 ∧
        d2.quiet ∧ d2.invoked = [9] :=
  ⟨by decide, by decide,
   burst_on_new_Debouncer (bytes "main.go") 50 0 singleFireSteps 9
     (by decide) (by decide)⟩

/-- C10, the run in which it fails. A Debouncer under a delay of 50 ms that is not stopped
has had one call on main.go; the timer of that call has expired and its function has not
yet taken the lock. Then comes a burst of two calls on main.go, 10 ms apart, the second
before the delay of the first has elapsed; between them the function of the expired
timer takes the lock and deletes the key, and with it the entry of the first call of the
burst. The second call finds no entry and stops no timer, so the callback of the first
call of the burst is called as well as the callback of the last. -/
theorem burst_after_late_handler :
    ((NewDebouncer 50 0).run expiredFirstSteps).map
        (fun d => (d.done, d.started.map (fun t => t.id),
          burstOk (bytes "main.go") none d lateBurstSteps)) =
      some (false, [0], true) ∧
    triggered lateBurstSteps = [1, 2] ∧
    lastCallback none lateBurstSteps = some 2 ∧
    ((NewDebouncer 50 0).run (expiredFirstSteps ++ lateBurstSteps)).map
        (fun d => (d.invoked, d.pool)) = some ([0, 1, 2], []) := by
  refine ⟨?_, ?_, ?_, ?_⟩ <;> decide
/-! ## Theorems: the watcher and the configuration -/

/-- C17: translate gives no Event exactly when the operations of the notification hold
none of Create, Write, Remove and Rename; otherwise the Event has the name of the
notification as Path and the type Create if Create is set, else Modify if Write is set,
else Delete if Remove is set, else Rename. -/
theorem translate_spec (base dir : GoString → GoString) (ev : fsnotify.Event) :
    (translate base dir ev = none ↔
      fsnotify.Has ev.Op fsnotify.Create = false ∧ fsnotify.Has ev.Op fsnotify.Write = false ∧
      fsnotify.Has ev.Op fsnotify.Remove = false ∧ fsnotify.Has ev.Op fsnotify.Rename = false) ∧
    (∀ event, translate base dir ev = some event →
      event.Path = ev.Name ∧
      event.Type_ =
        if fsnotify.Has ev.Op fsnotify.Create then Create
        else if fsnotify.Has ev.Op fsnotify.Write then Modify
        else if fsnotify.Has ev.Op fsnotify.Remove then Delete
        else Rename) ∧
    (translate id id { Name := bytes "a.txt", Op := fsnotify.Chmod } = none ∧
      (translate id id { Name := bytes "a.txt", Op := 3 }).map (fun e => e.Type_) = some Create ∧
      (translate id id { Name := bytes "a.txt", Op := 12 }).map (fun e => e.Type_) = some Delete) := by
  refine ⟨?_, ?_, by decide⟩
  · unfold translate
    cases fsnotify.Has ev.Op fsnotify.Create <;> cases fsnotify.Has ev.Op fsnotify.Write <;>
      cases fsnotify.Has ev.Op fsnotify.Remove <;> cases fsnotify.Has ev.Op fsnotify.Rename <;>
      simp
  · intro event h
    unfold translate at h
    cases h1 : fsnotify.Has ev.Op fsnotify.Create <;> cases h2 : fsnotify.Has ev.Op fsnotify.Write <;>
      cases h3 : fsnotify.Has ev.Op fsnotify.Remove <;> cases h4 : fsnotify.Has ev.Op fsnotify.Rename <;>
      simp [h1, h2, h3, h4] at h <;> subst h <;> simp

theorem validateAction_none_iff (r : Rule) (hvalid : isValidActionType r.Action.Type_ = true) :
    validateAction r = none ↔
      ((r.Action.Type_ = bytes "command" ∧ r.Action.Command ≠ []) ∨
       (r.Action.Type_ = bytes "webhook" ∧ r.Action.URL ≠ []) ∨
       (r.Action.Type_ = bytes "log" ∧ r.Action.Format ≠ [])) := by
  have hcw : bytes "command" ≠ bytes "webhook" := by decide
  have hcl : bytes "command" ≠ bytes "log" := by decide
  have hwl : bytes "webhook" ≠ bytes "log" := by decide
  unfold isValidActionType at hvalid
  unfold validateAction
  by_cases h1 : r.Action.Type_ = bytes "command"
  · by_cases hc : r.Action.Command = []
    · simp [h1, hc, hcw, hcl]
    · simp [h1, hc, hcw, hcl]
  · by_cases h2 : r.Action.Type_ = bytes "webhook"
    · by_cases hc : r.Action.URL = []
      · simp [h2, hc, hcw.symm, hwl]
      · simp [h2, hc, hcw.symm, hwl]
    · by_cases h3 : r.Action.Type_ = bytes "log"
      · by_cases hc : r.Action.Format = []
        · simp [h3, hc, hcl.symm, hwl.symm]
        · simp [h3, hc, hcl.symm, hwl.symm]
      · simp [h1, h2, h3] at hvalid

theorem validateRules_none_iff (rules : List Rule) :
    ∀ i : Nat, validateRules i rules = none ↔ ∀ r ∈ rules, RuleOk r := by
  induction rules with
  | nil => intro i; simp [validateRules]
  | cons r rest ih =>
    intro i
    unfold validateRules
    simp only [List.mem_cons, forall_eq_or_imp]
    by_cases hn : r.Name = []
    · simp [hn, RuleOk]
    · by_cases hw : r.Watch = []
      · simp [hn, hw, RuleOk]
      · have hwl : ¬ r.Watch.length = 0 := by
          intro h
          exact hw (List.length_eq_zero.mp h)
        by_cases hv : isValidActionType r.Action.Type_ = true
        · have hva := validateAction_none_iff r hv
          simp only [hn, hwl, hv, if_false, Bool.not_true, Bool.false_eq_true]
          cases hact : validateAction r with
          | none =>
            simp only [ih]
            constructor
            · intro h
              exact ⟨⟨hn, hw, hva.mp hact⟩, h⟩
            · intro h
              exact h.2
          | some e =>
            constructor
            · intro h
              exact absurd h (by simp)
            · rintro ⟨hok, _⟩
              have := hva.mpr hok.2.2
              rw [hact] at this
              exact absurd this (by simp)
        · have hno : ¬ ((r.Action.Type_ = bytes "command" ∧ r.Action.Command ≠ []) ∨
              (r.Action.Type_ = bytes "webhook" ∧ r.Action.URL ≠ []) ∨
              (r.Action.Type_ = bytes "log" ∧ r.Action.Format ≠ [])) := by
            intro h
            apply hv
            unfold isValidActionType
            rcases h with h | h | h <;> simp [h.1]
          simp only [Bool.not_eq_true] at hv
          simp only [hn, hwl, hv, if_false, Bool.not_false, if_true]
          constructor
          · intro h
            exact absurd h (by simp)
          · rintro ⟨hok, _⟩
            exact absurd hok.2.2 hno

/-- C18: validate returns no error exactly when the rule list is not empty and every
rule has a name, a watch pattern, an action type among command, webhook and log, and a
value in the field its type requires: command, url or format. -/
theorem validate_spec (cfg : Config) :
    validate cfg = none ↔
      cfg.Rules ≠ [] ∧ ∀ r ∈ cfg.Rules,
        r.Name ≠ [] ∧ r.Watch ≠ [] ∧
          ((r.Action.Type_ = bytes "command" ∧ r.Action.Command ≠ []) ∨
           (r.Action.Type_ = bytes "webhook" ∧ r.Action.URL ≠ []) ∨
           (r.Action.Type_ = bytes "log" ∧ r.Action.Format ≠ [])) := by
  unfold validate
  cases hr : cfg.Rules with
  | nil => simp
  | cons r rest =>
    simp only [List.length_cons, Nat.add_one_ne_zero, if_false, ne_eq, reduceCtorEq,
      not_false_eq_true, true_and]
    exact validateRules_none_iff (r :: rest) 0

theorem Close_of_open (w : Watcher) (fswErr : Option GoString) (h : w.done = false) :
    w.Close fswErr =
      .ok (({ ({ w with done := true } : Watcher) with fswClosed := true } : Watcher).exitLoop,
        fswErr) := by
  simp [Watcher.Close, h]

theorem Close_of_closed (w : Watcher) (fswErr : Option GoString) (h : w.done = true) :
    w.Close fswErr = .error Panic.closeOfClosedChannel := by
  simp [Watcher.Close, h]

/-- C16, on the code: the first Close of a started watcher returns, and a second Close
panics at `close(w.done)`, the channel being closed already. -/
theorem Close_second_call_panics :
    (Watcher.New testFS none (bytes ".")).toOption = some startedWatcher ∧
    (startedWatcher.Close none).toOption = some (closedWatcher, none) ∧
    closedWatcher.Close none = .error Panic.closeOfClosedChannel ∧
    ∀ (w : Watcher) (e1 e2 : Option GoString), w.done = false →
      ∃ w1, w.Close e1 = .ok (w1, e1) ∧ w1.Close e2 = .error Panic.closeOfClosedChannel := by
  refine ⟨by decide, by decide, Close_of_closed _ _ rfl, ?_⟩
  intro w e1 e2 h
  exact ⟨_, Close_of_open w e1 h, Close_of_closed _ e2 rfl⟩

theorem translate_create (base dir : GoString → GoString) (ev : fsnotify.Event)
    (h : fsnotify.Has ev.Op fsnotify.Create = true) :
    translate base dir ev =
      some { Path := ev.Name, Type_ := Create, Name := base ev.Name, Dir := dir ev.Name } := by
  simp [translate, h]

theorem addRecursive_fields (w : Watcher) (fs : FileSystem) (root : GoString) :
    (w.addRecursive fs root).1.Events = w.Events ∧ (w.addRecursive fs root).1.Errors = w.Errors ∧
    (w.addRecursive fs root).1.done = w.done ∧ (w.addRecursive fs root).1.looping = w.looping :=
  ⟨rfl, rfl, rfl, rfl⟩

/-- C15, amended: when the worker of a watcher that is not closed handles a Create
notification for a directory and adding the directory to the watch set fails, the error
is dropped, nothing being sent on Errors; the worker keeps running and the Create event is
published. -/
theorem onEvent_create_add_fails (w : Watcher) (fs : FileSystem) (ev : fsnotify.Event)
    (e : GoString) (doneTaken : Bool)
    (hopen : w.done = false)
    (hcreate : fsnotify.Has ev.Op fsnotify.Create = true)
    (hdir : fs.statIsDir ev.Name = true)
    (_hfail : (w.addRecursive fs ev.Name).2 = some e) :
    (w.onEvent fs ev doneTaken).Errors = w.Errors ∧
    (w.onEvent fs ev doneTaken).Events = w.Events ++
      [{ Path := ev.Name, Type_ := Create, Name := fs.base ev.Name, Dir := fs.dir ev.Name }] ∧
    (w.onEvent fs ev doneTaken).looping = w.looping ∧
    (w.onEvent fs ev doneTaken).done = false := by
  have hf := addRecursive_fields w fs ev.Name
  have hd : (w.addRecursive fs ev.Name).1.done = false := by rw [hf.2.2.1, hopen]
  unfold Watcher.onEvent
  rw [translate_create fs.base fs.dir ev hcreate]
  simp only [if_true, hdir, hd, Bool.false_and, Bool.false_eq_true, if_false]
  exact ⟨hf.2.1, by rw [hf.1], hf.2.2.2, trivial⟩

/-- C15, as stated, fails: the directory `sub` cannot be added to the watch set, and
after the worker has handled its Create notification nothing is on Errors. -/
theorem onEvent_create_add_fails_counterexample :
    startedWatcher.done = false ∧
    fsnotify.Has createSub.Op fsnotify.Create = true ∧
    testFS.statIsDir createSub.Name = true ∧
    (startedWatcher.addRecursive testFS createSub.Name).2 =
      some (bytes "no space left on device") ∧
    (startedWatcher.onEvent testFS createSub false).Errors = [] := by
  decide

/-- The Create notification for `sub` on the started watcher: fsw.Add fails, Errors stays
empty, the worker runs on and the Create event is published. -/
theorem onEvent_create_add_fails_witness :
    (startedWatcher.done = false ∧ fsnotify.Has createSub.Op fsnotify.Create = true ∧
      testFS.statIsDir createSub.Name = true ∧
      (startedWatcher.addRecursive testFS createSub.Name).2 =
        some (bytes "no space left on device")) ∧
    ((startedWatcher.onEvent testFS createSub false).Errors = startedWatcher.Errors ∧
    (startedWatcher.onEvent testFS createSub false).Events = startedWatcher.Events ++
      [{ Path := createSub.Name, Type_ := Create, Name := testFS.base createSub.Name,
         Dir := testFS.dir createSub.Name }] ∧
    (startedWatcher.onEvent testFS createSub false).looping = startedWatcher.looping ∧
    (startedWatcher.onEvent testFS createSub false).done = false) :=
  ⟨by decide,
   onEvent_create_add_fails startedWatcher testFS createSub (bytes "no space left on device")
     false (by decide) (by decide) (by decide) (by decide)⟩

/-! ## Theorems: the actions -/

theorem renderTemplate_ok_iff {T : Type} (eng : TemplateEngine T) (tmpl : GoString)
    (data : TemplateData) (out : GoString) :
    renderTemplate eng tmpl data = .ok out ↔
      ∃ t buf, eng.Parse tmpl = .ok t ∧ eng.Execute t data = (buf, none) ∧ buf = out := by
  unfold renderTemplate
  cases hp : eng.Parse tmpl with
  | error e => simp
  | ok t =>
    rcases he : eng.Execute t data with ⟨buf, err⟩
    cases err with
    | none => simp [he]
    | some e => simp [he]

theorem renderTemplate_error_iff {T : Type} (eng : TemplateEngine T) (tmpl : GoString)
    (data : TemplateData) (e : GoString) :
    renderTemplate eng tmpl data = .error e ↔
      eng.Parse tmpl = .error e ∨
        ∃ t buf, eng.Parse tmpl = .ok t ∧ eng.Execute t data = (buf, some e) := by
  unfold renderTemplate
  cases hp : eng.Parse tmpl with
  | error e1 => simp
  | ok t =>
    rcases he : eng.Execute t data with ⟨buf, err⟩
    cases err with
    | none => simp [he]
    | some e1 => simp [he]

theorem LogAction_Execute_rendered {T : Type} (eng : TemplateEngine T) (l : LogAction)
    (write : GoString → Option GoString) (ev : Event) (now out : GoString)
    (hdry : l.DryRun = false)
    (hok : renderTemplate eng l.Format (NewTemplateData ev now) = .ok out) :
    l.Execute eng write ev now = (write (out ++ bytes "\n"), [out ++ bytes "\n"]) := by
  obtain ⟨t, buf, hp, he, rfl⟩ := (renderTemplate_ok_iff eng _ _ _).mp hok
  simp [LogAction.Execute, hdry, hp, he]

theorem LogAction_Execute_error {T : Type} (eng : TemplateEngine T) (l : LogAction)
    (write : GoString → Option GoString) (ev : Event) (now e : GoString)
    (hdry : l.DryRun = false)
    (herr : renderTemplate eng l.Format (NewTemplateData ev now) = .error e) :
    l.Execute eng write ev now = (some e, []) := by
  rcases (renderTemplate_error_iff eng _ _ _).mp herr with hp | ⟨t, buf, hp, he⟩
  · simp [LogAction.Execute, hdry, hp]
  · simp [LogAction.Execute, hdry, hp, he]

theorem LogAction_Execute_dry {T : Type} (eng : TemplateEngine T) (l : LogAction)
    (write : GoString → Option GoString) (ev : Event) (now : GoString)
    (hdry : l.DryRun = true) : l.Execute eng write ev now = (none, []) := by
  simp [LogAction.Execute, hdry]

/-- C20: outside dry-run mode, when the format renders to a text, Execute of a LogAction
makes exactly one write to the sink, of the text followed by one newline, and returns
the result of that write; in dry-run mode it makes no write and returns success. -/
theorem LogAction_Execute_spec {T : Type} (eng : TemplateEngine T) (l : LogAction)
    (write : GoString → Option GoString) (ev : Event) (now : GoString) :
    (∀ out, l.DryRun = false →
      renderTemplate eng l.Format (NewTemplateData ev now) = .ok out →
      l.Execute eng write ev now = (write (out ++ [10]), [out ++ [10]])) ∧
    (l.DryRun = true → l.Execute eng write ev now = (none, [])) :=
  ⟨fun out hdry hok => LogAction_Execute_rendered eng l write ev now out hdry hok,
   fun hdry => LogAction_Execute_dry eng l write ev now hdry⟩

/-- The run of TestLogActionExecute: the format `{{.Event}} {{.Path}}` on a Modify of
main.go writes the line `modify main.go`; in dry-run mode nothing is written. -/
theorem LogAction_Execute_spec_witness :
    ((NewLogAction (bytes "\x7b\x7b.Event\x7d\x7d \x7b\x7b.Path\x7d\x7d")).DryRun = false ∧
      (renderTemplate fieldTemplates (bytes "\x7b\x7b.Event\x7d\x7d \x7b\x7b.Path\x7d\x7d")
        (NewTemplateData evModifyMainGo [])).toOption = some (bytes "modify main.go")) ∧
    (NewLogAction (bytes "\x7b\x7b.Event\x7d\x7d \x7b\x7b.Path\x7d\x7d")).Execute fieldTemplates
        (fun _ => none) evModifyMainGo [] = (none, [bytes "modify main.go\n"]) ∧
    ({ Format := bytes "\x7b\x7b.Event\x7d\x7d \x7b\x7b.Path\x7d\x7d", DryRun := true } :
        LogAction).Execute fieldTemplates (fun _ => none) evModifyMainGo [] = (none, []) :=
  ⟨by decide,
   (LogAction_Execute_spec fieldTemplates
      (NewLogAction (bytes "\x7b\x7b.Event\x7d\x7d \x7b\x7b.Path\x7d\x7d")) (fun _ => none)
      evModifyMainGo []).1 (bytes "modify main.go") (by decide) (by rfl),
   (LogAction_Execute_spec fieldTemplates
      { Format := bytes "\x7b\x7b.Event\x7d\x7d \x7b\x7b.Path\x7d\x7d", DryRun := true }
      (fun _ => none) evModifyMainGo []).2 (by decide)⟩

theorem CommandAction_Execute_error {T : Type} (eng : TemplateEngine T) (c : CommandAction)
    (ev : Event) (now e : GoString) (startErr : Option GoString)
    (herr : renderTemplate eng c.CmdTemplate (NewTemplateData ev now) = .error e) :
    c.Execute eng ev now startErr = (c, some e) := by
  simp [CommandAction.Execute, herr]

theorem WebhookAction_Execute_dry (w : WebhookAction) (net : Network) (ev : Event)
    (now : GoString) (hdry : w.DryRun = true) : w.Execute net ev now = (none, []) := by
  simp [WebhookAction.Execute, hdry]

/-- C14, amended: a CommandAction in every mode, and a LogAction outside dry-run mode,
render the template before anything else: when the template is malformed Execute returns
the error of the template and has no effect (the instance, its processes and its
cancelled contexts are as before; nothing is written). In dry-run mode a LogAction
returns success without a write, whatever its template, and a WebhookAction, which has no
template, returns success without a request. -/
theorem Execute_malformed_template {T : Type} (eng : TemplateEngine T) :
    (∀ (c : CommandAction) (ev : Event) (now e : GoString) (startErr : Option GoString),
      renderTemplate eng c.CmdTemplate (NewTemplateData ev now) = .error e →
      c.Execute eng ev now startErr = (c, some e)) ∧
    (∀ (l : LogAction) (write : GoString → Option GoString) (ev : Event) (now e : GoString),
      l.DryRun = false →
      renderTemplate eng l.Format (NewTemplateData ev now) = .error e →
      l.Execute eng write ev now = (some e, [])) ∧
    (∀ (l : LogAction) (write : GoString → Option GoString) (ev : Event) (now : GoString),
      l.DryRun = true → l.Execute eng write ev now = (none, [])) ∧
    (∀ (w : WebhookAction) (net : Network) (ev : Event) (now : GoString),
      w.DryRun = true → w.Execute net ev now = (none, [])) :=
  ⟨fun c ev now e startErr herr => CommandAction_Execute_error eng c ev now e startErr herr,
   fun l write ev now e hdry herr => LogAction_Execute_error eng l write ev now e hdry herr,
   fun l write ev now hdry => LogAction_Execute_dry eng l write ev now hdry,
   fun w net ev now hdry => WebhookAction_Execute_dry w net ev now hdry⟩

/-- C14, as stated, fails: the template `{{.Path` is malformed, its action not being
closed, and Execute of a LogAction in dry-run mode returns success on it. -/
theorem Execute_malformed_template_counterexample :
    renderTemplate fieldTemplates (bytes "\x7b\x7b.Path") (NewTemplateData evModifyMainGo []) =
      .error (bytes "template: unclosed action") ∧
    ({ Format := bytes "\x7b\x7b.Path", DryRun := true } : LogAction).Execute fieldTemplates
      (fun _ => none) evModifyMainGo [] = (none, []) :=
  ⟨by rfl, by decide⟩

/-- The malformed template `{{.Path`: a CommandAction that holds a running child returns
the error and is left as it was, in dry-run mode too; a LogAction outside dry-run mode
returns the error and writes nothing. -/
theorem Execute_malformed_template_witness :
    (renderTemplate fieldTemplates (bytes "\x7b\x7b.Path") (NewTemplateData evModifyMainGo []) =
      .error (bytes "template: unclosed action")) ∧
    ({ dryRunAfterStart with CmdTemplate := bytes "\x7b\x7b.Path" } : CommandAction).Execute
        fieldTemplates evModifyMainGo [] none =
      ({ dryRunAfterStart with CmdTemplate := bytes "\x7b\x7b.Path" },
        some (bytes "template: unclosed action")) ∧
    (NewLogAction (bytes "\x7b\x7b.Path")).Execute fieldTemplates (fun _ => none)
        evModifyMainGo [] = (some (bytes "template: unclosed action"), []) :=
  ⟨by rfl,
   (Execute_malformed_template fieldTemplates).1
     { dryRunAfterStart with CmdTemplate := bytes "\x7b\x7b.Path" } evModifyMainGo []
     (bytes "template: unclosed action") none (by rfl),
   (Execute_malformed_template fieldTemplates).2.1 (NewLogAction (bytes "\x7b\x7b.Path"))
     (fun _ => none) evModifyMainGo [] (bytes "template: unclosed action") (by decide) (by rfl)⟩

theorem filter_alive_reap (procs : List Proc) (pid : Nat) :
    (reap procs pid).filter (fun p => p.alive) =
      (procs.filter (fun p => p.alive)).filter (fun p => p.pid != pid) := by
  induction procs with
  | nil => rfl
  | cons p procs ih =>
    simp only [reap, List.map_cons] at ih ⊢
    by_cases hp : p.pid = pid
    · cases ha : p.alive
      · simp [hp, ha, ih]
      · simp [hp, ha, ih]
    · cases ha : p.alive
      · simp [hp, ha, ih]
      · simp [hp, ha, ih]

theorem CmdInv_new (tmpl dir : GoString) : CmdInv (NewCommandAction tmpl dir) :=
  ⟨Or.inl rfl, fun cmd pid h _ => by simp [NewCommandAction] at h⟩

theorem killPrevious_running_none (c : CommandAction) (h : c.running = none) :
    c.killPrevious.procs = c.procs ∧ c.killPrevious.running = none := by
  unfold CommandAction.killPrevious
  cases c.cancel <;> simp [h]

theorem killPrevious_no_process (c : CommandAction) (cmd : Cmd) (h : c.running = some cmd)
    (hp : cmd.Process = none) :
    c.killPrevious.procs = c.procs ∧ c.killPrevious.running = some cmd := by
  unfold CommandAction.killPrevious
  cases c.cancel <;> simp [h, hp]

theorem killPrevious_process (c : CommandAction) (cmd : Cmd) (pid : Nat)
    (h : c.running = some cmd) (hp : cmd.Process = some pid) :
    c.killPrevious.procs = reap c.procs pid ∧ c.killPrevious.running = none := by
  unfold CommandAction.killPrevious
  cases c.cancel <;> simp [h, hp]

theorem killPrevious_cancel (c : CommandAction) :
    c.killPrevious.cancel = none ∧ c.killPrevious.output = c.output ∧
    c.killPrevious.DryRun = c.DryRun ∧ c.killPrevious.Dir = c.Dir ∧
    c.killPrevious.CmdTemplate = c.CmdTemplate ∧
    (∀ ctx, c.cancel = some ctx → ctx ∈ c.killPrevious.cancelled) := by
  unfold CommandAction.killPrevious
  cases hc : c.cancel <;> cases hr : c.running with
  | none => simp [hc, hr]
  | some cmd => cases hproc : cmd.Process <;> simp [hc, hr, hproc]

theorem reap_pids (procs : List Proc) (pid : Nat) :
    (reap procs pid).map (fun p => p.pid) = procs.map (fun p => p.pid) := by
  induction procs with
  | nil => rfl
  | cons p procs ih =>
    simp only [reap, List.map_cons, List.cons.injEq] at ih ⊢
    exact ⟨by split <;> rfl, ih⟩

theorem killPrevious_alive (c : CommandAction) (h : CmdInv c) :
    c.killPrevious.procs.filter (fun p => p.alive) = [] := by
  obtain ⟨h1, _⟩ := h
  cases hr : c.running with
  | none =>
    rw [(killPrevious_running_none c hr).1]
    rcases h1 with h1 | ⟨p, cmd, _, hr2, _⟩
    · exact h1
    · rw [hr] at hr2
      exact absurd hr2 (by simp)
  | some cmd =>
    cases hproc : cmd.Process with
    | none =>
      rw [(killPrevious_no_process c cmd hr hproc).1]
      rcases h1 with h1 | ⟨p, cmd2, _, hr2, hp2⟩
      · exact h1
      · rw [hr] at hr2
        simp only [Option.some.injEq] at hr2
        subst hr2
        rw [hproc] at hp2
        exact absurd hp2 (by simp)
    | some pid =>
      rw [(killPrevious_process c cmd pid hr hproc).1, filter_alive_reap]
      rcases h1 with h1 | ⟨p, cmd2, hp, hr2, hp2⟩
      · rw [h1]; rfl
      · rw [hr] at hr2
        simp only [Option.some.injEq] at hr2
        subst hr2
        rw [hproc] at hp2
        simp only [Option.some.injEq] at hp2
        subst hp2
        rw [hp]
        simp

theorem killPrevious_running (c : CommandAction) :
    (∀ cmd, c.killPrevious.running = some cmd → cmd.Process = none) ∧
    (∀ cmd pid, c.running = some cmd → cmd.Process = some pid →
      c.killPrevious.running = none) ∧
    c.killPrevious.procs.map (fun p => p.pid) = c.procs.map (fun p => p.pid) := by
  cases hr : c.running with
  | none =>
    obtain ⟨h1, h2⟩ := killPrevious_running_none c hr
    refine ⟨?_, ?_, by rw [h1]⟩
    · intro cmd h
      rw [h2] at h
      exact absurd h (by simp)
    · intro cmd pid h
      exact absurd h (by simp)
  | some cmd =>
    cases hproc : cmd.Process with
    | none =>
      obtain ⟨h1, h2⟩ := killPrevious_no_process c cmd hr hproc
      refine ⟨?_, ?_, by rw [h1]⟩
      · intro cmd2 h
        rw [h2] at h
        simp only [Option.some.injEq] at h
        subst h
        exact hproc
      · intro cmd2 pid h hp
        simp only [Option.some.injEq] at h
        subst h
        rw [hproc] at hp
        exact absurd hp (by simp)
    | some pid =>
      obtain ⟨h1, h2⟩ := killPrevious_process c cmd pid hr hproc
      refine ⟨?_, ?_, by rw [h1, reap_pids]⟩
      · intro cmd2 h
        rw [h2] at h
        exact absurd h (by simp)
      · intro cmd2 pid2 _ _
        exact h2

theorem CmdInv_killPrevious (c : CommandAction) (h : CmdInv c) : CmdInv c.killPrevious := by
  refine ⟨Or.inl (killPrevious_alive c h), ?_⟩
  intro cmd pid hr hp
  rw [(killPrevious_running c).1 cmd hr] at hp
  exact absurd hp (by simp)

theorem CmdInv_Execute {T : Type} (eng : TemplateEngine T) (c : CommandAction) (ev : Event)
    (now : GoString) (startErr : Option GoString) (h : CmdInv c) :
    CmdInv (c.Execute eng ev now startErr).1 := by
  have hk := CmdInv_killPrevious c h
  have ha := killPrevious_alive c h
  cases hrender : renderTemplate eng c.CmdTemplate (NewTemplateData ev now) with
  | error e =>
    simp only [CommandAction.Execute, hrender]
    exact h
  | ok rendered =>
    cases hd : c.killPrevious.DryRun with
    | true =>
      simp only [CommandAction.Execute, hrender, hd, if_true]
      exact hk
    | false =>
      cases startErr with
      | some e =>
        simp only [CommandAction.Execute, hrender, hd, Bool.false_eq_true, if_false]
        refine ⟨Or.inl ha, ?_⟩
        intro cmd pid hr hp
        simp only [Option.some.injEq] at hr
        subst hr
        simp at hp
      | none =>
        simp only [CommandAction.Execute, hrender, hd, Bool.false_eq_true, if_false]
        refine ⟨Or.inr ⟨⟨c.killPrevious.nextPid, c.killPrevious.nextCtx, true⟩, _, ?_, rfl, rfl⟩, ?_⟩
        · simp only [List.filter_append, ha, List.nil_append]
          rfl
        · intro cmd pid hr _
          simp only [Option.some.injEq] at hr
          subst hr
          rfl

theorem CmdInv_exit (c : CommandAction) (pid : Nat) (h : CmdInv c) : CmdInv (c.exit pid) := by
  obtain ⟨h1, h2⟩ := h
  refine ⟨?_, h2⟩
  simp only [CommandAction.exit, filter_alive_reap]
  rcases h1 with h1 | ⟨p, cmd, hp, hr, hproc⟩
  · left
    rw [h1]
    rfl
  · rw [hp]
    by_cases hpid : p.pid = pid
    · left
      simp [hpid]
    · right
      exact ⟨p, cmd, by simp [hpid], hr, hproc⟩

theorem CmdInv_step {T : Type} (eng : TemplateEngine T) (c c1 : CommandAction) (s : CmdStep)
    (h : CmdInv c) (hs : c.step eng s = some c1) : CmdInv c1 := by
  cases s with
  | Execute ev now startErr =>
    simp only [CommandAction.step, Option.some.injEq] at hs
    subst hs
    exact CmdInv_Execute eng c ev now startErr h
  | Stop =>
    simp only [CommandAction.step, Option.some.injEq] at hs
    subst hs
    exact CmdInv_killPrevious c h
  | setDryRun b =>
    simp only [CommandAction.step, Option.some.injEq] at hs
    subst hs
    exact h
  | exit pid =>
    simp only [CommandAction.step, Option.some.injEq] at hs
    subst hs
    exact CmdInv_exit c pid h
  | write pid text =>
    simp only [CommandAction.step, CommandAction.write] at hs
    split at hs
    · simp only [Option.some.injEq] at hs
      subst hs
      exact h
    · exact absurd hs (by simp)

theorem CmdInv_run {T : Type} (eng : TemplateEngine T) (steps : List CmdStep) :
    ∀ c c1 : CommandAction, CmdInv c → c.run eng steps = some c1 → CmdInv c1 := by
  induction steps with
  | nil =>
    intro c c1 h hr
    simp only [CommandAction.run, Option.some.injEq] at hr
    subst hr
    exact h
  | cons s steps ih =>
    intro c c1 h hr
    simp only [CommandAction.run] at hr
    cases hs : c.step eng s with
    | none => simp [hs] at hr
    | some c0 =>
      simp only [hs] at hr
      exact ih c0 c1 (CmdInv_step eng c c0 s h hs) hr

theorem CmdInv_alive_le_one (c : CommandAction) (h : CmdInv c) :
    (c.procs.filter (fun p => p.alive)).length ≤ 1 := by
  rcases h.1 with h1 | ⟨p, cmd, hp, _, _⟩
  · simp [h1]
  · simp [hp]

theorem Execute_procs {T : Type} (eng : TemplateEngine T) (c : CommandAction) (ev : Event)
    (now : GoString) (startErr : Option GoString) :
    (c.Execute eng ev now startErr).1 = c ∨
    ∃ started : List Proc, started.length ≤ 1 ∧
      (c.Execute eng ev now startErr).1.procs = c.killPrevious.procs ++ started := by
  cases hrender : renderTemplate eng c.CmdTemplate (NewTemplateData ev now) with
  | error e =>
    left
    simp only [CommandAction.Execute, hrender]
  | ok rendered =>
    right
    cases hd : c.killPrevious.DryRun with
    | true =>
      exact ⟨[], by simp, by simp [CommandAction.Execute, hrender, hd]⟩
    | false =>
      cases startErr with
      | some e => exact ⟨[], by simp, by simp [CommandAction.Execute, hrender, hd]⟩
      | none =>
        exact ⟨[⟨c.killPrevious.nextPid, c.killPrevious.nextCtx, true⟩], by simp,
          by simp [CommandAction.Execute, hrender, hd]⟩

/-- C13: in every state that a CommandAction reaches by calls of Execute and Stop (and
assignments to DryRun), with its children running, writing and terminating as they do,
at most one child process started by the instance is alive. Execute starts a process
only in the state that killPrevious leaves, in which no child is alive and the context of
the command that had a process is cancelled, and it starts at most one. -/
theorem at_most_one_child {T : Type} (eng : TemplateEngine T) (tmpl dir : GoString)
    (steps : List CmdStep) (c : CommandAction)
    (hrun : (NewCommandAction tmpl dir).run eng steps = some c) :
    (c.procs.filter (fun p => p.alive)).length ≤ 1 ∧
    c.killPrevious.procs.filter (fun p => p.alive) = [] ∧
    (∀ cmd pid, c.running = some cmd → cmd.Process = some pid →
      cmd.ctx ∈ c.killPrevious.cancelled) ∧
    (∀ (ev : Event) (now : GoString) (startErr : Option GoString),
      (c.Execute eng ev now startErr).1 = c ∨
      ∃ started : List Proc, started.length ≤ 1 ∧
        (c.Execute eng ev now startErr).1.procs = c.killPrevious.procs ++ started) := by
  have hinv := CmdInv_run eng steps _ c (CmdInv_new tmpl dir) hrun
  refine ⟨CmdInv_alive_le_one c hinv, killPrevious_alive c hinv, ?_,
    fun ev now startErr => Execute_procs eng c ev now startErr⟩
  intro cmd pid hr hp
  exact (killPrevious_cancel c).2.2.2.2.2 cmd.ctx (hinv.2 cmd pid hr hp)

/-- The run of TestCommandActionKillsPrevious: after the first Execute one child is
alive; the second Execute reaps it before it starts the second child; Stop reaps that. -/
theorem at_most_one_child_witness :
    (NewCommandAction (bytes "sleep 10") (bytes ".")).run fieldTemplates
        [CmdStep.Execute evModifyMainGo [] none] = some sleepingChild ∧
    ((NewCommandAction (bytes "sleep 10") (bytes ".")).run fieldTemplates
        killsPreviousSteps).map (fun c => c.procs) =
      some [{ pid := 0, ctx := 0, alive := false }, { pid := 1, ctx := 1, alive := false }] ∧
    (sleepingChild.procs.filter (fun p => p.alive)).length ≤ 1 ∧
    sleepingChild.killPrevious.procs.filter (fun p => p.alive) = [] ∧
    (∀ cmd pid, sleepingChild.running = some cmd → cmd.Process = some pid →
      cmd.ctx ∈ sleepingChild.killPrevious.cancelled) ∧
    (∀ (ev : Event) (now : GoString) (startErr : Option GoString),
      (sleepingChild.Execute fieldTemplates ev now startErr).1 = sleepingChild ∨
      ∃ started : List Proc, started.length ≤ 1 ∧
        (sleepingChild.Execute fieldTemplates ev now startErr).1.procs =
          sleepingChild.killPrevious.procs ++ started) :=
  ⟨by decide, by decide,
   at_most_one_child fieldTemplates (bytes "sleep 10") (bytes ".")
     [CmdStep.Execute evModifyMainGo [] none] sleepingChild (by decide)⟩

/-- C19: for a CommandAction in dry-run mode whose template renders, in any state it can
reach, Execute is killPrevious and nothing else, and returns success: the context held
in cancel is cancelled and cancel is cleared; a command in running that had a process is
waited for and running is cleared, so that running holds no process afterwards; no child
process is alive; no process is started; nothing is written to the sink. -/
theorem Execute_dry_run {T : Type} (eng : TemplateEngine T) (tmpl dir : GoString)
    (steps : List CmdStep) (c : CommandAction) (ev : Event) (now rendered : GoString)
    (startErr : Option GoString)
    (hreach : (NewCommandAction tmpl dir).run eng steps = some c)
    (hdry : c.DryRun = true)
    (hok : renderTemplate eng c.CmdTemplate (NewTemplateData ev now) = .ok rendered) :
    c.Execute eng ev now startErr = (c.killPrevious, none) ∧
    c.killPrevious.cancel = none ∧
    (∀ ctx, c.cancel = some ctx → ctx ∈ c.killPrevious.cancelled) ∧
    (∀ cmd pid, c.running = some cmd → cmd.Process = some pid →
      c.killPrevious.running = none ∧ cmd.ctx ∈ c.killPrevious.cancelled) ∧
    (∀ cmd, c.killPrevious.running = some cmd → cmd.Process = none) ∧
    c.killPrevious.procs.filter (fun p => p.alive) = [] ∧
    c.killPrevious.procs.map (fun p => p.pid) = c.procs.map (fun p => p.pid) ∧
    c.killPrevious.output = c.output := by
  have hinv := CmdInv_run eng steps _ c (CmdInv_new tmpl dir) hreach
  have hc := killPrevious_cancel c
  have hr := killPrevious_running c
  refine ⟨?_, hc.1, hc.2.2.2.2.2, ?_, hr.1, killPrevious_alive c hinv, hr.2.2, hc.2.1⟩
  · have hd : c.killPrevious.DryRun = true := by rw [hc.2.2.1, hdry]
    simp [CommandAction.Execute, hok, hd]
  · intro cmd pid hrun hp
    exact ⟨hr.2.1 cmd pid hrun hp, hc.2.2.2.2.2 cmd.ctx (hinv.2 cmd pid hrun hp)⟩

/-- A CommandAction that holds a running child and is then put in dry-run mode: Execute
cancels and reaps the child, starts nothing and returns success. -/
theorem Execute_dry_run_witness :
    ((NewCommandAction (bytes "echo should-not-run") (bytes ".")).run fieldTemplates
        dryRunAfterStartSteps = some dryRunAfterStart ∧
      dryRunAfterStart.DryRun = true ∧
      renderTemplate fieldTemplates dryRunAfterStart.CmdTemplate
        (NewTemplateData evModifyMainGo []) = .ok (bytes "echo should-not-run")) ∧
    dryRunAfterStart.killPrevious.procs = [{ pid := 0, ctx := 0, alive := false }] ∧
    dryRunAfterStart.killPrevious.cancelled = [0] ∧
    dryRunAfterStart.Execute fieldTemplates evModifyMainGo [] none =
      (dryRunAfterStart.killPrevious, none) :=
  ⟨⟨by decide, by decide, by rfl⟩, by decide, by decide,
   (Execute_dry_run fieldTemplates (bytes "echo should-not-run") (bytes ".")
     dryRunAfterStartSteps dryRunAfterStart evModifyMainGo [] (bytes "echo should-not-run") none
     (by decide) (by decide) (by rfl)).1⟩

/-! ## Theorems: Stop of the debouncer -/

theorem sweep_foldl (l : List (GoString × Nat)) :
    ∀ acc : Debouncer,
      let r := l.foldl
        (fun acc e =>
          { acc with armed := timerStop acc.armed e.2, timers := mapDelete acc.timers e.1 }) acc
      (∀ e ∈ r.timers, e ∈ acc.timers ∧ ∀ x ∈ l, e.1 ≠ x.1) ∧
      (∀ t ∈ r.armed, t ∈ acc.armed ∧ ∀ x ∈ l, t.id ≠ x.2) ∧
      r.done = acc.done ∧ r.invoked = acc.invoked ∧ r.started = acc.started ∧
      r.unlocked = acc.unlocked ∧ r.nextId = acc.nextId ∧ r.now = acc.now ∧
      r.delay = acc.delay ∧ r.selected = acc.selected := by
  induction l with
  | nil =>
    intro acc
    simp
  | cons x l ih =>
    intro acc
    simp only [List.foldl_cons]
    have h := ih { acc with armed := timerStop acc.armed x.2, timers := mapDelete acc.timers x.1 }
    simp only at h
    obtain ⟨h1, h2, h3, h4, h5, h6, h7, h8, h9, h10⟩ := h
    refine ⟨?_, ?_, h3, h4, h5, h6, h7, h8, h9, h10⟩
    · intro e he
      obtain ⟨hm, hl⟩ := h1 e he
      simp only [mapDelete, List.mem_filter, bne_iff_ne, ne_eq] at hm
      refine ⟨hm.1, ?_⟩
      intro y hy
      simp only [List.mem_cons] at hy
      rcases hy with rfl | hy
      · exact hm.2
      · exact hl y hy
    · intro t ht
      obtain ⟨hm, hl⟩ := h2 t ht
      simp only [timerStop, List.mem_filter, bne_iff_ne, ne_eq] at hm
      refine ⟨hm.1, ?_⟩
      intro y hy
      simp only [List.mem_cons] at hy
      rcases hy with rfl | hy
      · exact hm.2
      · exact hl y hy

theorem stopSweep_spec (d : Debouncer) :
    d.stopSweep.timers = [] ∧
    (∀ t ∈ d.stopSweep.armed, t ∈ d.armed ∧ ∀ e ∈ d.timers, t.id ≠ e.2) ∧
    d.stopSweep.done = d.done ∧ d.stopSweep.invoked = d.invoked ∧
    d.stopSweep.started = d.started ∧ d.stopSweep.unlocked = d.unlocked ∧
    d.stopSweep.nextId = d.nextId ∧ d.stopSweep.selected = d.selected := by
  have h := sweep_foldl d.timers d
  simp only at h
  obtain ⟨h1, h2, h3, h4, h5, h6, h7, _, _, h10⟩ := h
  refine ⟨?_, h2, h3, h4, h5, h6, h7, h10⟩
  apply List.eq_nil_iff_forall_not_mem.mpr
  intro e he
  obtain ⟨hm, hl⟩ := h1 e he
  exact hl e hm rfl

theorem Trigger_done (d : Debouncer) (h : d.done = true) (key : GoString) (delay : Duration)
    (fn : Callback) : d.TriggerWithDelay key delay fn = d ∧ d.Trigger key fn = d := by
  simp [Debouncer.Trigger, Debouncer.TriggerWithDelay, h]

theorem count_filter_call (l : List Timer) (i : Nat) (t : Timer) (a : Callback)
    (hf : l.find? (fun t => t.id == i) = some t) :
    ((l.filter (fun u => u.id != i)).map (fun t => t.fn)).count a + [t.fn].count a ≤
      (l.map (fun t => t.fn)).count a := by
  induction l with
  | nil => simp at hf
  | cons x l ih =>
    by_cases hx : x.id = i
    · have hb : (x.id == i) = true := by simp [hx]
      have hbn : (x.id != i) = false := by simp [hx]
      simp only [List.find?_cons, hb, Option.some.injEq] at hf
      subst hf
      have hsub : ((l.filter (fun u => u.id != i)).map (fun t => t.fn)).count a ≤
          (l.map (fun t => t.fn)).count a :=
        List.Sublist.count_le ((List.filter_sublist l).map (fun t => t.fn)) a
      simp only [List.filter_cons, hbn, Bool.false_eq_true, if_false, List.map_cons,
        List.count_cons, List.count_nil]
      omega
    · have hb : (x.id == i) = false := by simp [hx]
      have hbn : (x.id != i) = true := by simp [hx]
      simp only [List.find?_cons, hb] at hf
      have h := ih hf
      simp only [List.filter_cons, hbn, if_true, List.map_cons, List.count_cons,
        List.count_nil] at h ⊢
      omega

theorem called_none (d d1 : Debouncer) (hi : d1.invoked = d.invoked)
    (hsel : d1.selected = d.selected) :
    ∃ called, d1.invoked = d.invoked ++ called ∧
      ∀ a, called.count a + (d1.selected.map (fun t => t.fn)).count a ≤
        (d.selected.map (fun t => t.fn)).count a :=
  ⟨[], by simp [hi], fun a => by simp [hsel]⟩

theorem done_step (d d1 : Debouncer) (s : Step) (h : d.done = true)
    (hs : d.step s = some d1) :
    d1.done = true ∧
    (∃ called, d1.invoked = d.invoked ++ called ∧
      ∀ a, called.count a + (d1.selected.map (fun t => t.fn)).count a ≤
        (d.selected.map (fun t => t.fn)).count a) ∧
    (∀ t ∈ d1.armed, t ∈ d.armed) ∧
    (d.timers = [] → d1.timers = []) := by
  cases s with
  | Trigger key fn =>
    simp only [Debouncer.step, (Trigger_done d h key 0 fn).2, Option.some.injEq] at hs
    subst hs
    exact ⟨h, called_none d d rfl rfl, fun t ht => ht, fun ht => ht⟩
  | TriggerWithDelay key delay fn =>
    simp only [Debouncer.step, (Trigger_done d h key delay fn).1, Option.some.injEq] at hs
    subst hs
    exact ⟨h, called_none d d rfl rfl, fun t ht => ht, fun ht => ht⟩
  | stopClose =>
    simp only [Debouncer.step, Option.some.injEq] at hs
    subst hs
    exact ⟨rfl, called_none d _ rfl rfl, fun t ht => ht, fun ht => ht⟩
  | stopSweep =>
    simp only [Debouncer.step, Option.some.injEq] at hs
    subst hs
    obtain ⟨h1, h2, h3, h4, _, _, _, h8⟩ := stopSweep_spec d
    exact ⟨by rw [h3, h], called_none d _ h4 h8, fun t ht => (h2 t ht).1, fun _ => h1⟩
  | advance dt =>
    simp only [Debouncer.step, Option.some.injEq] at hs
    subst hs
    exact ⟨h, called_none d _ rfl rfl, fun t ht => ht, fun ht => ht⟩
  | expire id =>
    simp only [Debouncer.step, Debouncer.expire] at hs
    split at hs
    · exact absurd hs (by simp)
    · split at hs
      · simp only [Option.some.injEq] at hs
        subst hs
        refine ⟨h, called_none d _ rfl rfl, ?_, fun ht => ht⟩
        intro t ht
        simp only [timerStop, List.mem_filter] at ht
        exact ht.1
      · exact absurd hs (by simp)
  | timerLocked id =>
    simp only [Debouncer.step, Debouncer.timerLocked] at hs
    split at hs
    · exact absurd hs (by simp)
    · simp only [Option.some.injEq] at hs
      subst hs
      refine ⟨h, called_none d _ rfl rfl, fun t ht => ht, ?_⟩
      intro ht
      simp [ht, mapDelete]
  | timerSelect id =>
    simp only [Debouncer.step, Debouncer.timerSelect] at hs
    split at hs
    · exact absurd hs (by simp)
    · simp only [Option.some.injEq] at hs
      subst hs
      exact ⟨h, called_none d _ rfl (by simp [h]), fun t ht => ht, fun ht => ht⟩
  | timerCall id =>
    simp only [Debouncer.step, Debouncer.timerCall] at hs
    cases hf : d.selected.find? (fun t => t.id == id) with
    | none => simp [hf] at hs
    | some t =>
      simp only [hf, Option.some.injEq] at hs
      subst hs
      refine ⟨h, ⟨[t.fn], rfl, fun a => ?_⟩, fun u hu => hu, fun ht => ht⟩
      have := count_filter_call d.selected id t a hf
      simp only at this ⊢
      omega

theorem done_run (steps : List Step) :
    ∀ d d1 : Debouncer, d.done = true → d.run steps = some d1 →
      d1.done = true ∧
      (∃ called, d1.invoked = d.invoked ++ called ∧
        ∀ a, called.count a + (d1.selected.map (fun t => t.fn)).count a ≤
          (d.selected.map (fun t => t.fn)).count a) ∧
      (∀ t ∈ d1.armed, t ∈ d.armed) ∧
      (d.timers = [] → d1.timers = []) := by
  induction steps with
  | nil =>
    intro d d1 h hr
    simp only [Debouncer.run, Option.some.injEq] at hr
    subst hr
    exact ⟨h, called_none d d rfl rfl, fun t ht => ht, fun ht => ht⟩
  | cons s steps ih =>
    intro d d1 h hr
    simp only [Debouncer.run] at hr
    cases hs : d.step s with
    | none => simp [hs] at hr
    | some d0 =>
      simp only [hs] at hr
      obtain ⟨a1, ⟨c1, a2, a2c⟩, a3, a4⟩ := done_step d d0 s h hs
      obtain ⟨b1, ⟨c2, b2, b2c⟩, b3, b4⟩ := ih d0 d1 a1 hr
      refine ⟨b1, ⟨c1 ++ c2, by rw [b2, a2, List.append_assoc], fun a => ?_⟩,
        fun t ht => a3 t (b3 t ht), fun ht => b4 (a4 ht)⟩
      have h1 := a2c a
      have h2 := b2c a
      simp only [List.count_append]
      omega

/-- What Stop achieves on every Debouncer. Let done be closed, whatever steps follow, then
the timers of the map be swept under the lock, and whatever steps follow after that.
From the closing of done on the only callbacks called are those of timer functions that
had taken the default case of their select before the closing, each at most once for
each such function, so none where there is no such function; after the sweep every timer
that the map held is disarmed and stays so, the map is empty and stays empty, and every
Trigger or TriggerWithDelay leaves the Debouncer as it is. -/
theorem after_Stop (d d1 d3 : Debouncer) (mid later : List Step)
    (hclose : d.stopClose.run mid = some d1)
    (hsweep : d1.stopSweep.run later = some d3) :
    (∃ called, d3.invoked = d.invoked ++ called ∧
      ∀ a, called.count a ≤ (d.selected.map (fun t => t.fn)).count a) ∧
    (d.selected = [] → d3.invoked = d.invoked) ∧
    d3.done = true ∧ d3.timers = [] ∧
    (∀ e ∈ d1.timers, ∀ t ∈ d3.armed, t.id ≠ e.2) ∧
    (∀ (key : GoString) (delay : Duration) (fn : Callback),
      d3.TriggerWithDelay key delay fn = d3 ∧ d3.Trigger key fn = d3) := by
  obtain ⟨a1, ⟨c1, a2, a2c⟩, _, _⟩ := done_run mid d.stopClose d1 rfl hclose
  obtain ⟨s1, s2, s3, s4, _, _, _, s8⟩ := stopSweep_spec d1
  have hd : d1.stopSweep.done = true := by rw [s3, a1]
  obtain ⟨b1, ⟨c2, b2, b2c⟩, b3, b4⟩ := done_run later d1.stopSweep d3 hd hsweep
  have hinv : d3.invoked = d.invoked ++ (c1 ++ c2) := by
    rw [b2, s4, a2, List.append_assoc]
    rfl
  have hcount : ∀ a, (c1 ++ c2).count a ≤ (d.selected.map (fun t => t.fn)).count a := by
    intro a
    have h1 := a2c a
    have h2 := b2c a
    rw [s8] at h2
    have h3 : d.stopClose.selected = d.selected := rfl
    rw [h3] at h1
    simp only [List.count_append]
    omega
  refine ⟨⟨c1 ++ c2, hinv, hcount⟩, ?_, b1, b4 s1, ?_,
    fun key delay fn => Trigger_done d3 b1 key delay fn⟩
  · intro hsel
    have hnil : c1 ++ c2 = [] := by
      apply List.eq_nil_iff_forall_not_mem.mpr
      intro a ha
      have h1 := hcount a
      rw [hsel] at h1
      have h2 : 0 < (c1 ++ c2).count a := List.count_pos_iff.mpr ha
      simp only [List.map_nil, List.count_nil] at h1
      omega
    rw [hinv, hnil, List.append_nil]
  · intro e he t ht
    exact (s2 t (b3 t ht)).2 e he

/-- The run of TestDebouncerStop: after Trigger on test.go and Stop, the timer is disarmed
and cannot expire, and the sleep of 100 ms brings no call of the callback. -/
theorem after_Stop_witness :
    (triggeredOnce.stopClose.run [] = some triggeredOnce.stopClose ∧
      triggeredOnce.stopClose.stopSweep.run afterStopSteps =
        some (triggeredOnce.stopClose.stopSweep.advance 100)) ∧
    triggeredOnce.armed = [{ id := 0, key := bytes "test.go", deadline := 50, fn := 0 }] ∧
    (triggeredOnce.stopClose.stopSweep.advance 100).armed = [] ∧
    (triggeredOnce.stopClose.stopSweep.advance 100).expire 0 = none ∧
    (triggeredOnce.stopClose.stopSweep.advance 100).invoked = triggeredOnce.invoked ∧
    (triggeredOnce.stopClose.stopSweep.advance 100).done = true ∧
    (triggeredOnce.stopClose.stopSweep.advance 100).timers = [] :=
  ⟨⟨by decide, by decide⟩, by decide, by decide, by decide,
   (after_Stop triggeredOnce triggeredOnce.stopClose
     (triggeredOnce.stopClose.stopSweep.advance 100) [] afterStopSteps
     (by decide) (by decide)).2.1 (by decide),
   (after_Stop triggeredOnce triggeredOnce.stopClose
     (triggeredOnce.stopClose.stopSweep.advance 100) [] afterStopSteps
     (by decide) (by decide)).2.2.1,
   (after_Stop triggeredOnce triggeredOnce.stopClose
     (triggeredOnce.stopClose.stopSweep.advance 100) [] afterStopSteps
     (by decide) (by decide)).2.2.2.1⟩

/-- C11, the runs in which it fails. In the first, Stop is called while the timer of a
second call on main.go is armed and no longer in the map, the function of the expired
timer of the first call having deleted the key: Stop sweeps the map only, so after Stop
has returned the timer is still armed, it expires 50 ms later and its function is
started and runs up to its select, where it returns without calling fn. In the second,
Stop is called, from its first statement to its return, after a timer function has taken
the default case of its select and before it has called fn: the callback is called after
Stop has returned. -/
theorem Stop_leaves_timer_armed :
    ((NewDebouncer 50 0).run stopWithOrphanSteps).map
        (fun d => (d.done, d.timers.length, d.armed, d.invoked)) =
      some (true, 0, [{ id := 1, key := bytes "main.go", deadline := 100, fn := 1 }], []) ∧
    ((NewDebouncer 50 0).run (stopWithOrphanSteps ++ orphanExpirySteps.take 2)).map
        (fun d => (d.armed, d.started)) =
      some ([], [{ id := 1, key := bytes "main.go", deadline := 100, fn := 1 }]) ∧
    ((NewDebouncer 50 0).run (stopWithOrphanSteps ++ orphanExpirySteps)).map
        (fun d => (d.started, d.selected, d.invoked)) = some ([], [], []) ∧
    ((NewDebouncer 50 0).run stopAfterSelectSteps).map
        (fun d => (d.done, d.timers.length, d.armed, d.selected.map (fun t => t.fn),
          d.invoked)) =
      some (true, 0, [], [0], []) ∧
    ((NewDebouncer 50 0).run (stopAfterSelectSteps ++ [Step.timerCall 0])).map
        (fun d => d.invoked) = some [0] := by
  refine ⟨?_, ?_, ?_, ?_, ?_⟩ <;> decide
/-! ## Theorems: calls on distinct keys -/

theorem mapGet_mapDelete_ne (m : List (GoString × Nat)) (key k : GoString) (h : k ≠ key) :
    mapGet (mapDelete m key) k = mapGet m k := by
  induction m with
  | nil => rfl
  | cons e m ih =>
    obtain ⟨k0, v⟩ := e
    simp only [mapDelete] at ih ⊢
    by_cases h0 : k0 = key
    · subst h0
      simp only [List.filter_cons, bne_self_eq_false, Bool.false_eq_true, if_false, mapGet]
      rw [ih]
      simp [Ne.symm h]
    · have hb : (k0 != key) = true := by simp [h0]
      simp only [List.filter_cons, hb, if_true, mapGet, ih]

theorem mapGet_mapDelete_some (m : List (GoString × Nat)) (key k : GoString) (id : Nat)
    (h : mapGet (mapDelete m key) k = some id) : mapGet m k = some id ∧ k ≠ key := by
  induction m with
  | nil => simp [mapDelete, mapGet] at h
  | cons e m ih =>
    obtain ⟨k0, v⟩ := e
    simp only [mapDelete] at ih h
    by_cases h0 : k0 = key
    · subst h0
      simp only [List.filter_cons, bne_self_eq_false, Bool.false_eq_true, if_false] at h
      obtain ⟨h1, h2⟩ := ih h
      refine ⟨?_, h2⟩
      simp only [mapGet, Ne.symm h2, if_false]
      exact h1
    · have hb : (k0 != key) = true := by simp [h0]
      simp only [List.filter_cons, hb, if_true, mapGet] at h
      by_cases h1 : k0 = k
      · subst h1
        simp only [if_true] at h
        exact ⟨by simp [mapGet, h], h0⟩
      · simp only [h1, if_false] at h
        obtain ⟨h2, h3⟩ := ih h
        exact ⟨by simp [mapGet, h1, h2], h3⟩

theorem mapGet_mapSet_ne (m : List (GoString × Nat)) (key k : GoString) (v : Nat)
    (h : k ≠ key) : mapGet (mapSet m key v) k = mapGet m k := by
  simp only [mapSet, mapGet, Ne.symm h, if_false]
  exact mapGet_mapDelete_ne m key k h

theorem mapGet_mapSet_some (m : List (GoString × Nat)) (key k : GoString) (v id : Nat)
    (h : mapGet (mapSet m key v) k = some id) :
    (k = key ∧ id = v) ∨ (k ≠ key ∧ mapGet m k = some id) := by
  by_cases hk : k = key
  · subst hk
    rw [mapGet_mapSet] at h
    simp only [Option.some.injEq] at h
    exact Or.inl ⟨rfl, h.symm⟩
  · rw [mapGet_mapSet_ne m key k v hk] at h
    exact Or.inr ⟨hk, h⟩

theorem WF_new (delay : Duration) (now : Int) : (NewDebouncer delay now).WF := by
  refine ⟨?_, ?_, ?_⟩
  · intro t ht
    simp [NewDebouncer] at ht
  · intro key id h
    simp [NewDebouncer, mapGet] at h
  · intro key id h
    simp [NewDebouncer, mapGet] at h

theorem WF_TriggerWithDelay (d : Debouncer) (key : GoString) (delay : Duration) (fn : Callback)
    (h : d.WF) : (d.TriggerWithDelay key delay fn).WF := by
  obtain ⟨h1, h2, h3⟩ := h
  unfold Debouncer.TriggerWithDelay
  cases hd : d.done with
  | true => exact ⟨h1, h2, h3⟩
  | false =>
    simp only [Bool.false_eq_true, if_false]
    have hsub : ∀ t ∈ (match mapGet d.timers key with
        | some existing => timerStop d.armed existing
        | none => d.armed), t ∈ d.armed := by
      intro t ht
      cases hm : mapGet d.timers key with
      | none => simpa [hm] using ht
      | some ex =>
        simp only [hm, timerStop, List.mem_filter] at ht
        exact ht.1
    refine ⟨?_, ?_, ?_⟩
    · intro t ht
      simp only [List.mem_append, List.mem_singleton] at ht
      rcases ht with ht | rfl
      · exact Nat.lt_succ_of_lt (h1 t (hsub t ht))
      · exact Nat.lt_succ_self _
    · intro k id hm
      rcases mapGet_mapSet_some _ _ _ _ _ hm with ⟨_, rfl⟩ | ⟨_, hm2⟩
      · exact Nat.lt_succ_self _
      · exact Nat.lt_succ_of_lt (h2 k id hm2)
    · intro k id hm t ht hid
      simp only [List.mem_append, List.mem_singleton] at ht
      rcases mapGet_mapSet_some _ _ _ _ _ hm with ⟨rfl, rfl⟩ | ⟨hk, hm2⟩
      · rcases ht with ht | rfl
        · have := h1 t (hsub t ht)
          omega
        · rfl
      · rcases ht with ht | rfl
        · exact h3 k id hm2 t (hsub t ht) hid
        · have := h2 k id hm2
          simp only at hid
          omega

theorem WF_step (d d1 : Debouncer) (s : Step) (h : d.WF) (hs : d.step s = some d1) :
    d1.WF := by
  cases s with
  | Trigger key fn =>
    simp only [Debouncer.step, Option.some.injEq] at hs
    subst hs
    exact WF_TriggerWithDelay d key d.delay fn h
  | TriggerWithDelay key delay fn =>
    simp only [Debouncer.step, Option.some.injEq] at hs
    subst hs
    exact WF_TriggerWithDelay d key delay fn h
  | stopClose =>
    simp only [Debouncer.step, Option.some.injEq] at hs
    subst hs
    exact h
  | stopSweep =>
    simp only [Debouncer.step, Option.some.injEq] at hs
    subst hs
    obtain ⟨s1, s2, _, _, _, _, s7, _⟩ := stopSweep_spec d
    refine ⟨?_, ?_, ?_⟩
    · intro t ht
      rw [s7]
      exact h.1 t (s2 t ht).1
    · intro key id hm
      rw [s1] at hm
      simp [mapGet] at hm
    · intro key id hm
      rw [s1] at hm
      simp [mapGet] at hm
  | advance dt =>
    simp only [Debouncer.step, Option.some.injEq] at hs
    subst hs
    exact h
  | expire id =>
    simp only [Debouncer.step, Debouncer.expire] at hs
    split at hs
    · exact absurd hs (by simp)
    · split at hs
      · simp only [Option.some.injEq] at hs
        subst hs
        have hsub : ∀ t ∈ timerStop d.armed id, t ∈ d.armed := by
          intro t ht
          simp only [timerStop, List.mem_filter] at ht
          exact ht.1
        exact ⟨fun t ht => h.1 t (hsub t ht), h.2.1,
          fun key i hm t ht hid => h.2.2 key i hm t (hsub t ht) hid⟩
      · exact absurd hs (by simp)
  | timerLocked id =>
    simp only [Debouncer.step, Debouncer.timerLocked] at hs
    split at hs
    · exact absurd hs (by simp)
    · simp only [Option.some.injEq] at hs
      subst hs
      refine ⟨h.1, ?_, ?_⟩
      · intro key i hm
        exact h.2.1 key i (mapGet_mapDelete_some _ _ _ _ hm).1
      · intro key i hm t ht hid
        exact h.2.2 key i (mapGet_mapDelete_some _ _ _ _ hm).1 t ht hid
  | timerSelect id =>
    simp only [Debouncer.step, Debouncer.timerSelect] at hs
    split at hs
    · exact absurd hs (by simp)
    · simp only [Option.some.injEq] at hs
      subst hs
      exact h
  | timerCall id =>
    simp only [Debouncer.step, Debouncer.timerCall] at hs
    split at hs
    · exact absurd hs (by simp)
    · simp only [Option.some.injEq] at hs
      subst hs
      exact h

theorem WF_run (steps : List Step) :
    ∀ d d1 : Debouncer, d.WF → d.run steps = some d1 → d1.WF := by
  induction steps with
  | nil =>
    intro d d1 h hr
    simp only [Debouncer.run, Option.some.injEq] at hr
    subst hr
    exact h
  | cons s steps ih =>
    intro d d1 h hr
    simp only [Debouncer.run] at hr
    cases hs : d.step s with
    | none => simp [hs] at hr
    | some d0 =>
      simp only [hs] at hr
      exact ih d0 d1 (WF_step d d0 s h hs) hr

theorem timerStop_filter_key (l : List Timer) (ex : Nat) (k : GoString)
    (h : ∀ t ∈ l, t.id = ex → t.key ≠ k) :
    (timerStop l ex).filter (fun t => t.key == k) = l.filter (fun t => t.key == k) := by
  induction l with
  | nil => rfl
  | cons t l ih =>
    have ih1 := ih (fun u hu => h u (List.mem_cons_of_mem t hu))
    simp only [timerStop] at ih1 ⊢
    by_cases hid : t.id = ex
    · have hk : (t.key == k) = false := by simpa using h t (List.mem_cons_self t l) hid
      simp [hid, hk, ih1]
    · have hb : (t.id != ex) = true := by simp [hid]
      simp only [List.filter_cons, hb, if_true]
      rw [ih1]

theorem Trigger_frame (d : Debouncer) (key k : GoString) (delay : Duration) (fn : Callback)
    (h : d.WF) (hk : k ≠ key) :
    mapGet (d.TriggerWithDelay key delay fn).timers k = mapGet d.timers k ∧
    (d.TriggerWithDelay key delay fn).armed.filter (fun t => t.key == k) =
      d.armed.filter (fun t => t.key == k) ∧
    (d.TriggerWithDelay key delay fn).started = d.started ∧
    (d.TriggerWithDelay key delay fn).unlocked = d.unlocked ∧
    (d.TriggerWithDelay key delay fn).selected = d.selected ∧
    (d.TriggerWithDelay key delay fn).invoked = d.invoked := by
  unfold Debouncer.TriggerWithDelay
  cases hd : d.done with
  | true => simp
  | false =>
    simp only [Bool.false_eq_true, if_false, and_true]
    refine ⟨mapGet_mapSet_ne _ _ _ _ hk, ?_⟩
    have hnew : (key == k) = false := by simpa using Ne.symm hk
    simp only [List.filter_append, List.filter_cons, hnew, Bool.false_eq_true, if_false,
      List.filter_nil, List.append_nil]
    cases hm : mapGet d.timers key with
    | none => rfl
    | some ex =>
      simp only
      apply timerStop_filter_key
      intro t ht hid heq
      exact hk (heq.symm.trans (h.2.2 key ex hm t ht hid)).symm.symm


theorem find_filter_perm (l : List Timer) (i : Nat) (t : Timer)
    (hnd : (l.map (fun t => t.id)).Nodup)
    (hf : l.find? (fun t => t.id == i) = some t) :
    List.Perm l (t :: l.filter (fun u => u.id != i)) := by
  induction l with
  | nil => simp at hf
  | cons a l ih =>
    simp only [List.map_cons, List.nodup_cons] at hnd
    by_cases ha : a.id = i
    · have hb : (a.id == i) = true := by simp [ha]
      simp only [List.find?_cons, hb, Option.some.injEq] at hf
      subst hf
      have hfil : l.filter (fun u => u.id != i) = l := by
        apply List.filter_eq_self.mpr
        intro u hu
        have : u.id ≠ i := by
          intro hui
          apply hnd.1
          rw [ha, ← hui]
          exact List.mem_map_of_mem (fun t => t.id) hu
        simp [this]
      have hbn : (a.id != i) = false := by simp [ha]
      simp only [List.filter_cons, hbn, Bool.false_eq_true, if_false, hfil]
      exact List.Perm.refl _
    · have hb : (a.id == i) = false := by simp [ha]
      have hbn : (a.id != i) = true := by simp [ha]
      simp only [List.find?_cons, hb] at hf
      simp only [List.filter_cons, hbn, if_true]
      exact (List.Perm.cons a (ih hnd.2 hf)).trans (List.Perm.swap t a _)

theorem find_id (l : List Timer) (i : Nat) (t : Timer)
    (hf : l.find? (fun t => t.id == i) = some t) : t ∈ l ∧ t.id = i := by
  have h1 := List.find?_some hf
  have h2 := List.mem_of_find?_eq_some hf
  exact ⟨h2, by simpa using h1⟩

theorem KeysInv_of_pool (used : List GoString) (d d1 : Debouncer) (trig : List Callback)
    (h : KeysInv used d trig) (hdone : d1.done = false)
    (hkeys : ∀ k id, mapGet d1.timers k = some id → k ∈ used)
    (hnext : d1.nextId = d.nextId) (hpool : List.Perm d1.pool d.pool)
    (hinv : d1.invoked = d.invoked) : KeysInv used d1 trig := by
  obtain ⟨_, _, h3, h4, h5⟩ := h
  refine ⟨hdone, hkeys, ?_, ?_, ?_⟩
  · exact ((hpool.map (fun t => t.id)).nodup_iff).mpr h3
  · intro t ht
    rw [hnext]
    exact h4 t (hpool.subset ht)
  · rw [hinv]
    exact ((hpool.map (fun t => t.fn)).append_right d.invoked).trans h5

theorem KeysInv_advance (used : List GoString) (d : Debouncer) (trig : List Callback)
    (dt : Nat) (h : KeysInv used d trig) : KeysInv used (d.advance dt) trig :=
  KeysInv_of_pool used d (d.advance dt) trig h h.1 h.2.1 rfl (List.Perm.refl _) rfl

theorem KeysInv_armed_nodup (used : List GoString) (d : Debouncer) (trig : List Callback)
    (h : KeysInv used d trig) :
    (d.armed.map (fun t => t.id)).Nodup ∧ (d.started.map (fun t => t.id)).Nodup ∧
    (d.unlocked.map (fun t => t.id)).Nodup ∧ (d.selected.map (fun t => t.id)).Nodup := by
  have h3 := h.2.2.1
  simp only [Debouncer.pool, List.map_append] at h3
  have h123 := (List.nodup_append.mp h3).1
  have h12 := (List.nodup_append.mp h123).1
  exact ⟨(List.nodup_append.mp h12).1, (List.nodup_append.mp h12).2.1,
    (List.nodup_append.mp h123).2.1, (List.nodup_append.mp h3).2.1⟩

theorem KeysInv_expire (used : List GoString) (d d1 : Debouncer) (trig : List Callback)
    (id : Nat) (h : KeysInv used d trig) (hs : d.expire id = some d1) :
    KeysInv used d1 trig := by
  simp only [Debouncer.expire] at hs
  cases hf : d.armed.find? (fun t => t.id == id) with
  | none => simp [hf] at hs
  | some t =>
    simp only [hf] at hs
    split at hs
    · simp only [Option.some.injEq] at hs
      subst hs
      have hp := find_filter_perm d.armed id t (KeysInv_armed_nodup used d trig h).1 hf
      refine KeysInv_of_pool used d _ trig h h.1 h.2.1 rfl ?_ rfl
      rw [List.perm_iff_count]
      intro a
      have hc := hp.count_eq a
      simp only [Debouncer.pool, timerStop, List.count_append, List.count_cons,
        List.count_nil] at hc ⊢
      omega
    · exact absurd hs (by simp)

theorem KeysInv_timerLocked (used : List GoString) (d d1 : Debouncer) (trig : List Callback)
    (id : Nat) (h : KeysInv used d trig) (hs : d.timerLocked id = some d1) :
    KeysInv used d1 trig := by
  simp only [Debouncer.timerLocked] at hs
  cases hf : d.started.find? (fun t => t.id == id) with
  | none => simp [hf] at hs
  | some t =>
    simp only [hf, Option.some.injEq] at hs
    subst hs
    have hp := find_filter_perm d.started id t (KeysInv_armed_nodup used d trig h).2.1 hf
    refine KeysInv_of_pool used d _ trig h h.1 ?_ rfl ?_ rfl
    · intro k i hm
      exact h.2.1 k i (mapGet_mapDelete_some _ _ _ _ hm).1
    · rw [List.perm_iff_count]
      intro a
      have hc := hp.count_eq a
      simp only [Debouncer.pool, List.count_append, List.count_cons,
        List.count_nil] at hc ⊢
      omega

theorem KeysInv_timerSelect (used : List GoString) (d d1 : Debouncer) (trig : List Callback)
    (id : Nat) (h : KeysInv used d trig) (hs : d.timerSelect id = some d1) :
    KeysInv used d1 trig := by
  simp only [Debouncer.timerSelect] at hs
  cases hf : d.unlocked.find? (fun t => t.id == id) with
  | none => simp [hf] at hs
  | some t =>
    simp only [hf, Option.some.injEq, h.1, Bool.false_eq_true, if_false] at hs
    subst hs
    have hp := find_filter_perm d.unlocked id t (KeysInv_armed_nodup used d trig h).2.2.1 hf
    refine KeysInv_of_pool used d _ trig h rfl h.2.1 rfl ?_ rfl
    rw [List.perm_iff_count]
    intro a
    have hc := hp.count_eq a
    simp only [Debouncer.pool, List.count_append, List.count_cons,
      List.count_nil] at hc ⊢
    omega

theorem KeysInv_timerCall (used : List GoString) (d d1 : Debouncer) (trig : List Callback)
    (id : Nat) (h : KeysInv used d trig) (hs : d.timerCall id = some d1) :
    KeysInv used d1 trig := by
  simp only [Debouncer.timerCall] at hs
  cases hf : d.selected.find? (fun t => t.id == id) with
  | none => simp [hf] at hs
  | some t =>
    simp only [hf, Option.some.injEq] at hs
    subst hs
    have hp := find_filter_perm d.selected id t (KeysInv_armed_nodup used d trig h).2.2.2 hf
    obtain ⟨h1, h2, h3, h4, h5⟩ := h
    have hpool : List.Perm d.pool
        (t :: (d.armed ++ d.started ++ d.unlocked ++
          d.selected.filter (fun u => u.id != id))) := by
      rw [List.perm_iff_count]
      intro a
      have hc := hp.count_eq a
      simp only [Debouncer.pool, List.count_append, List.count_cons,
        List.count_nil] at hc ⊢
      omega
    refine ⟨h1, h2, ?_, ?_, ?_⟩
    · have hn := ((hpool.map (fun t => t.id)).nodup_iff).mp h3
      simp only [List.map_cons, List.nodup_cons] at hn
      exact hn.2
    · intro u hu
      exact h4 u (hpool.symm.subset (List.mem_cons_of_mem t hu))
    · have hm := (hpool.map (fun t => t.fn)).append_right d.invoked
      refine List.Perm.trans ?_ (hm.symm.trans h5)
      simp only [Debouncer.pool, List.map_cons, List.cons_append]
      rw [← List.append_assoc]
      exact List.perm_append_singleton _ _

theorem KeysInv_Trigger (used : List GoString) (d : Debouncer) (trig : List Callback)
    (k : GoString) (delay : Duration) (fn : Callback)
    (h : KeysInv used d trig) (hk : k ∉ used) :
    KeysInv (k :: used) (d.TriggerWithDelay k delay fn) (trig ++ [fn]) := by
  obtain ⟨h1, h2, h3, h4, h5⟩ := h
  have hnone : mapGet d.timers k = none := by
    cases hm : mapGet d.timers k with
    | none => rfl
    | some id => exact absurd (h2 k id hm) hk
  have hT : d.TriggerWithDelay k delay fn =
      { d with
        timers := mapSet d.timers k d.nextId
        armed := d.armed ++ [{ id := d.nextId, key := k, deadline := d.now + delay, fn := fn }]
        nextId := d.nextId + 1 } := by
    simp only [Debouncer.TriggerWithDelay, h1, Bool.false_eq_true, if_false, hnone]
  rw [hT]
  have hpool : List.Perm
      (d.armed ++ [{ id := d.nextId, key := k, deadline := d.now + delay, fn := fn }]
        ++ d.started ++ d.unlocked ++ d.selected)
      (({ id := d.nextId, key := k, deadline := d.now + delay, fn := fn } : Timer) :: d.pool) := by
    rw [List.perm_iff_count]
    intro a
    simp only [Debouncer.pool, List.count_append, List.count_cons, List.count_nil]
    omega
  refine ⟨h1, ?_, ?_, ?_, ?_⟩
  · intro k1 id hm
    rcases mapGet_mapSet_some _ _ _ _ _ hm with ⟨rfl, _⟩ | ⟨_, hm2⟩
    · exact List.mem_cons_self _ _
    · exact List.mem_cons_of_mem _ (h2 k1 id hm2)
  · apply ((hpool.map (fun t => t.id)).nodup_iff).mpr
    simp only [List.map_cons, List.nodup_cons]
    refine ⟨?_, h3⟩
    intro hmem
    obtain ⟨u, hu, hid⟩ := List.mem_map.mp hmem
    have := h4 u hu
    omega
  · intro t ht
    have ht1 := hpool.subset ht
    simp only [List.mem_cons] at ht1
    rcases ht1 with rfl | ht1
    · exact Nat.lt_succ_self _
    · exact Nat.lt_succ_of_lt (h4 t ht1)
  · have hm := (hpool.map (fun t => t.fn)).append_right d.invoked
    refine List.Perm.trans hm ?_
    simp only [List.map_cons, List.cons_append]
    exact (List.Perm.cons fn h5).trans (List.perm_append_singleton fn trig).symm

theorem triggered_append (a b : List Step) : triggered (a ++ b) = triggered a ++ triggered b := by
  induction a with
  | nil => rfl
  | cons s a ih => cases s <;> simp [triggered, ih]

theorem keys_run (steps : List Step) :
    ∀ (used : List GoString) (d : Debouncer) (trig : List Callback),
      KeysInv used d trig → distinctOk used d steps = true →
      ∃ used1 d1, d.run steps = some d1 ∧ KeysInv used1 d1 (trig ++ triggered steps) ∧
        ∀ more, distinctOk used1 d1 more = true → distinctOk used d (steps ++ more) = true := by
  induction steps with
  | nil =>
    intro used d trig h _
    exact ⟨used, d, rfl, by simpa [triggered] using h, fun more hm => by simpa using hm⟩
  | cons s steps ih =>
    intro used d trig h hok
    cases s with
    | Trigger k fn =>
      simp only [distinctOk, Bool.and_eq_true, Bool.not_eq_true', List.contains_eq_any_beq,
        List.any_eq_false, beq_iff_eq] at hok
      have hk : k ∉ used := fun hmem => hok.1 k hmem rfl
      obtain ⟨used1, d1, hr, hi, hmore⟩ :=
        ih (k :: used) (d.Trigger k fn) (trig ++ [fn])
          (KeysInv_Trigger used d trig k d.delay fn h hk) hok.2
      refine ⟨used1, d1, ?_, ?_, ?_⟩
      · simpa [Debouncer.run, Debouncer.step] using hr
      · simpa [triggered] using hi
      · intro more hm
        simp only [List.cons_append, distinctOk, Bool.and_eq_true, Bool.not_eq_true',
          List.contains_eq_any_beq, List.any_eq_false, beq_iff_eq]
        exact ⟨hok.1, hmore more hm⟩
    | TriggerWithDelay k delay fn =>
      simp only [distinctOk, Bool.and_eq_true, Bool.not_eq_true', List.contains_eq_any_beq,
        List.any_eq_false, beq_iff_eq] at hok
      have hk : k ∉ used := fun hmem => hok.1 k hmem rfl
      obtain ⟨used1, d1, hr, hi, hmore⟩ :=
        ih (k :: used) (d.TriggerWithDelay k delay fn) (trig ++ [fn])
          (KeysInv_Trigger used d trig k delay fn h hk) hok.2
      refine ⟨used1, d1, ?_, ?_, ?_⟩
      · simpa [Debouncer.run, Debouncer.step] using hr
      · simpa [triggered] using hi
      · intro more hm
        simp only [List.cons_append, distinctOk, Bool.and_eq_true, Bool.not_eq_true',
          List.contains_eq_any_beq, List.any_eq_false, beq_iff_eq]
        exact ⟨hok.1, hmore more hm⟩
    | stopClose => simp [distinctOk] at hok
    | stopSweep => simp [distinctOk] at hok
    | advance dt =>
      simp only [distinctOk] at hok
      obtain ⟨used1, d1, hr, hi, hmore⟩ :=
        ih used (d.advance dt) trig (KeysInv_advance used d trig dt h) hok
      refine ⟨used1, d1, ?_, ?_, ?_⟩
      · simpa [Debouncer.run, Debouncer.step] using hr
      · simpa [triggered] using hi
      · intro more hm
        simp only [List.cons_append, distinctOk]
        exact hmore more hm
    | expire id =>
      simp only [distinctOk] at hok
      cases hs : d.expire id with
      | none => simp [hs] at hok
      | some d0 =>
        simp only [hs] at hok
        obtain ⟨used1, d1, hr, hi, hmore⟩ :=
          ih used d0 trig (KeysInv_expire used d d0 trig id h hs) hok
        refine ⟨used1, d1, ?_, ?_, ?_⟩
        · simpa [Debouncer.run, Debouncer.step, hs] using hr
        · simpa [triggered] using hi
        · intro more hm
          simp only [List.cons_append, distinctOk, hs]
          exact hmore more hm
    | timerLocked id =>
      simp only [distinctOk] at hok
      cases hs : d.timerLocked id with
      | none => simp [hs] at hok
      | some d0 =>
        simp only [hs] at hok
        obtain ⟨used1, d1, hr, hi, hmore⟩ :=
          ih used d0 trig (KeysInv_timerLocked used d d0 trig id h hs) hok
        refine ⟨used1, d1, ?_, ?_, ?_⟩
        · simpa [Debouncer.run, Debouncer.step, hs] using hr
        · simpa [triggered] using hi
        · intro more hm
          simp only [List.cons_append, distinctOk, hs]
          exact hmore more hm
    | timerSelect id =>
      simp only [distinctOk] at hok
      cases hs : d.timerSelect id with
      | none => simp [hs] at hok
      | some d0 =>
        simp only [hs] at hok
        obtain ⟨used1, d1, hr, hi, hmore⟩ :=
          ih used d0 trig (KeysInv_timerSelect used d d0 trig id h hs) hok
        refine ⟨used1, d1, ?_, ?_, ?_⟩
        · simpa [Debouncer.run, Debouncer.step, hs] using hr
        · simpa [triggered] using hi
        · intro more hm
          simp only [List.cons_append, distinctOk, hs]
          exact hmore more hm
    | timerCall id =>
      simp only [distinctOk] at hok
      cases hs : d.timerCall id with
      | none => simp [hs] at hok
      | some d0 =>
        simp only [hs] at hok
        obtain ⟨used1, d1, hr, hi, hmore⟩ :=
          ih used d0 trig (KeysInv_timerCall used d d0 trig id h hs) hok
        refine ⟨used1, d1, ?_, ?_, ?_⟩
        · simpa [Debouncer.run, Debouncer.step, hs] using hr
        · simpa [triggered] using hi
        · intro more hm
          simp only [List.cons_append, distinctOk, hs]
          exact hmore more hm


theorem filter_head_length (u : Timer) (rest : List Timer) :
    ((u :: rest).filter (fun v => v.id != u.id)).length ≤ rest.length := by
  simp only [List.filter_cons, bne_self_eq_false, Bool.false_eq_true, if_false]
  exact List.length_filter_le _ _

theorem keys_complete (n : Nat) :
    ∀ (used : List GoString) (d : Debouncer) (trig : List Callback),
      KeysInv used d trig →
      4 * d.armed.length + 3 * d.started.length + 2 * d.unlocked.length
        + d.selected.length < n →
      ∃ more d2, triggered more = [] ∧ distinctOk used d more = true ∧
        d.run more = some d2 ∧ d2.quiet ∧ KeysInv used d2 trig := by
  induction n with
  | zero => intro used d trig _ hn; omega
  | succ n ih =>
    intro used d trig h hn
    cases hsel : d.selected with
    | cons c rest =>
      have hf : d.selected.find? (fun t => t.id == c.id) = some c := by
        rw [hsel]; simp [List.find?_cons]
      have hs : d.timerCall c.id = some { d with
          selected := d.selected.filter (fun v => v.id != c.id)
          invoked := d.invoked ++ [c.fn] } := by
        simp only [Debouncer.timerCall, hf]
      have hlen := filter_head_length c rest
      rw [← hsel] at hlen
      obtain ⟨more, d2, ht, hok, hr, hq, hi⟩ :=
        ih used _ trig (KeysInv_timerCall used d _ trig c.id h hs) (by
          simp only
          rw [hsel] at hn
          simp only [List.length_cons] at hn
          omega)
      refine ⟨Step.timerCall c.id :: more, d2, ?_, ?_, ?_, hq, hi⟩
      · simpa [triggered] using ht
      · simp only [distinctOk, hs]
        exact hok
      · simp only [Debouncer.run, Debouncer.step, hs]
        exact hr
    | nil =>
      cases hu : d.unlocked with
      | cons u rest =>
        have hf : d.unlocked.find? (fun t => t.id == u.id) = some u := by
          rw [hu]; simp [List.find?_cons]
        have hs : d.timerSelect u.id = some { d with
            unlocked := d.unlocked.filter (fun v => v.id != u.id)
            selected := d.selected ++ [u] } := by
          simp only [Debouncer.timerSelect, hf, h.1, Bool.false_eq_true, if_false]
        have hlen := filter_head_length u rest
        rw [← hu] at hlen
        obtain ⟨more, d2, ht, hok, hr, hq, hi⟩ :=
          ih used _ trig (KeysInv_timerSelect used d _ trig u.id h hs) (by
            simp only
            rw [hu, hsel] at hn
            simp only [List.length_cons, List.length_nil] at hn
            rw [hsel]
            simp only [List.nil_append, List.length_singleton]
            omega)
        refine ⟨Step.timerSelect u.id :: more, d2, ?_, ?_, ?_, hq, hi⟩
        · simpa [triggered] using ht
        · simp only [distinctOk, hs]
          exact hok
        · simp only [Debouncer.run, Debouncer.step, hs]
          exact hr
      | nil =>
        cases hst : d.started with
        | cons s rest =>
          have hf : d.started.find? (fun t => t.id == s.id) = some s := by
            rw [hst]; simp [List.find?_cons]
          have hs : d.timerLocked s.id = some { d with
              timers := mapDelete d.timers s.key
              started := d.started.filter (fun v => v.id != s.id)
              unlocked := d.unlocked ++ [s] } := by
            simp only [Debouncer.timerLocked, hf]
          have hlen := filter_head_length s rest
          rw [← hst] at hlen
          obtain ⟨more, d2, ht, hok, hr, hq, hi⟩ :=
            ih used _ trig (KeysInv_timerLocked used d _ trig s.id h hs) (by
              simp only
              rw [hst, hu, hsel] at hn
              simp only [List.length_cons, List.length_nil] at hn
              rw [hu, hsel]
              simp only [List.nil_append, List.length_singleton, List.length_nil]
              omega)
          refine ⟨Step.timerLocked s.id :: more, d2, ?_, ?_, ?_, hq, hi⟩
          · simpa [triggered] using ht
          · simp only [distinctOk, hs]
            exact hok
          · simp only [Debouncer.run, Debouncer.step, hs]
            exact hr
        | nil =>
          cases ha : d.armed with
          | cons a rest =>
            have hf : (d.advance (a.deadline - d.now).toNat).armed.find?
                (fun t => t.id == a.id) = some a := by
              simp only [Debouncer.advance]
              rw [ha]; simp [List.find?_cons]
            have hdl : a.deadline ≤ (d.advance (a.deadline - d.now).toNat).now := by
              simp only [Debouncer.advance]
              omega
            have hs : (d.advance (a.deadline - d.now).toNat).expire a.id = some
                { d.advance (a.deadline - d.now).toNat with
                  armed := timerStop (d.advance (a.deadline - d.now).toNat).armed a.id
                  started := (d.advance (a.deadline - d.now).toNat).started ++ [a] } := by
              simp only [Debouncer.expire, hf, hdl, if_true]
            have hlen := filter_head_length a rest
            rw [← ha] at hlen
            obtain ⟨more, d2, ht, hok, hr, hq, hi⟩ :=
              ih used _ trig
                (KeysInv_expire used _ _ trig a.id (KeysInv_advance used d trig _ h) hs) (by
                  simp only [Debouncer.advance, timerStop]
                  rw [ha, hst, hu, hsel] at hn
                  simp only [List.length_cons, List.length_nil] at hn
                  rw [hst, hu, hsel]
                  simp only [List.nil_append, List.length_singleton, List.length_nil]
                  omega)
            refine ⟨Step.advance (a.deadline - d.now).toNat :: Step.expire a.id :: more, d2,
              ?_, ?_, ?_, hq, hi⟩
            · simpa [triggered] using ht
            · simp only [distinctOk, hs]
              exact hok
            · simp only [Debouncer.run, Debouncer.step, hs]
              exact hr
          | nil => exact ⟨[], d, rfl, rfl, rfl, ⟨ha, hst, hu, hsel⟩, h⟩

/-- C12: debounce keys are independent. In every state a new Debouncer can reach, a
TriggerWithDelay or Trigger on a key leaves, for every other key k, the entry of k in the
map, the armed timers of k with their deadlines and callbacks, the timer functions under
way and the callbacks called as they were. So in every run of a new Debouncer that is not
stopped in which every call is on a key not used before, the callbacks of the timers armed
or under way together with the callbacks called are, up to order, the callbacks of the
calls made, each once; when no timer is left armed or under way every callback has been
called exactly once; and every such run can be carried on to that point. -/
theorem keys_independent (delay : Duration) (now : Int) (pre steps : List Step)
    (d : Debouncer) (key k : GoString) (dl : Duration) (fn : Callback)
    (hpre : (NewDebouncer delay now).run pre = some d) (hk : k ≠ key)
    (hok : distinctOk [] (NewDebouncer delay now) steps = true) :
    (mapGet (d.TriggerWithDelay key dl fn).timers k = mapGet d.timers k ∧
      (d.TriggerWithDelay key dl fn).armed.filter (fun t => t.key == k) =
        d.armed.filter (fun t => t.key == k) ∧
      (d.TriggerWithDelay key dl fn).started = d.started ∧
      (d.TriggerWithDelay key dl fn).unlocked = d.unlocked ∧
      (d.TriggerWithDelay key dl fn).selected = d.selected ∧
      (d.TriggerWithDelay key dl fn).invoked = d.invoked) ∧
    (mapGet (d.Trigger key fn).timers k = mapGet d.timers k ∧
      (d.Trigger key fn).armed.filter (fun t => t.key == k) =
        d.armed.filter (fun t => t.key == k) ∧
      (d.Trigger key fn).started = d.started ∧
      (d.Trigger key fn).unlocked = d.unlocked ∧
      (d.Trigger key fn).selected = d.selected ∧
      (d.Trigger key fn).invoked = d.invoked) ∧
    ∃ d1, (NewDebouncer delay now).run steps = some d1 ∧ d1.done = false ∧
      List.Perm (d1.pool.map (fun t => t.fn) ++ d1.invoked) (triggered steps) ∧
      (d1.quiet → List.Perm d1.invoked (triggered steps)) ∧
      ∃ more d2, triggered more = [] ∧
        distinctOk [] (NewDebouncer delay now) (steps ++ more) = true ∧
        (NewDebouncer delay now).run (steps ++ more) = some d2 ∧
        d2.quiet ∧ List.Perm d2.invoked (triggered steps) := by
  have hwf : d.WF := WF_run pre _ d (WF_new delay now) hpre
  refine ⟨Trigger_frame d key k dl fn hwf hk, Trigger_frame d key k d.delay fn hwf hk, ?_⟩
  have hinit : KeysInv [] (NewDebouncer delay now) [] := by
    refine ⟨rfl, ?_, ?_, ?_, ?_⟩
    · intro k1 id hm
      simp [NewDebouncer, mapGet] at hm
    · simp [NewDebouncer, Debouncer.pool]
    · intro t ht
      simp [NewDebouncer, Debouncer.pool] at ht
    · simp [NewDebouncer, Debouncer.pool]
  obtain ⟨used1, d1, hrun, hinv, hmore⟩ := keys_run steps [] _ [] hinit hok
  simp only [List.nil_append] at hinv
  have hquiet : ∀ d2 : Debouncer, KeysInv used1 d2 (triggered steps) → d2.quiet →
      List.Perm d2.invoked (triggered steps) := by
    intro d2 hi hq
    have h5 := hi.2.2.2.2
    simp only [Debouncer.pool, hq.1, hq.2.1, hq.2.2.1, hq.2.2.2, List.append_nil, List.map_nil,
      List.nil_append] at h5
    exact h5
  refine ⟨d1, hrun, hinv.1, hinv.2.2.2.2, hquiet d1 hinv, ?_⟩
  obtain ⟨more, d2, ht, hok2, hr2, hq2, hi2⟩ :=
    keys_complete _ used1 d1 (triggered steps) hinv (Nat.lt_succ_self _)
  refine ⟨more, d2, ht, hmore more hok2, ?_, hq2, hquiet d2 hi2 hq2⟩
  rw [run_append, hrun]
  exact hr2

/-- The run of TestDebouncerIndependentPaths: Trigger on b.go leaves the timer of a.go
as it was, and the calls on a.go, b.go and c.go under a delay of 30 ms bring, after the
sleep of 100 ms, one call of each of the three callbacks. -/
theorem keys_independent_witness :
    ((NewDebouncer 30 0).run [Step.Trigger (bytes "a.go") 0] =
        some ((NewDebouncer 30 0).Trigger (bytes "a.go") 0) ∧
      bytes "a.go" ≠ bytes "b.go" ∧
      distinctOk [] (NewDebouncer 30 0) independentPathsSteps = true) ∧
    ((NewDebouncer 30 0).run independentPathsSteps).map (fun d => (d.invoked, d.pool)) =
      some ([2, 0, 1], []) ∧
    ((mapGet ((((NewDebouncer 30 0).Trigger (bytes "a.go") 0).TriggerWithDelay
          (bytes "b.go") 30 1).timers) (bytes "a.go") =
        mapGet ((NewDebouncer 30 0).Trigger (bytes "a.go") 0).timers (bytes "a.go") ∧
      (((NewDebouncer 30 0).Trigger (bytes "a.go") 0).TriggerWithDelay
          (bytes "b.go") 30 1).armed.filter (fun t => t.key == bytes "a.go") =
        ((NewDebouncer 30 0).Trigger (bytes "a.go") 0).armed.filter
          (fun t => t.key == bytes "a.go") ∧
      (((NewDebouncer 30 0).Trigger (bytes "a.go") 0).TriggerWithDelay
          (bytes "b.go") 30 1).started =
        ((NewDebouncer 30 0).Trigger (bytes "a.go") 0).started ∧
      (((NewDebouncer 30 0).Trigger (bytes "a.go") 0).TriggerWithDelay
          (bytes "b.go") 30 1).unlocked =
        ((NewDebouncer 30 0).Trigger (bytes "a.go") 0).unlocked ∧
      (((NewDebouncer 30 0).Trigger (bytes "a.go") 0).TriggerWithDelay
          (bytes "b.go") 30 1).selected =
        ((NewDebouncer 30 0).Trigger (bytes "a.go") 0).selected ∧
      (((NewDebouncer 30 0).Trigger (bytes "a.go") 0).TriggerWithDelay
          (bytes "b.go") 30 1).invoked =
        ((NewDebouncer 30 0).Trigger (bytes "a.go") 0).invoked) ∧
    (mapGet ((((NewDebouncer 30 0).Trigger (bytes "a.go") 0).Trigger
          (bytes "b.go") 1).timers) (bytes "a.go") =
        mapGet ((NewDebouncer 30 0).Trigger (bytes "a.go") 0).timers (bytes "a.go") ∧
      (((NewDebouncer 30 0).Trigger (bytes "a.go") 0).Trigger
          (bytes "b.go") 1).armed.filter (fun t => t.key == bytes "a.go") =
        ((NewDebouncer 30 0).Trigger (bytes "a.go") 0).armed.filter
          (fun t => t.key == bytes "a.go") ∧
      (((NewDebouncer 30 0).Trigger (bytes "a.go") 0).Trigger (bytes "b.go") 1).started =
        ((NewDebouncer 30 0).Trigger (bytes "a.go") 0).started ∧
      (((NewDebouncer 30 0).Trigger (bytes "a.go") 0).Trigger (bytes "b.go") 1).unlocked =
        ((NewDebouncer 30 0).Trigger (bytes "a.go") 0).unlocked ∧
      (((NewDebouncer 30 0).Trigger (bytes "a.go") 0).Trigger (bytes "b.go") 1).selected =
        ((NewDebouncer 30 0).Trigger (bytes "a.go") 0).selected ∧
      (((NewDebouncer 30 0).Trigger (bytes "a.go") 0).Trigger (bytes "b.go") 1).invoked =
        ((NewDebouncer 30 0).Trigger (bytes "a.go") 0).invoked) ∧
    ∃ d1, (NewDebouncer 30 0).run independentPathsSteps = some d1 ∧ d1.done = false ∧
      List.Perm (d1.pool.map (fun t => t.fn) ++ d1.invoked) (triggered independentPathsSteps) ∧
      (d1.quiet → List.Perm d1.invoked (triggered independentPathsSteps)) ∧
      ∃ more d2, triggered more = [] ∧
        distinctOk [] (NewDebouncer 30 0) (independentPathsSteps ++ more) = true ∧
        (NewDebouncer 30 0).run (independentPathsSteps ++ more) = some d2 ∧
        d2.quiet ∧ List.Perm d2.invoked (triggered independentPathsSteps)) :=
  ⟨⟨by decide, by decide, by decide⟩, by decide,
   keys_independent 30 0 [Step.Trigger (bytes "a.go") 0] independentPathsSteps
     ((NewDebouncer 30 0).Trigger (bytes "a.go") 0) (bytes "b.go") (bytes "a.go") 30 1
     (by decide) (by decide) (by decide)⟩


/-! ## Theorems: ParseEventType, and the engine against the composed Matcher -/

/-- C21: for every string s, ParseEventType(s) returns no error exactly when s is one of
"create", "modify", "delete", "rename"; then it returns s as the event type; otherwise it
returns the empty event type with the error "unknown event type: " followed by s. -/
theorem ParseEventType_spec (s : GoString) :
    ((ParseEventType s).2 = none ↔
      s ∈ [bytes "create", bytes "modify", bytes "delete", bytes "rename"]) ∧
    (s ∈ [bytes "create", bytes "modify", bytes "delete", bytes "rename"] →
      ParseEventType s = (s, none)) ∧
    (s ∉ [bytes "create", bytes "modify", bytes "delete", bytes "rename"] →
      ParseEventType s = ([], some (bytes "unknown event type: " ++ s))) := by
  have hiff : (s = Create ∨ s = Modify ∨ s = Delete ∨ s = Rename) ↔
      s ∈ [bytes "create", bytes "modify", bytes "delete", bytes "rename"] := by
    simp only [List.mem_cons, List.mem_singleton, List.mem_nil_iff, or_false]
    exact Iff.rfl
  by_cases h : s = Create ∨ s = Modify ∨ s = Delete ∨ s = Rename
  · have hm := hiff.mp h
    refine ⟨?_, ?_, ?_⟩
    · simp only [ParseEventType, h, if_true, hm]
    · intro _
      simp only [ParseEventType, h, if_true]
    · intro hn
      exact absurd hm hn
  · have hm : s ∉ [bytes "create", bytes "modify", bytes "delete", bytes "rename"] :=
      fun hm => h (hiff.mpr hm)
    refine ⟨?_, ?_, ?_⟩
    · simp only [ParseEventType, h, if_false, hm, iff_false]
      exact fun hc => absurd hc (by simp)
    · intro hp
      exact absurd hp hm
    · intro _
      simp only [ParseEventType, h, if_false]

theorem Matcher_Match_eq (includes ignores : List GoString) (path : GoString) :
    (New includes ignores).Match path =
      (!ignores.any (fun p => MatchPattern p path) &&
        includes.any (fun p => MatchPattern p path)) := by
  simp only [Matcher.Match, New, rangeMatchGlob_eq_any]
  cases ignores.any (fun p => MatchPattern p path) <;>
    cases includes.any (fun p => MatchPattern p path) <;> rfl

theorem matchesRule_eq (e : Engine) (r : Rule) (ev : Event) :
    e.matchesRule r ev =
      (decide (r.Events = [] ∨ ev.Type_ ∈ r.Events) &&
        r.Watch.any (fun p => MatchPattern p ev.Path)) := by
  rw [Bool.eq_iff_iff, matchesRule_iff]
  simp only [Bool.and_eq_true, decide_eq_true_iff, List.any_eq_true]

theorem Evaluate_eq_EvaluateByMatcher (e : Engine) (ev : Event) :
    e.Evaluate ev = EvaluateByMatcher e ev := by
  unfold Engine.Evaluate EvaluateByMatcher
  rw [rangeMatchPattern_eq_any, rulesLoop_eq]
  cases hign : e.globalIgnores.any (fun p => MatchPattern p ev.Path) with
  | true =>
    simp only [if_true]
    have hf : e.rules.filter (fun r => ruleByMatcher e r ev) = [] := by
      rw [List.filter_eq_nil_iff]
      intro r _
      simp [ruleByMatcher, Matcher_Match_eq, hign]
    rw [hf]
    rfl
  | false =>
    simp only [Bool.false_eq_true, if_false, List.nil_append]
    have hf : e.rules.filter (fun r => e.matchesRule r ev) =
        e.rules.filter (fun r => ruleByMatcher e r ev) := by
      apply List.filter_congr
      intro r _
      rw [matchesRule_eq]
      simp [ruleByMatcher, Matcher_Match_eq, hign]
    rw [hf]
    rfl

/-- C22: the decision of the rule engine on each rule agrees with the composed Matcher.
For every engine and event, Evaluate returns, in the order of the rules, the matches of
exactly the rules whose events list is empty or contains the type of the event and for
which the Matcher built from the watch patterns of the rule and the global ignore
patterns of the engine accepts the path of the event. So the match of every such rule is
returned, every match returned is the match of such a rule, and for a rule whose name no
other rule of the engine bears, its match is returned exactly when the rule is such a
rule. -/
theorem Evaluate_agrees_with_Matcher (e : Engine) (ev : Event) :
    e.Evaluate ev = EvaluateByMatcher e ev ∧
    (∀ r ∈ e.rules, ruleByMatcher e r ev = true → r.toMatch ∈ e.Evaluate ev) ∧
    (∀ m ∈ e.Evaluate ev, ∃ r ∈ e.rules, r.toMatch = m ∧ ruleByMatcher e r ev = true) ∧
    (∀ r ∈ e.rules, (∀ r2 ∈ e.rules, r2.Name = r.Name → r2 = r) →
      (r.toMatch ∈ e.Evaluate ev ↔
        (r.Events = [] ∨ ev.Type_ ∈ r.Events) ∧
          (New r.Watch e.globalIgnores).Match ev.Path = true)) := by
  have heq := Evaluate_eq_EvaluateByMatcher e ev
  have hin : ∀ r ∈ e.rules, ruleByMatcher e r ev = true → r.toMatch ∈ e.Evaluate ev := by
    intro r hr hk
    rw [heq]
    exact List.mem_map_of_mem Rule.toMatch (List.mem_filter.mpr ⟨hr, hk⟩)
  have hout : ∀ m ∈ e.Evaluate ev,
      ∃ r ∈ e.rules, r.toMatch = m ∧ ruleByMatcher e r ev = true := by
    intro m hm
    rw [heq] at hm
    obtain ⟨r, hr, hrm⟩ := List.mem_map.mp hm
    obtain ⟨hr1, hr2⟩ := List.mem_filter.mp hr
    exact ⟨r, hr1, hrm, hr2⟩
  refine ⟨heq, hin, hout, ?_⟩
  intro r hr huniq
  have hk : ruleByMatcher e r ev = true ↔
      (r.Events = [] ∨ ev.Type_ ∈ r.Events) ∧
        (New r.Watch e.globalIgnores).Match ev.Path = true := by
    simp only [ruleByMatcher, Bool.and_eq_true, decide_eq_true_iff]
  rw [← hk]
  constructor
  · intro hm
    obtain ⟨r2, hr2, hrm, hk2⟩ := hout _ hm
    have hname : r2.Name = r.Name := congrArg Match.RuleName hrm
    rw [← huniq r2 hr2 hname]
    exact hk2
  · exact hin r hr

/-- The events of TestEvaluateMatchingGoFile and TestEvaluateNoMatchingEvent: the match of
"Go rebuild" is returned for the Create of cmd/main.go and not for its Delete. -/
theorem Evaluate_agrees_with_Matcher_witness :
    testEngine.Evaluate evCreateMainGo = EvaluateByMatcher testEngine evCreateMainGo ∧
    (ruleGoRebuild.toMatch ∈ testEngine.Evaluate evCreateMainGo ↔
      (ruleGoRebuild.Events = [] ∨ evCreateMainGo.Type_ ∈ ruleGoRebuild.Events) ∧
        (New ruleGoRebuild.Watch testEngine.globalIgnores).Match evCreateMainGo.Path = true) ∧
    ruleGoRebuild.toMatch ∈ testEngine.Evaluate evCreateMainGo ∧
    ruleGoRebuild.toMatch ∉ testEngine.Evaluate evDeleteMainGo :=
  ⟨(Evaluate_agrees_with_Matcher testEngine evCreateMainGo).1,
   (Evaluate_agrees_with_Matcher testEngine evCreateMainGo).2.2.2 ruleGoRebuild
     (by decide) (by decide),
   by decide, by decide⟩


/-! ## Theorems: a pattern that begins with `**` -/

theorem strings.Split_ne_nil (s : GoString) (sep : UInt8) : strings.Split s sep ≠ [] := by
  rw [strings.Split_eq_splitOn]
  exact List.splitOnP_ne_nil _ s

theorem strings.Split_append_sep (a b : GoString) (sep : UInt8) :
    strings.Split (a ++ sep :: b) sep = strings.Split a sep ++ strings.Split b sep := by
  induction a with
  | nil => simp [strings.Split]
  | cons c cs ih =>
    have hcons : (c :: cs) ++ sep :: b = c :: (cs ++ sep :: b) := rfl
    rw [hcons]
    by_cases hc : c = sep
    · simp only [strings.Split, hc, if_true, ih, List.cons_append]
    · simp only [strings.Split, hc, if_false, ih]
      cases hs : strings.Split cs sep with
      | nil => exact absurd hs (strings.Split_ne_nil cs sep)
      | cons seg segs => rfl

theorem matchSegments_doubleStar_cons (ps ns : List GoString) (d : GoString)
    (h : matchSegments (doubleStar :: ps) ns = true) :
    matchSegments (doubleStar :: ps) (d :: ns) = true := by
  rw [matchSegments_doubleStar_iff] at h ⊢
  obtain ⟨k, hk, hm⟩ := h
  exact ⟨k + 1, by simpa using hk, by simpa using hm⟩

theorem matchSegments_doubleStar_append (ps ns : List GoString) (ds : List GoString)
    (h : matchSegments (doubleStar :: ps) ns = true) :
    matchSegments (doubleStar :: ps) (ds ++ ns) = true := by
  induction ds with
  | nil => exact h
  | cons d ds ih => exact matchSegments_doubleStar_cons ps (ds ++ ns) d ih

theorem MatchPattern_doubleStar_slash (P path : GoString) :
    MatchPattern (bytes "**/" ++ P) path =
      matchSegments (doubleStar :: strings.Split P 47) (strings.Split path 47) := by
  have hb : bytes "**/" ++ P = [42, 42] ++ 47 :: P := rfl
  rw [MatchPattern_of_wildcard _ _ ⟨47, by rw [hb]; simp, Or.inl rfl⟩]
  unfold globMatch
  rw [hb, strings.Split_append_sep]
  rfl

/-- C23: a pattern that begins with a `**` segment is closed under prepending
directories. For every pattern P and all paths dir and path, if MatchPattern of "**/" + P
is true on path, it is true on dir + "/" + path; and for all lists of segments ps and ns
and every segment d, if matchSegments of `**` followed by ps is true on ns, it is true
on d followed by ns. -/
theorem MatchPattern_doubleStar_prepend (P dir path : GoString)
    (h : MatchPattern (bytes "**/" ++ P) path = true) :
    MatchPattern (bytes "**/" ++ P) (dir ++ bytes "/" ++ path) = true ∧
    ∀ (ps ns : List GoString) (d : GoString),
      matchSegments (bytes "**" :: ps) ns = true →
      matchSegments (bytes "**" :: ps) (d :: ns) = true := by
  refine ⟨?_, fun ps ns d hm => matchSegments_doubleStar_cons ps ns d hm⟩
  rw [MatchPattern_doubleStar_slash] at h ⊢
  have hp : dir ++ bytes "/" ++ path = dir ++ 47 :: path := by
    have : bytes "/" = [47] := rfl
    rw [this]
    simp
  rw [hp, strings.Split_append_sep]
  exact matchSegments_doubleStar_append _ _ _ h

/-- The pattern `**/*.go` matches main.go, so it matches cmd/sub/main.go. -/
theorem MatchPattern_doubleStar_prepend_witness :
    MatchPattern (bytes "**/" ++ bytes "*.go") (bytes "main.go") = true ∧
    MatchPattern (bytes "**/" ++ bytes "*.go") (bytes "cmd/sub" ++ bytes "/" ++ bytes "main.go")
      = true ∧
    ∀ (ps ns : List GoString) (d : GoString),
      matchSegments (bytes "**" :: ps) ns = true →
      matchSegments (bytes "**" :: ps) (d :: ns) = true :=
  ⟨by decide,
   MatchPattern_doubleStar_prepend (bytes "*.go") (bytes "cmd/sub") (bytes "main.go")
     (by decide)⟩


/-! ## Theorems: the event names of a rule -/

theorem eraseEvents_fields (r r2 : Rule) (h : eraseEvents r = eraseEvents r2) :
    r.Name = r2.Name ∧ r.Watch = r2.Watch ∧ r.Action = r2.Action := by
  have hn : (eraseEvents r).Name = (eraseEvents r2).Name := by rw [h]
  have hw : (eraseEvents r).Watch = (eraseEvents r2).Watch := by rw [h]
  have ha : (eraseEvents r).Action = (eraseEvents r2).Action := by rw [h]
  exact ⟨hn, hw, ha⟩

theorem validateAction_eraseEvents (r r2 : Rule) (h : eraseEvents r = eraseEvents r2) :
    validateAction r = validateAction r2 := by
  obtain ⟨hn, _, ha⟩ := eraseEvents_fields r r2 h
  simp only [validateAction, hn, ha]

theorem validateRules_eraseEvents :
    ∀ (rs rs2 : List Rule) (i : Nat), rs.map eraseEvents = rs2.map eraseEvents →
      validateRules i rs = validateRules i rs2 := by
  intro rs
  induction rs with
  | nil =>
    intro rs2 i h
    cases rs2 with
    | nil => rfl
    | cons r2 rs2 => simp at h
  | cons r rs ih =>
    intro rs2 i h
    cases rs2 with
    | nil => simp at h
    | cons r2 rs2 =>
      simp only [List.map_cons, List.cons.injEq] at h
      obtain ⟨h1, h2⟩ := h
      obtain ⟨hn, hw, ha⟩ := eraseEvents_fields r r2 h1
      simp only [validateRules, hn, hw, ha, validateAction_eraseEvents r r2 h1,
        ih rs2 (i + 1) h2]

theorem validate_eraseEvents (cfg cfg2 : Config)
    (h : cfg.Rules.map eraseEvents = cfg2.Rules.map eraseEvents) :
    validate cfg = validate cfg2 := by
  have hl : cfg.Rules.length = cfg2.Rules.length := by
    have := congrArg List.length h
    simpa using this
  simp only [validate, hl, validateRules_eraseEvents cfg.Rules cfg2.Rules 0 h]

theorem matchesRule_unknown_events (e : Engine) (r : Rule) (ev : Event)
    (hne : r.Events ≠ [])
    (hnone : ∀ s ∈ [bytes "create", bytes "modify", bytes "delete", bytes "rename"],
      s ∉ r.Events)
    (hty : ev.Type_ ∈ [Create, Modify, Delete, Rename]) :
    e.matchesRule r ev = false := by
  rw [← Bool.not_eq_true, matchesRule_iff]
  rintro ⟨h | h, _⟩
  · exact hne h
  · exact hnone ev.Type_ hty h

/-- C24: event names in a rule are compared as exact strings and validate does not look
at them. Two configurations whose rules agree in everything but their events lists get
the same verdict of validate. A rule whose events list is not empty and holds none of the
strings "create", "modify", "delete", "rename" is refused by matchesRule for every event
of type Create, Modify, Delete or Rename, whatever the path, the other rules and the
ignore patterns: Evaluate returns what it returns without the rule, and where no other
rule bears the name of the rule, its match is not among the matches returned. -/
theorem events_compared_exactly (r : Rule) (ev : Event) (pre post : List Rule)
    (ignores : List GoString)
    (hne : r.Events ≠ [])
    (hnone : ∀ s ∈ [bytes "create", bytes "modify", bytes "delete", bytes "rename"],
      s ∉ r.Events)
    (hty : ev.Type_ ∈ [Create, Modify, Delete, Rename]) :
    (∀ cfg cfg2 : Config, cfg.Rules.map eraseEvents = cfg2.Rules.map eraseEvents →
      validate cfg = validate cfg2) ∧
    (∀ e : Engine, e.matchesRule r ev = false) ∧
    Engine.Evaluate { rules := pre ++ r :: post, globalIgnores := ignores } ev =
      Engine.Evaluate { rules := pre ++ post, globalIgnores := ignores } ev ∧
    ((∀ r2 ∈ pre ++ post, r2.Name ≠ r.Name) →
      r.toMatch ∉ Engine.Evaluate { rules := pre ++ r :: post, globalIgnores := ignores } ev) := by
  have hm : ∀ e : Engine, e.matchesRule r ev = false :=
    fun e => matchesRule_unknown_events e r ev hne hnone hty
  have heq : Engine.Evaluate { rules := pre ++ r :: post, globalIgnores := ignores } ev =
      Engine.Evaluate { rules := pre ++ post, globalIgnores := ignores } ev := by
    simp only [Engine.Evaluate, rulesLoop_eq, List.filter_append, List.filter_cons]
    have h1 : Engine.matchesRule { rules := pre ++ r :: post, globalIgnores := ignores } r ev
        = false := hm _
    have h2 : ∀ x : Rule,
        Engine.matchesRule { rules := pre ++ r :: post, globalIgnores := ignores } x ev =
        Engine.matchesRule { rules := pre ++ post, globalIgnores := ignores } x ev :=
      fun x => rfl
    simp only [h1, h2, Bool.false_eq_true, if_false]
  refine ⟨validate_eraseEvents, hm, heq, ?_⟩
  intro huniq hmem
  rw [heq, Evaluate_eq_EvaluateByMatcher] at hmem
  obtain ⟨r2, hr2, hrm⟩ := List.mem_map.mp hmem
  exact huniq r2 (List.mem_filter.mp hr2).1 (congrArg Match.RuleName hrm)

/-- A rule with the events "Create" and "write" passes validate, and between "Go rebuild"
and "Log all" it adds nothing to what Evaluate returns for the Create of cmd/main.go,
although its pattern `**/*` matches the path. -/
theorem events_compared_exactly_witness :
    (ruleMisspelt.Events ≠ [] ∧
      (∀ s ∈ [bytes "create", bytes "modify", bytes "delete", bytes "rename"],
        s ∉ ruleMisspelt.Events) ∧
      evCreateMainGo.Type_ ∈ [Create, Modify, Delete, Rename]) ∧
    validate { Global := { Debounce := 0, Ignore := [] }, Rules := [ruleMisspelt] } = none ∧
    MatchPattern (bytes "**/*") evCreateMainGo.Path = true ∧
    Engine.Evaluate
        { rules := [ruleGoRebuild, ruleMisspelt, ruleLogAll],
          globalIgnores := testEngine.globalIgnores } evCreateMainGo =
      [ruleGoRebuild.toMatch, ruleLogAll.toMatch] ∧
    ((∀ cfg cfg2 : Config, cfg.Rules.map eraseEvents = cfg2.Rules.map eraseEvents →
      validate cfg = validate cfg2) ∧
    (∀ e : Engine, e.matchesRule ruleMisspelt evCreateMainGo = false) ∧
    Engine.Evaluate
        { rules := [ruleGoRebuild] ++ ruleMisspelt :: [ruleLogAll],
          globalIgnores := testEngine.globalIgnores } evCreateMainGo =
      Engine.Evaluate
        { rules := [ruleGoRebuild] ++ [ruleLogAll],
          globalIgnores := testEngine.globalIgnores } evCreateMainGo ∧
    ((∀ r2 ∈ [ruleGoRebuild] ++ [ruleLogAll], r2.Name ≠ ruleMisspelt.Name) →
      ruleMisspelt.toMatch ∉ Engine.Evaluate
        { rules := [ruleGoRebuild] ++ ruleMisspelt :: [ruleLogAll],
          globalIgnores := testEngine.globalIgnores } evCreateMainGo)) :=
  ⟨⟨by decide, by decide, by decide⟩, by decide, by decide, by decide,
   events_compared_exactly ruleMisspelt evCreateMainGo [ruleGoRebuild] [ruleLogAll]
     testEngine.globalIgnores (by decide) (by decide) (by decide)⟩


/-! ## Theorems: the function of an expired timer and a later call on its key -/

/-- C25, the run in which it fails: a first call on main.go under a delay of 50 ms, the
expiry of its timer, a second call on main.go before the function of the first timer has
taken the lock, and then that function under the lock. Before the function runs, the map
holds the timer of the second call under main.go; its `delete(d.timers, key)` removes
that entry, so the timer of the second call stays armed and is not in the map. Stop
then leaves it armed, and a third call 10 ms after the second does not stop it: the
callbacks of the second and of the third call are both called. -/
theorem handler_deletes_later_entry :
    ((NewDebouncer 50 0).run (lateHandlerSteps.take 4)).map
        (fun d => (d.started.map (fun t => t.id), mapGet d.timers (bytes "main.go"))) =
      some ([0], some 1) ∧
    ((NewDebouncer 50 0).run lateHandlerSteps).map
        (fun d => (d.done, d.armed, mapGet d.timers (bytes "main.go"))) =
      some (false, [{ id := 1, key := bytes "main.go", deadline := 100, fn := 1 }], none) ∧
    ((NewDebouncer 50 0).run lateHandlerSteps).map (fun d => d.stopClose.stopSweep.armed) =
      some [{ id := 1, key := bytes "main.go", deadline := 100, fn := 1 }] ∧
    ((NewDebouncer 50 0).run (lateHandlerSteps ++ lateHandlerRest)).map
        (fun d => (d.invoked, d.pool)) = some ([0, 1, 2], []) := by
  refine ⟨?_, ?_, ?_, ?_⟩ <;> decide

end Watchdog
